import Mathlib

/-!
Verification of `markdown_formatter.py` (diego-capacity-analyzer repository,
`src/.devcontainer/claude-config/.library/hooks/markdown_formatter.py`).

The script is embedded shallowly over `List Char`:
* `detect_language` models the function of the same name (lines 59-90),
  with each Python `re` pattern translated to an executable character-level
  matcher and `json.loads` success modelled by a strict JSON validator
  (`json_loads_ok`) following CPython's `json` module grammar.
* `format_markdown` models lines 92-108: the fence-rewriting `re.sub` pass
  (pattern `(?ms)^([ \t]{0,3})```([^\n]*)\n(.*?)(\n\1```)\s*$`), the
  blank-line collapse `re.sub(r'\n{3,}', '\n\n', _)`, and the final
  `rstrip() + '\n'`.
* `runHook` models the module-level driver (lines 111-131) over an abstract
  environment (stdin parse result, filesystem).

Whitespace classes (`\s`, `str.strip`, `str.rstrip`) are modelled by the six
ASCII whitespace characters, and `\w` by ASCII alphanumerics plus underscore;
this matches Python on all ASCII text.
-/

namespace MarkdownFormatter

/-- Left curly brace character (written via its code point). -/
def lbrace : Char := Char.ofNat 123

/-- Right curly brace character (written via its code point). -/
def rbrace : Char := Char.ofNat 125

/-- Backtick character (written via its code point). -/
def tick : Char := Char.ofNat 96

/-- Three backticks, the fence delimiter. -/
def ticks : List Char := [tick, tick, tick]

/-- Python regex `\s` / `str.strip` whitespace class (ASCII fragment):
space, tab, newline, carriage return, vertical tab, form feed. -/
def isPyWs (c : Char) : Bool :=
  c = ' ' || c = '\t' || c = '\n' || c = '\r' || c = Char.ofNat 11 || c = Char.ofNat 12

/-- Python regex `\w` word-character class (ASCII fragment). -/
def isWordChar (c : Char) : Bool :=
  c.isAlpha || c.isDigit || c = '_'

/-- Python `str.strip()`: remove leading and trailing whitespace. -/
def stripChars (l : List Char) : List Char :=
  ((l.dropWhile isPyWs).reverse.dropWhile isPyWs).reverse

/-- Match a literal character sequence as a prefix, returning the rest. -/
def dropLit : List Char → List Char → Option (List Char)
  | [], l => some l
  | _ :: _, [] => none
  | w :: ws, c :: t => if c = w then dropLit ws t else none

/-- Case-insensitive variant of `dropLit` (models `re.I` on letters). -/
def dropLitCI : List Char → List Char → Option (List Char)
  | [], l => some l
  | _ :: _, [] => none
  | w :: ws, c :: t => if c.toLower = w.toLower then dropLitCI ws t else none

/-- Consume one or more characters of a class (regex `p+`), maximal munch. -/
def dropClass1 (p : Char → Bool) : List Char → Option (List Char)
  | [] => none
  | c :: t => if p c then some (t.dropWhile p) else none

/-- Does `w` occur as a prefix of `l`? -/
def startsWith (w l : List Char) : Bool :=
  (dropLit w l).isSome

/-- Does `w` occur as a contiguous subsequence of `l`? (plain regex substring
search, no anchors). -/
def containsSeq (w : List Char) : List Char → Bool
  | [] => startsWith w []
  | c :: t => startsWith w (c :: t) || containsSeq w t

/-- Search for a match of `test` at the start of any line: models an `re.M`
search of a pattern anchored with `^`.  The auxiliary scans for positions
just after a newline. -/
def searchAfterNl (test : List Char → Bool) : List Char → Bool
  | [] => false
  | c :: t => (c = '\n' && test t) || searchAfterNl test t

/-- Search at the string start or after any newline (`^` with `re.M`). -/
def searchLineStart (test : List Char → Bool) (l : List Char) : Bool :=
  test l || searchAfterNl test l

/-- Search for a match of `test` at any position preceded by a word boundary
(regex `\b` before a word character); the `Bool` argument records whether the
previous character was a non-word character (true at the string start). -/
def searchBdry (test : List Char → Bool) : Bool → List Char → Bool
  | _, [] => false
  | bdry, c :: t => (bdry && test (c :: t)) || searchBdry test (!isWordChar c) t

/-- Word ends here or is followed by a non-word character (regex `\b` after). -/
def bdryAfter : List Char → Bool
  | [] => true
  | c :: _ => !isWordChar c

/-- A whole word `w` starts here: `w` is a prefix and is followed by a word
boundary. -/
def wordHere (w l : List Char) : Bool :=
  match dropLit w l with
  | some r => bdryAfter r
  | none => false

/-! JSON validation, modelling success of CPython `json.loads` with default
settings: values are objects, arrays, strings (with the eight single-character
escapes and `\uXXXX`, raw control characters rejected), numbers (`-?(0|[1-9]
[0-9]*)(.[0-9]+)?([eE][+-]?[0-9]+)?`), `true`, `false`, `null`, and the
non-standard `NaN`, `Infinity`, `-Infinity` accepted by CPython; whitespace
between tokens is space, tab, newline, carriage return. -/

/-- JSON inter-token whitespace. -/
def isJsonWs (c : Char) : Bool :=
  c = ' ' || c = '\t' || c = '\n' || c = '\r'

/-- Skip JSON inter-token whitespace. -/
def skipJsonWs (l : List Char) : List Char :=
  l.dropWhile isJsonWs

/-- ASCII decimal digit. -/
def isDig (c : Char) : Bool :=
  '0' ≤ c && c ≤ '9'

/-- ASCII hexadecimal digit. -/
def isHexDig (c : Char) : Bool :=
  isDig c || ('a' ≤ c && c ≤ 'f') || ('A' ≤ c && c ≤ 'F')

/-- Parse the tail of a JSON string (opening quote already consumed);
returns the input remaining after the closing quote. -/
def jsonStringTail : List Char → Option (List Char)
  | [] => none
  | c :: t =>
    if c = '\"' then some t
    else if c = '\\' then
      match t with
      | [] => none
      | e :: t2 =>
        if e = '\"' || e = '\\' || e = '/' || e = 'b' || e = 'f' || e = 'n'
            || e = 'r' || e = 't' then
          jsonStringTail t2
        else if e = 'u' then
          match t2 with
          | h1 :: h2 :: h3 :: h4 :: t6 =>
            if isHexDig h1 && isHexDig h2 && isHexDig h3 && isHexDig h4 then
              jsonStringTail t6
            else none
          | _ => none
        else none
    else if c.toNat < 32 then none
    else jsonStringTail t

/-- Parse the exponent part of a JSON number (possibly absent). -/
def jsonExpPart : List Char → Option (List Char)
  | [] => some []
  | c :: t =>
    if c = 'e' || c = 'E' then
      let t1 := match t with
        | s :: t2 => if s = '+' || s = '-' then t2 else s :: t2
        | [] => []
      match t1 with
      | d :: t3 => if isDig d then some (t3.dropWhile isDig) else none
      | [] => none
    else some (c :: t)

/-- Parse the fraction part of a JSON number (possibly absent), then the
exponent part. -/
def jsonFracPart : List Char → Option (List Char)
  | [] => some []
  | c :: t =>
    if c = '.' then
      match t with
      | d :: t2 => if isDig d then jsonExpPart (t2.dropWhile isDig) else none
      | [] => none
    else jsonExpPart (c :: t)

/-- Parse a JSON number starting at the current position (first character is
`-` or a digit). -/
def jsonNumberTail (l : List Char) : Option (List Char) :=
  let l1 := match l with
    | c :: t => if c = '-' then t else c :: t
    | [] => []
  match l1 with
  | c :: t =>
    if c = '0' then jsonFracPart t
    else if isDig c then jsonFracPart (t.dropWhile isDig)
    else none
  | [] => none

/-- Parser modes for the fuelled JSON recogniser: a value, the inside of an
object just after the brace, the inside of an object after a member, and the
two corresponding array states. -/
inductive JMode : Type
  | val : JMode
  | objStart : JMode
  | objMore : JMode
  | arrStart : JMode
  | arrMore : JMode
deriving DecidableEq

/-- Fuelled JSON recogniser: returns the remaining input after one value
(mode `val`) or after the closing delimiter (other modes). -/
def jsonRun : Nat → JMode → List Char → Option (List Char)
  | 0, _, _ => none
  | Nat.succ f, JMode.val, l =>
    match l with
    | [] => none
    | c :: t =>
      if c = '\"' then jsonStringTail t
      else if c = lbrace then jsonRun f JMode.objStart t
      else if c = '[' then jsonRun f JMode.arrStart t
      else if c = 't' then dropLit ("rue".toList) t
      else if c = 'f' then dropLit ("alse".toList) t
      else if c = 'n' then dropLit ("ull".toList) t
      else if c = 'N' then dropLit ("aN".toList) t
      else if c = 'I' then dropLit ("nfinity".toList) t
      else if c = '-' then
        match dropLit ("Infinity".toList) t with
        | some r => some r
        | none => jsonNumberTail (c :: t)
      else if isDig c then jsonNumberTail (c :: t)
      else none
  | Nat.succ f, JMode.objStart, l =>
    match skipJsonWs l with
    | [] => none
    | c :: t =>
      if c = rbrace then some t
      else if c = '\"' then
        match jsonStringTail t with
        | some r1 =>
          match skipJsonWs r1 with
          | ':' :: r2 =>
            match jsonRun f JMode.val (skipJsonWs r2) with
            | some r3 => jsonRun f JMode.objMore r3
            | none => none
          | _ => none
        | none => none
      else none
  | Nat.succ f, JMode.objMore, l =>
    match skipJsonWs l with
    | [] => none
    | c :: t =>
      if c = rbrace then some t
      else if c = ',' then
        match skipJsonWs t with
        | '\"' :: t2 =>
          match jsonStringTail t2 with
          | some r1 =>
            match skipJsonWs r1 with
            | ':' :: r2 =>
              match jsonRun f JMode.val (skipJsonWs r2) with
              | some r3 => jsonRun f JMode.objMore r3
              | none => none
            | _ => none
          | none => none
        | _ => none
      else none
  | Nat.succ f, JMode.arrStart, l =>
    match skipJsonWs l with
    | [] => none
    | c :: t =>
      if c = ']' then some t
      else
        match jsonRun f JMode.val (c :: t) with
        | some r1 => jsonRun f JMode.arrMore r1
        | none => none
  | Nat.succ f, JMode.arrMore, l =>
    match skipJsonWs l with
    | [] => none
    | c :: t =>
      if c = ']' then some t
      else if c = ',' then
        match jsonRun f JMode.val (skipJsonWs t) with
        | some r1 => jsonRun f JMode.arrMore r1
        | none => none
      else none

/-- Success of `json.loads(s)`: optional leading and trailing whitespace
around exactly one JSON value.  The fuel `2 * length + 4` dominates the
recursion depth, which consumes at least one character every two steps. -/
def json_loads_ok (s : List Char) : Bool :=
  match jsonRun (2 * s.length + 4) JMode.val (skipJsonWs s) with
  | some r => (skipJsonWs r).isEmpty
  | none => false

/-! The five ordered detector rules of `detect_language` (lines 63-90). -/

/-- Rule 1 guard, `re.search(r'^\s*[{\[]', s)`: after leading whitespace the
string starts with a curly or square opening bracket. -/
def startsBrace (s : List Char) : Bool :=
  match s.dropWhile isPyWs with
  | c :: _ => c = lbrace || c = '['
  | [] => false

/-- Match `\s*def\s+\w+\s*\(` at the current (line-start) position. -/
def pyDefAt (l : List Char) : Bool :=
  match dropLit ("def".toList) (l.dropWhile isPyWs) with
  | some r1 =>
    match dropClass1 isPyWs r1 with
    | some r2 =>
      match dropClass1 isWordChar r2 with
      | some r3 =>
        match r3.dropWhile isPyWs with
        | '(' :: _ => true
        | _ => false
      | none => false
    | none => false
  | none => false

/-- Match `\s+\w+` starting at the given position (tail of the import rule). -/
def wsWordTail (r : Option (List Char)) : Bool :=
  match r with
  | some l =>
    match dropClass1 isPyWs l with
    | some l2 => (dropClass1 isWordChar l2).isSome
    | none => false
  | none => false

/-- Match `\s*(import|from)\s+\w+` at the current (line-start) position. -/
def pyImportAt (l : List Char) : Bool :=
  wsWordTail (dropLit ("import".toList) (l.dropWhile isPyWs))
    || wsWordTail (dropLit ("from".toList) (l.dropWhile isPyWs))

/-- The python rule: `re.search(r'^\s*def\s+\w+\s*\(', s, re.M) or
re.search(r'^\s*(import|from)\s+\w+', s, re.M)` (lines 72-73). -/
def pyMatch (s : List Char) : Bool :=
  searchLineStart pyDefAt s || searchLineStart pyImportAt s

/-- Match `function\s+\w+\s*\(` at the current position. -/
def jsFuncAt (l : List Char) : Bool :=
  match dropLit ("function".toList) l with
  | some r1 =>
    match dropClass1 isPyWs r1 with
    | some r2 =>
      match dropClass1 isWordChar r2 with
      | some r3 =>
        match r3.dropWhile isPyWs with
        | '(' :: _ => true
        | _ => false
      | none => false
    | none => false
  | none => false

/-- Match `const\s+\w+\s*=` at the current position. -/
def jsConstAt (l : List Char) : Bool :=
  match dropLit ("const".toList) l with
  | some r1 =>
    match dropClass1 isPyWs r1 with
    | some r2 =>
      match dropClass1 isWordChar r2 with
      | some r3 =>
        match r3.dropWhile isPyWs with
        | '=' :: _ => true
        | _ => false
      | none => false
    | none => false
  | none => false

/-- The javascript rule: `re.search(r'\b(function\s+\w+\s*\(|const\s+\w+\s*=)',
s) or re.search(r'=>|console\.(log|error)', s)` (lines 77-78). -/
def jsMatch (s : List Char) : Bool :=
  searchBdry (fun l => jsFuncAt l || jsConstAt l) true s
    || containsSeq ("=>".toList) s
    || containsSeq ("console.log".toList) s
    || containsSeq ("console.error".toList) s

/-- Scan the remainder of a line (stopping at a newline, regex `.`) for a
whole-word occurrence of `bash` or `sh`; the `Bool` argument records whether
the previous character was a non-word character. -/
def bashShInLine : Bool → List Char → Bool
  | _, [] => false
  | bdry, c :: t =>
    if c = '\n' then false
    else
      (bdry && (wordHere ("bash".toList) (c :: t) || wordHere ("sh".toList) (c :: t)))
        || bashShInLine (!isWordChar c) t

/-- Match `#!.*\b(bash|sh)\b` at the current (line-start) position. -/
def shebangAt (l : List Char) : Bool :=
  match dropLit ("#!".toList) l with
  | some r => bashShInLine true r
  | none => false

/-- Whole-word occurrence of one of the shell keywords at this position. -/
def bashKwAt (l : List Char) : Bool :=
  wordHere ("if".toList) l || wordHere ("then".toList) l || wordHere ("fi".toList) l
    || wordHere ("for".toList) l || wordHere ("in".toList) l
    || wordHere ("do".toList) l || wordHere ("done".toList) l

/-- The bash rule: `re.search(r'^#!.*\b(bash|sh)\b', s, re.M) or
re.search(r'\b(if|then|fi|for|in|do|done)\b', s)` (lines 82-83). -/
def bashMatch (s : List Char) : Bool :=
  searchLineStart shebangAt s || searchBdry bashKwAt true s

/-- A case-insensitive SQL keyword followed by at least one whitespace
character at this position. -/
def sqlKwAt (l : List Char) : Bool :=
  sqlKwWs (dropLitCI ("SELECT".toList) l) || sqlKwWs (dropLitCI ("INSERT".toList) l)
    || sqlKwWs (dropLitCI ("UPDATE".toList) l) || sqlKwWs (dropLitCI ("DELETE".toList) l)
    || sqlKwWs (dropLitCI ("CREATE".toList) l)
where
  sqlKwWs : Option (List Char) → Bool
    | some (c :: _) => isPyWs c
    | _ => false

/-- The sql rule: `re.search(r'\b(SELECT|INSERT|UPDATE|DELETE|CREATE)\s+', s,
re.I)` (line 87). -/
def sqlMatch (s : List Char) : Bool :=
  searchBdry sqlKwAt true s

/-- `detect_language` (lines 59-90): strip the code, then apply the five
ordered rules, falling back to `text`. -/
def detect_language (code : List Char) : String :=
  let s := stripChars code
  if startsBrace s && json_loads_ok s then "json"
  else if pyMatch s then "python"
  else if jsMatch s then "javascript"
  else if bashMatch s then "bash"
  else if sqlMatch s then "sql"
  else "text"

/-! The fence rewriter (`format_markdown`, lines 92-108).  The pattern
`(?ms)^([ \t]{0,3})```([^\n]*)\n(.*?)(\n\1```)\s*$` is executed exactly as
CPython's `re.sub` does: matches start only at line starts; the indent and
info captures are forced (the characters after them are outside their
classes); the lazy body grows until the first position where the closing
`\n` + indent + backticks matches and the trailing `\s*$` succeeds; and
`\s*$` greedily consumes the following whitespace run up to end of input, or
otherwise up to the last newline inside the run (failing if the run contains
no newline and does not reach the end). -/

/-- The fence indentation class `[ \t]`. -/
def isIndentCh (c : Char) : Bool :=
  c = ' ' || c = '\t'

/-- The info-string class `[^\n]`. -/
def notNl (c : Char) : Bool :=
  !(c = '\n')

/-- Split a whitespace run at its last newline: `some (pre, post)` with
`run = pre ++ post`, `post` starting with the last newline; `none` when the
run contains no newline. -/
def splitLastNl (run : List Char) : Option (List Char × List Char) :=
  match run.reverse.dropWhile notNl with
  | [] => none
  | _ :: rr =>
    some (rr.reverse, '\n' :: (run.reverse.takeWhile notNl).reverse)

/-- The `\s*$` tail of the fence pattern: on success, returns the consumed
whitespace (part of the match) and the remaining input (which is empty or
starts at a newline). -/
def wsDollar (l : List Char) : Option (List Char × List Char) :=
  let run := l.takeWhile isPyWs
  let rest := l.dropWhile isPyWs
  if rest.isEmpty then some (run, [])
  else
    match splitLastNl run with
    | some (pre, post) => some (pre, post ++ rest)
    | none => none

/-- Does the closing fence `\n` + indent + three backticks followed by a
successful `\s*$` start here?  Returns the consumed trailing whitespace and
the rest. -/
def checkClose (ind : List Char) (l : List Char) : Option (List Char × List Char) :=
  match dropLit ('\n' :: (ind ++ ticks)) l with
  | some r3 => wsDollar r3
  | none => none

/-- Lazy search (regex `(.*?)`) for the earliest closing fence: returns the
body, the trailing whitespace consumed by `\s*$`, and the rest. -/
def findClose (ind : List Char) : List Char → Option (List Char × List Char × List Char)
  | [] => none
  | c :: t =>
    match checkClose ind (c :: t) with
    | some (w, r) => some ([], w, r)
    | none =>
      match findClose ind t with
      | some (b, w, r) => some (c :: b, w, r)
      | none => none

/-- The four captures of one fence match, the whitespace consumed by the
trailing `\s*$`, and the input remaining after the match. -/
structure FenceMatch where
  indent : List Char
  info : List Char
  body : List Char
  closing : List Char
  wsTail : List Char
  rest : List Char
deriving Repr, DecidableEq

/-- Attempt the fence pattern at a line-start position. -/
def matchFence? (l : List Char) : Option FenceMatch :=
  let ind := l.takeWhile isIndentCh
  if ind.length > 3 then none
  else
    match dropLit ticks (l.dropWhile isIndentCh) with
    | some r2 =>
      match r2.dropWhile notNl with
      | '\n' :: r4 =>
        match findClose ind r4 with
        | some (b, w, r) =>
          some ⟨ind, r2.takeWhile notNl, b, '\n' :: (ind ++ ticks), w, r⟩
        | none => none
      | _ => none
    | none => none

/-- The exact input text consumed by a fence match (`match.group(0)`). -/
def matchedText (m : FenceMatch) : List Char :=
  m.indent ++ ticks ++ m.info ++ '\n' :: (m.body ++ m.closing ++ m.wsTail)

/-- `add_lang_to_fence` (lines 95-100): tag an unlabeled fence with the
detected language (the replacement `f"{indent}```{lang}\n{body}{closing}\n"`),
and return already-labeled fences unchanged (`match.group(0)`). -/
def add_lang_to_fence (m : FenceMatch) : List Char :=
  if stripChars m.info = [] then
    m.indent ++ ticks ++ (detect_language m.body).toList
      ++ '\n' :: (m.body ++ m.closing ++ ['\n'])
  else
    matchedText m

/-- Is the last character consumed by the match a newline?  (If so, the
position right after the match is again a line start.) -/
def lastIsNl (m : FenceMatch) : Bool :=
  match m.wsTail.getLast? with
  | some c => c = '\n'
  | none => false

/-- One left-to-right `re.sub` scan: at each line start try the fence
pattern, emit the replacement and continue after the match; otherwise copy
one character.  The fuel dominates the input length. -/
def subFencesAux : Nat → Bool → List Char → List Char
  | 0, _, l => l
  | Nat.succ f, ls, l =>
    match if ls then matchFence? l else none with
    | some m => add_lang_to_fence m ++ subFencesAux f (lastIsNl m) m.rest
    | none =>
      match l with
      | [] => []
      | c :: t => c :: subFencesAux f (c = '\n') t

/-- `re.sub(fence_pattern, add_lang_to_fence, text)` (line 103). -/
def subFences (l : List Char) : List Char :=
  subFencesAux (l.length + 1) true l

/-- Replacement for one run of `n` newlines under
`re.sub(r'\n\x7b3,\x7d', '\n\n', _)`. -/
def collapseRun (n : Nat) : List Char :=
  if 3 ≤ n then ['\n', '\n'] else List.replicate n '\n'

/-- Blank-line collapse, accumulating the current newline-run length. -/
def collapseAux : Nat → List Char → List Char
  | n, [] => collapseRun n
  | n, c :: t =>
    if c = '\n' then collapseAux (n + 1) t
    else collapseRun n ++ c :: collapseAux 0 t

/-- `re.sub(r'\n\x7b3,\x7d', '\n\n', _)` (line 106): every maximal run of
three or more newlines becomes exactly two. -/
def collapseNl (l : List Char) : List Char :=
  collapseAux 0 l

/-- Python `str.rstrip()`: remove trailing whitespace. -/
def rstripChars (l : List Char) : List Char :=
  (l.reverse.dropWhile isPyWs).reverse

/-- `format_markdown` (lines 92-108): fence rewriting, then blank-line
collapse, then `rstrip() + '\n'`. -/
def format_markdown (text : List Char) : List Char :=
  rstripChars (collapseNl (subFences text)) ++ ['\n']

/-! The module-level driver (lines 111-131), modelled over an abstract
environment: the result of `json.load(sys.stdin)`, the filesystem existence
check, the read (with possible `OSError` / `UnicodeDecodeError`), and write
success.  `json.JSONDecodeError`, `OSError` and `UnicodeDecodeError` are
caught and mapped to exit code 1 with a message on stderr; an
`AttributeError` from `.get`/`.endswith` on an unexpectedly-shaped value is
not caught, so the interpreter prints a traceback to stderr and exits 1. -/

/-- Python values as produced by `json.load`. -/
inductive PyVal : Type
  | str : String → PyVal
  | num : Int → PyVal
  | boolean : Bool → PyVal
  | null : PyVal
  | arr : List PyVal → PyVal
  | dict : List (String × PyVal) → PyVal

/-- `dict.get(key)` on the association list of a JSON object. -/
def dictGet : List (String × PyVal) → String → Option PyVal
  | [], _ => none
  | (k, v) :: t, key => if k = key then some v else dictGet t key

/-- Result of evaluating
`input_data.get('tool_input', \x7b\x7d).get('file_path', '')` followed by the
`.endswith` call: either a string path, or an uncaught `AttributeError`
(`.get` on a non-dict, or `.endswith` on a non-string). -/
inductive ExtractResult : Type
  | path : String → ExtractResult
  | attrError : ExtractResult
deriving DecidableEq

/-- Extract the file path (lines 112-115), tracking `AttributeError`. -/
def extractPath : PyVal → ExtractResult
  | PyVal.dict d =>
    match (dictGet d ("tool_input")).getD (PyVal.dict []) with
    | PyVal.dict d2 =>
      match (dictGet d2 ("file_path")).getD (PyVal.str ("")) with
      | PyVal.str p => ExtractResult.path p
      | _ => ExtractResult.attrError
    | _ => ExtractResult.attrError
  | _ => ExtractResult.attrError

/-- `file_path.endswith(('.md', '.mdx'))` (line 115). -/
def isMarkdownPath (p : String) : Bool :=
  (".md".toList).isSuffixOf p.toList || (".mdx".toList).isSuffixOf p.toList

/-- Result of opening and reading the target file as UTF-8. -/
inductive ReadResult : Type
  | content : List Char → ReadResult
  | osError : ReadResult
  | decodeError : ReadResult
deriving DecidableEq

/-- Abstract invocation environment: stdin parse result (`none` when
`json.load` fails), filesystem existence, file read result, write success. -/
structure Env where
  stdin : Option PyVal
  pathExists : String → Bool
  readFile : String → ReadResult
  writeOk : String → Bool

/-- Observable outcome of one invocation: process exit code, whether
diagnostic text reached the error stream, which file (if any) was opened for
reading, which file (if any) was overwritten and with what, and whether the
confirmation line was printed. -/
structure Outcome where
  exitCode : Nat
  errStream : Bool
  readPath : Option String
  written : Option (String × List Char)
  confirmMsg : Bool
deriving DecidableEq

/-- The driver (lines 111-131) as a function of the environment. -/
def runHook (env : Env) : Outcome :=
  match env.stdin with
  | none => ⟨1, true, none, none, false⟩
  | some v =>
    match extractPath v with
    | ExtractResult.attrError => ⟨1, true, none, none, false⟩
    | ExtractResult.path p =>
      if !(isMarkdownPath p) then ⟨0, false, none, none, false⟩
      else if !(env.pathExists p) then ⟨0, false, none, none, false⟩
      else
        match env.readFile p with
        | ReadResult.osError => ⟨1, true, some p, none, false⟩
        | ReadResult.decodeError => ⟨1, true, some p, none, false⟩
        | ReadResult.content c =>
          if format_markdown c = c then ⟨0, false, some p, none, false⟩
          else if env.writeOk p then ⟨0, false, some p, some (p, format_markdown c), true⟩
          else ⟨1, true, some p, none, false⟩

/-- The detector rules strictly after the JSON rule (lines 72-90), used to
state that a failed JSON parse falls through to them. -/
def detectFromPython (s : List Char) : String :=
  if pyMatch s then "python"
  else if jsMatch s then "javascript"
  else if bashMatch s then "bash"
  else if sqlMatch s then "sql"
  else "text"

/-- The closed set of language tags the detector can produce. -/
def langTags : List String :=
  ["json", "python", "javascript", "bash", "sql", "text"]

/-- Concrete environment: well-formed request for a non-markdown path. -/
def envNotMd : Env :=
  ⟨some (PyVal.dict [("tool_input", PyVal.dict [("file_path", PyVal.str ("/tmp/notes.txt"))])]),
    fun _ => true, fun _ => ReadResult.content [], fun _ => true⟩

/-- Concrete environment: stdin is the valid JSON text `[]` (a list, not an
object). -/
def envArrStdin : Env :=
  ⟨some (PyVal.arr []), fun _ => true, fun _ => ReadResult.content [], fun _ => true⟩

/-- Concrete environment: stdin is the valid JSON object with no
`tool_input` key. -/
def envEmptyDict : Env :=
  ⟨some (PyVal.dict []), fun _ => true, fun _ => ReadResult.content [], fun _ => true⟩

/-- Concrete document with one untagged fence. -/
def fenceDoc1 : List Char :=
  ("```\nx\n```\n").toList

/-- The fence match produced on `fenceDoc1`. -/
def fenceM1 : FenceMatch :=
  ⟨[], [], ['x'], '\n' :: ticks, ['\n'], []⟩

/-- Concrete document with one explicitly tagged fence. -/
def fenceDoc2 : List Char :=
  ("```py\nx\n```\n").toList

/-- The fence match produced on `fenceDoc2`. -/
def fenceM2 : FenceMatch :=
  ⟨[], ['p', 'y'], ['x'], '\n' :: ticks, ['\n'], []⟩

/-- Companion scan to `subFencesAux` recording whether every fence match
found during the scan carries a non-whitespace info string (such a scan
rewrites nothing). -/
def scanClean : Nat → Bool → List Char → Bool
  | 0, _, _ => true
  | Nat.succ f, ls, l =>
    match if ls then matchFence? l else none with
    | some m => !(stripChars m.info).isEmpty && scanClean f (lastIsNl m) m.rest
    | none =>
      match l with
      | [] => true
      | c :: t => scanClean f (c = '\n') t

/-- `subFencesAux` with its canonical fuel, generalized over the line-start
flag. -/
def subF (b : Bool) (l : List Char) : List Char :=
  subFencesAux (l.length + 1) b l

/-- `scanClean` with its canonical fuel. -/
def scanCl (b : Bool) (l : List Char) : Bool :=
  scanClean (l.length + 1) b l

/-- Scan state for detecting a run of three or more newlines: `n` is the
length of the newline run ending at the current position (saturated at 2). -/
def noTriple : Nat → List Char → Bool
  | _, [] => true
  | n, c :: t =>
    if c = '\n' then
      if 2 ≤ n then false else noTriple (n + 1) t
    else noTriple 0 t

/-- Correspondence between a text and its blank-line-collapsed image: the
non-newline characters agree, and each maximal newline run of length `j ≥ 1`
on the left corresponds to a run of length `j' ≥ 1` on the right with
`2 ≤ j ↔ 2 ≤ j'` (the collapse maps `j ≥ 3` to `2` and keeps `j ≤ 2`; the
scanner is sensitive only to these bounds). -/
inductive Coll : List Char → List Char → Prop where
  | nil : Coll [] []
  | copy (c : Char) (x y : List Char) : ¬ c = '\n' → Coll x y → Coll (c :: x) (c :: y)
  | run (j j' : Nat) (x y : List Char) : 1 ≤ j → 1 ≤ j' → (2 ≤ j ↔ 2 ≤ j') →
      (∀ c, x.head? = some c → ¬ c = '\n') → (∀ c, y.head? = some c → ¬ c = '\n') →
      Coll x y →
      Coll (List.replicate j '\n' ++ x) (List.replicate j' '\n' ++ y)

/-- Every suffix of `x` (continued by `y`) fails the closing-fence check:
no position inside `x ++ y` that lies in `x` starts a valid closing fence. -/
def ckAll (ind x y : List Char) : Prop :=
  ∀ k, checkClose ind (x.drop k ++ y) = none

/-! Supporting lemmas shared by the claim theorems. -/

theorem detect_mem (code : List Char) : detect_language code ∈ langTags := by
  simp only [detect_language, langTags]
  split_ifs <;> simp

theorem dropLit_sound : ∀ (w l r : List Char), dropLit w l = some r → l = w ++ r := by
  intro w
  induction w with
  | nil =>
    intro l r h
    simp [dropLit] at h
    simp [h]
  | cons a as ih =>
    intro l r h
    cases l with
    | nil => simp [dropLit] at h
    | cons c t =>
      simp only [dropLit] at h
      split at h
      · rename_i hc
        have ht := ih t r h
        simp [hc, ht]
      · exact absurd h (by simp)

theorem dropWhile_head_false (p : Char → Bool) :
    ∀ (l : List Char) (x : Char) (rr : List Char), l.dropWhile p = x :: rr → p x = false := by
  intro l
  induction l with
  | nil => intro x rr h; simp [List.dropWhile] at h
  | cons c t ih =>
    intro x rr h
    by_cases hc : p c = true
    · rw [List.dropWhile_cons_of_pos hc] at h
      exact ih x rr h
    · rw [List.dropWhile_cons_of_neg hc] at h
      cases h
      simpa using hc

theorem splitLastNl_sound (run a b : List Char) (h : splitLastNl run = some (a, b)) :
    run = a ++ b := by
  unfold splitLastNl at h
  cases hd : run.reverse.dropWhile notNl with
  | nil => rw [hd] at h; exact absurd h (by simp)
  | cons x rr =>
    rw [hd] at h
    have hx' : x = '\n' := by
      have hx := dropWhile_head_false notNl run.reverse x rr hd
      simpa [notNl] using hx
    have hsplit : run.reverse.takeWhile notNl ++ x :: rr = run.reverse := by
      rw [← hd]
      exact List.takeWhile_append_dropWhile _ _
    have hrun : rr.reverse ++ x ::
        (run.reverse.takeWhile notNl).reverse = run := by
      have h2 := congrArg List.reverse hsplit
      simpa [List.reverse_append] using h2
    simp only [Option.some.injEq, Prod.mk.injEq] at h
    obtain ⟨ha, hb⟩ := h
    rw [← ha, ← hb]
    rw [hx'] at hrun
    exact hrun.symm

theorem wsDollar_sound (l a b : List Char) (h : wsDollar l = some (a, b)) : l = a ++ b := by
  unfold wsDollar at h
  by_cases he : (l.dropWhile isPyWs).isEmpty = true
  · simp only [he, if_true] at h
    cases h
    have : l.dropWhile isPyWs = [] := by simpa [List.isEmpty_iff] using he
    conv_lhs => rw [← List.takeWhile_append_dropWhile (p := isPyWs) (l := l)]
    simp [this]
  · simp only [he, if_false] at h
    cases hs : splitLastNl (l.takeWhile isPyWs) with
    | none => rw [hs] at h; exact absurd h (by simp)
    | some pq =>
      obtain ⟨p2, post⟩ := pq
      rw [hs] at h
      cases h
      have hr := splitLastNl_sound _ _ _ hs
      conv_lhs => rw [← List.takeWhile_append_dropWhile (p := isPyWs) (l := l)]
      rw [hr]
      simp

theorem checkClose_sound (ind l w r : List Char) (h : checkClose ind l = some (w, r)) :
    l = '\n' :: (ind ++ ticks) ++ (w ++ r) := by
  unfold checkClose at h
  split at h
  · rename_i r3 h1
    have e1 := dropLit_sound _ l r3 h1
    have e3 := wsDollar_sound r3 w r h
    rw [e1, e3]
  · exact absurd h (by simp)

theorem findClose_sound (ind : List Char) :
    ∀ (l b w r : List Char), findClose ind l = some (b, w, r) →
      l = b ++ '\n' :: (ind ++ ticks) ++ (w ++ r) := by
  intro l
  induction l with
  | nil => intro b w r h; simp [findClose] at h
  | cons c t ih =>
    intro b w r h
    unfold findClose at h
    split at h
    · rename_i w1 r1 h1
      have e := checkClose_sound ind (c :: t) w1 r1 h1
      simp only [Option.some.injEq, Prod.mk.injEq] at h
      obtain ⟨hb, hw, hr⟩ := h
      rw [← hb, ← hw, ← hr]
      simpa using e
    · rename_i h1
      split at h
      · rename_i b1 w1 r1 h2
        have e := ih b1 w1 r1 h2
        simp only [Option.some.injEq, Prod.mk.injEq] at h
        obtain ⟨hb, hw, hr⟩ := h
        rw [← hb, ← hw, ← hr]
        simp [e]
      · exact absurd h (by simp)

theorem matchFence?_sound (l : List Char) (m : FenceMatch) (h : matchFence? l = some m) :
    l = matchedText m ++ m.rest := by
  simp only [matchFence?] at h
  split at h
  · exact absurd h (by simp)
  · split at h
    · rename_i r2 h1
      split at h
      · rename_i r4 h2
        split at h
        · rename_i b w r h4
          simp only [Option.some.injEq] at h
          subst h
          have e1 := dropLit_sound ticks _ r2 h1
          have e2 : r2.takeWhile notNl ++ '\n' :: r4 = r2 := by
            rw [← h2]
            exact List.takeWhile_append_dropWhile _ _
          have e4 := findClose_sound _ r4 b w r h4
          unfold matchedText
          conv_lhs => rw [← List.takeWhile_append_dropWhile
            (p := isIndentCh) (l := l)]
          rw [e1]
          conv_lhs => rw [e2.symm, e4]
          simp
        · exact absurd h (by simp)
      · exact absurd h (by simp)
    · exact absurd h (by simp)

/-- C5: for every input string the Language Detector terminates normally and
returns exactly one element of the closed set
\x7bjson, python, javascript, bash, sql, text\x7d, falling back to `text`;
being a total function, detection can never raise or fail the run. -/
theorem detector_total_closed_set (code : List Char) :
    detect_language code = "json" ∨ detect_language code = "python"
  ∨ detect_language code = "javascript" ∨ detect_language code = "bash"
  ∨ detect_language code = "sql" ∨ detect_language code = "text" := by
  have h := detect_mem code
  simpa [langTags] using h

/-- C1 counterexample: the detector applied to the body `print("hi")` returns
`text`, not `python`, and the full transform tags the fence `text`. -/
theorem printHi_detected_as_text :
    detect_language (("print(\"hi\")").toList) = "text"
  ∧ ¬ detect_language (("print(\"hi\")").toList) = "python"
  ∧ format_markdown (("```\nprint(\"hi\")\n```\n").toList)
      = ("```text\nprint(\"hi\")\n```\n").toList := by
  refine ⟨by decide, by decide, by decide⟩

/-- C1 amended: end-to-end, a document containing an untagged code fence
whose body is `print("hi")` is transformed into one whose fence is tagged
`text` (the Language Detector applied to `print("hi")` returns `text`:
the body matches none of the json/python/javascript/bash/sql rules). -/
theorem printHi_end_to_end :
    format_markdown (("```\nprint(\"hi\")\n```\n").toList)
      = ("```text\nprint(\"hi\")\n```\n").toList
  ∧ detect_language (("print(\"hi\")").toList) = "text" := by
  refine ⟨by decide, by decide⟩

/-- C4: for every input whose stripped text starts with a curly or square
bracket, a successful strict JSON parse yields the tag `json`, while a failed
parse does not short-circuit to `text` but falls through to the later
python/javascript/bash/sql/text rules. -/
theorem detector_json_rule (code : List Char)
    (h : startsBrace (stripChars code) = true) :
    (json_loads_ok (stripChars code) = true → detect_language code = "json")
  ∧ (json_loads_ok (stripChars code) = false →
      detect_language code = detectFromPython (stripChars code)) := by
  constructor
  · intro hv
    unfold detect_language
    simp [h, hv]
  · intro hv
    unfold detect_language detectFromPython
    simp [h, hv]

/-- C4 witness: `\x7bfor x in y\x7d` starts with a brace, fails the JSON
parse, and falls through to the bash rule (not forced to `json`, not
short-circuited to `text`), while `[1, 2]` parses and is tagged `json`. -/
theorem detector_json_rule_witness :
    detect_language (("\x7bfor x in y\x7d").toList) = "bash"
  ∧ detect_language (("[1, 2]").toList) = "json" := by
  constructor
  · have h := (detector_json_rule (("\x7bfor x in y\x7d").toList) (by decide)).2 (by decide)
    rw [h]
    decide
  · exact (detector_json_rule (("[1, 2]").toList) (by decide)).1 (by decide)

/-- C2: every fence matched by the rewriter whose info string is empty or
whitespace-only is rewritten so that the fence-open line's info string is
exactly one tag of the closed set, while the fenced body bytes are exactly
the body bytes captured from the input (which decomposes as shown). -/
theorem rewriter_tags_untagged_fence (l : List Char) (m : FenceMatch)
    (hm : matchFence? l = some m) (hinfo : stripChars m.info = []) :
    ∃ lang, lang ∈ langTags
      ∧ add_lang_to_fence m
          = m.indent ++ ticks ++ lang.toList ++ '\n' :: (m.body ++ m.closing ++ ['\n'])
      ∧ l = m.indent ++ ticks ++ m.info ++ '\n' :: (m.body ++ m.closing ++ m.wsTail)
          ++ m.rest := by
  refine ⟨detect_language m.body, detect_mem m.body, ?_, ?_⟩
  · unfold add_lang_to_fence
    rw [if_pos hinfo]
  · have hs := matchFence?_sound l m hm
    simpa [matchedText] using hs

/-- C2 witness: the concrete untagged fence document. -/
theorem rewriter_tags_untagged_fence_witness :
    ∃ lang, lang ∈ langTags
      ∧ add_lang_to_fence fenceM1
          = fenceM1.indent ++ ticks ++ lang.toList
            ++ '\n' :: (fenceM1.body ++ fenceM1.closing ++ ['\n'])
      ∧ fenceDoc1 = fenceM1.indent ++ ticks ++ fenceM1.info
          ++ '\n' :: (fenceM1.body ++ fenceM1.closing ++ fenceM1.wsTail) ++ fenceM1.rest :=
  rewriter_tags_untagged_fence fenceDoc1 fenceM1 (by decide) (by decide)

/-- C3: every fence matched by the rewriter whose info string is non-empty
(not whitespace-only) is emitted as exactly the matched bytes — header line
included — so an explicit tag is never overridden. -/
theorem rewriter_preserves_tagged_fence (l : List Char) (m : FenceMatch)
    (hm : matchFence? l = some m) (hinfo : stripChars m.info ≠ []) :
    add_lang_to_fence m = matchedText m ∧ add_lang_to_fence m ++ m.rest = l := by
  have hs := matchFence?_sound l m hm
  have he : add_lang_to_fence m = matchedText m := by
    unfold add_lang_to_fence
    rw [if_neg hinfo]
  exact ⟨he, by rw [he]; exact hs.symm⟩

/-- C3 witness: the concrete tagged fence document. -/
theorem rewriter_preserves_tagged_fence_witness :
    add_lang_to_fence fenceM2 = matchedText fenceM2
  ∧ add_lang_to_fence fenceM2 ++ fenceM2.rest = fenceDoc2 :=
  rewriter_preserves_tagged_fence fenceDoc2 fenceM2 (by decide) (by decide)

theorem collapseAux_cons_nl (k : Nat) (t : List Char) :
    collapseAux k ('\n' :: t) = collapseAux (k + 1) t := by
  simp [collapseAux]

theorem collapseAux_cons_other {c : Char} (hc : ¬ c = '\n') (k : Nat) (t : List Char) :
    collapseAux k (c :: t) = collapseRun k ++ c :: collapseAux 0 t := by
  simp [collapseAux, hc]

theorem collapseAux_append : ∀ (a : List Char), a ≠ [] → a.getLast? ≠ some '\n' →
    ∀ (k : Nat) (r : List Char),
      collapseAux k (a ++ r) = collapseAux k a ++ collapseAux 0 r := by
  intro a
  induction a with
  | nil => intro h0 _; exact absurd rfl h0
  | cons c t ih =>
    intro _ hl k r
    cases t with
    | nil =>
      have hc : ¬ c = '\n' := by
        intro hc
        exact hl (by simp [hc])
      simp [collapseAux_cons_other hc, collapseAux, collapseRun, hc]
    | cons d u =>
      have hlt : (d :: u).getLast? ≠ some '\n' := by
        rwa [List.getLast?_cons_cons] at hl
      have ih' := ih (by simp) hlt
      by_cases hc : c = '\n'
      · subst hc
        simp only [List.cons_append, collapseAux_cons_nl]
        exact ih' (k + 1) r
      · simp only [List.cons_append, collapseAux_cons_other hc]
        have ih2 := ih' 0 r
        rw [List.cons_append] at ih2
        rw [ih2]
        simp

theorem collapseAux_replicate (b : List Char) (hb : b.head? ≠ some '\n') :
    ∀ (n k : Nat),
      collapseAux k (List.replicate n '\n' ++ b) = collapseRun (k + n) ++ collapseAux 0 b := by
  intro n
  induction n with
  | zero =>
    intro k
    cases b with
    | nil => simp [collapseAux, collapseRun]
    | cons c t =>
      have hc : ¬ c = '\n' := by
        intro hc
        exact hb (by simp [hc])
      simp [collapseAux_cons_other hc, collapseAux, collapseRun, hc]
  | succ n ih =>
    intro k
    rw [List.replicate_succ, List.cons_append, collapseAux_cons_nl, ih (k + 1)]
    have he : k + 1 + n = k + (n + 1) := by omega
    rw [he]

/-- C6: for every document and every maximal run of `n ≥ 3` newlines in the
fence-rewritten text (maximality: the part before does not end with a newline
and the part after does not begin with one), the Blank-Line Normalizer
replaces that run by exactly two newlines, and `format_markdown` applies this
normalization to the whole text after fence rewriting. -/
theorem normalizer_collapses_runs (d a b : List Char) (n : Nat) (h3 : 3 ≤ n)
    (ha : a.getLast? ≠ some '\n') (hb : b.head? ≠ some '\n')
    (hd : subFences d = a ++ List.replicate n '\n' ++ b) :
    collapseNl (a ++ List.replicate n '\n' ++ b)
        = collapseNl a ++ '\n' :: '\n' :: collapseNl b
  ∧ format_markdown d
        = rstripChars (collapseNl a ++ '\n' :: '\n' :: collapseNl b) ++ ['\n'] := by
  have hrun : collapseRun (0 + n) = ['\n', '\n'] := by
    unfold collapseRun
    rw [if_pos (by omega)]
  have key : collapseNl (a ++ List.replicate n '\n' ++ b)
      = collapseNl a ++ '\n' :: '\n' :: collapseNl b := by
    unfold collapseNl
    rcases eq_or_ne a [] with h0 | h0
    · subst h0
      simp only [List.nil_append]
      rw [collapseAux_replicate b hb n 0, hrun]
      simp [collapseAux, collapseRun]
    · rw [List.append_assoc, collapseAux_append a h0 ha 0 _,
        collapseAux_replicate b hb n 0, hrun]
      simp
  refine ⟨key, ?_⟩
  unfold format_markdown
  rw [hd, key]

/-- C6 witness: a run of four newlines between two letters. -/
theorem normalizer_collapses_runs_witness :
    collapseNl (['x'] ++ List.replicate 4 '\n' ++ ['y'])
        = collapseNl ['x'] ++ '\n' :: '\n' :: collapseNl ['y']
  ∧ format_markdown (("x\n\n\n\ny").toList)
        = rstripChars (collapseNl ['x'] ++ '\n' :: '\n' :: collapseNl ['y']) ++ ['\n'] :=
  normalizer_collapses_runs (("x\n\n\n\ny").toList) ['x'] ['y'] 4 (by omega)
    (by decide) (by decide) (by decide)

/-- C9: whenever the extracted path does not end in `.md`/`.mdx`, or does not
exist on disk, the process exits 0 with no side effects: no file read, no
file written, nothing printed. -/
theorem skip_non_markdown (env : Env) (v : PyVal) (p : String)
    (hs : env.stdin = some v) (hp : extractPath v = ExtractResult.path p)
    (h : isMarkdownPath p = false ∨ env.pathExists p = false) :
    runHook env = ⟨0, false, none, none, false⟩ := by
  unfold runHook
  rw [hs]
  simp only [hp]
  rcases h with h | h
  · simp [h]
  · by_cases hm : isMarkdownPath p
    · simp [hm, h]
    · simp [hm]

/-- C9 witness: the request names `/tmp/notes.txt`, which exists but is not
markdown. -/
theorem skip_non_markdown_witness :
    runHook envNotMd = ⟨0, false, none, none, false⟩ :=
  skip_non_markdown envNotMd
    (PyVal.dict [("tool_input", PyVal.dict [("file_path", PyVal.str ("/tmp/notes.txt"))])])
    ("/tmp/notes.txt") rfl (by decide) (Or.inl (by decide))

/-- C10: a valid JSON object lacking the nested `tool_input.file_path` string
(missing `tool_input` key, or `tool_input` an object missing `file_path`)
defaults the path to the empty string, which fails the markdown-extension
check, so the process exits 0 touching no file and reporting no error. -/
theorem missing_keys_silent_skip (env : Env) (d : List (String × PyVal))
    (hs : env.stdin = some (PyVal.dict d))
    (h : dictGet d ("tool_input") = none
      ∨ ∃ d2, dictGet d ("tool_input") = some (PyVal.dict d2)
          ∧ dictGet d2 ("file_path") = none) :
    extractPath (PyVal.dict d) = ExtractResult.path ("")
  ∧ runHook env = ⟨0, false, none, none, false⟩ := by
  have hext : extractPath (PyVal.dict d) = ExtractResult.path ("") := by
    unfold extractPath
    dsimp only
    rcases h with h | ⟨d2, h1, h2⟩
    · rw [h]
      simp [dictGet]
    · rw [h1]
      simp [h2]
  refine ⟨hext, ?_⟩
  unfold runHook
  rw [hs]
  simp only [hext]
  simp [isMarkdownPath]

/-- C10 witness: stdin is the empty JSON object. -/
theorem missing_keys_silent_skip_witness :
    extractPath (PyVal.dict []) = ExtractResult.path ("")
  ∧ runHook envEmptyDict = ⟨0, false, none, none, false⟩ :=
  missing_keys_silent_skip envEmptyDict [] rfl (Or.inl rfl)

/-- C8 counterexample: stdin `[]` is valid JSON and the run opens no file
(so no read, write or decoding error can occur), yet the process exits 1
with diagnostic output on the error stream — the uncaught `AttributeError`
from `.get` on a list. -/
theorem exit_on_valid_json_stdin :
    runHook envArrStdin = ⟨1, true, none, none, false⟩
  ∧ envArrStdin.stdin = some (PyVal.arr []) := by
  constructor
  · rfl
  · rfl

/-- C8 amended: the process exits 1 writing diagnostics to the error stream
exactly when stdin is not valid JSON, or the decoded value has an unexpected
shape (uncaught `AttributeError`), or an existing markdown file's read fails
with an I/O or decoding error, or its changed content fails to write. -/
theorem exit_code_characterization (env : Env) :
    ((runHook env).exitCode = 1 ∧ (runHook env).errStream = true)
  ↔ (env.stdin = none
    ∨ (∃ v, env.stdin = some v ∧ extractPath v = ExtractResult.attrError)
    ∨ (∃ v p, env.stdin = some v ∧ extractPath v = ExtractResult.path p
        ∧ isMarkdownPath p = true ∧ env.pathExists p = true
        ∧ (env.readFile p = ReadResult.osError
          ∨ env.readFile p = ReadResult.decodeError
          ∨ (∃ c, env.readFile p = ReadResult.content c
              ∧ format_markdown c ≠ c ∧ env.writeOk p = false)))) := by
  unfold runHook
  cases hs : env.stdin with
  | none => simp [hs]
  | some v =>
    cases hp : extractPath v with
    | attrError => simp [hs, hp]
    | path p =>
      by_cases hm : isMarkdownPath p
      · by_cases hex : env.pathExists p
        · cases hr : env.readFile p with
          | osError => simp [hs, hp, hm, hex, hr]
          | decodeError => simp [hs, hp, hm, hex, hr]
          | content c =>
            by_cases hf : format_markdown c = c
            · simp [hs, hp, hm, hex, hr, hf]
            · by_cases hw : env.writeOk p
              · simp [hs, hp, hm, hex, hr, hf, hw]
              · simp [hs, hp, hm, hex, hr, hf, hw]
        · simp [hs, hp, hm, hex]
      · simp [hs, hp, hm]

/-! Infrastructure for the idempotence claim: canonical-fuel step equations
for the fence scan, and fixed-point lemmas for the blank-line collapse and
the trailing strip. -/

theorem matchedText_length_pos (m : FenceMatch) : 1 ≤ (matchedText m).length := by
  simp [matchedText, ticks]
  omega

theorem subFencesAux_succ (f : Nat) (b : Bool) (l : List Char) :
    subFencesAux (f + 1) b l =
      match (if b then matchFence? l else none) with
      | some m => add_lang_to_fence m ++ subFencesAux f (lastIsNl m) m.rest
      | none =>
        match l with
        | [] => []
        | c :: t => c :: subFencesAux f (c = '\n') t := rfl

theorem scanClean_succ (f : Nat) (b : Bool) (l : List Char) :
    scanClean (f + 1) b l =
      match (if b then matchFence? l else none) with
      | some m => !(stripChars m.info).isEmpty && scanClean f (lastIsNl m) m.rest
      | none =>
        match l with
        | [] => true
        | c :: t => scanClean f (c = '\n') t := rfl

theorem rest_lt (l : List Char) (m : FenceMatch) (hm : matchFence? l = some m) :
    m.rest.length < l.length := by
  have hs := matchFence?_sound l m hm
  have : l.length = (matchedText m).length + m.rest.length := by
    rw [hs, List.length_append]
  have h1 := matchedText_length_pos m
  omega

theorem matchFence?_nil : matchFence? [] = none := by
  simp [matchFence?, dropLit, ticks]

theorem subFencesAux_fuel :
    ∀ (n : Nat) (l : List Char), l.length ≤ n →
    ∀ (f1 f2 : Nat) (b : Bool), n < f1 → n < f2 →
      subFencesAux f1 b l = subFencesAux f2 b l := by
  intro n
  induction n with
  | zero =>
    intro l hl f1 f2 b h1 h2
    have hl0 : l = [] := List.length_eq_zero.mp (Nat.le_zero.mp hl)
    subst hl0
    cases f1 with
    | zero => omega
    | succ g1 =>
      cases f2 with
      | zero => omega
      | succ g2 => simp [subFencesAux, matchFence?_nil]
  | succ n ih =>
    intro l hl f1 f2 b h1 h2
    cases f1 with
    | zero => omega
    | succ g1 =>
      cases f2 with
      | zero => omega
      | succ g2 =>
        cases hm : (if b then matchFence? l else none) with
        | some m =>
          have hmf : matchFence? l = some m := by
            cases b
            · simp at hm
            · simpa using hm
          have hrest := rest_lt l m hmf
          simp only [subFencesAux, hm]
          congr 1
          exact ih m.rest (by omega) g1 g2 (lastIsNl m) (by omega) (by omega)
        | none =>
          cases l with
          | nil => simp [subFencesAux, hm]
          | cons c t =>
            simp only [subFencesAux, hm]
            congr 1
            have ht : t.length ≤ n := by
              simp only [List.length_cons] at hl
              omega
            exact ih t ht g1 g2 (c = '\n') (by omega) (by omega)

theorem scanClean_fuel :
    ∀ (n : Nat) (l : List Char), l.length ≤ n →
    ∀ (f1 f2 : Nat) (b : Bool), n < f1 → n < f2 →
      scanClean f1 b l = scanClean f2 b l := by
  intro n
  induction n with
  | zero =>
    intro l hl f1 f2 b h1 h2
    have hl0 : l = [] := List.length_eq_zero.mp (Nat.le_zero.mp hl)
    subst hl0
    cases f1 with
    | zero => omega
    | succ g1 =>
      cases f2 with
      | zero => omega
      | succ g2 => simp [scanClean, matchFence?_nil]
  | succ n ih =>
    intro l hl f1 f2 b h1 h2
    cases f1 with
    | zero => omega
    | succ g1 =>
      cases f2 with
      | zero => omega
      | succ g2 =>
        cases hm : (if b then matchFence? l else none) with
        | some m =>
          have hmf : matchFence? l = some m := by
            cases b
            · simp at hm
            · simpa using hm
          have hrest := rest_lt l m hmf
          simp only [scanClean, hm]
          congr 1
          exact ih m.rest (by omega) g1 g2 (lastIsNl m) (by omega) (by omega)
        | none =>
          cases l with
          | nil => simp [scanClean, hm]
          | cons c t =>
            simp only [scanClean, hm]
            have ht : t.length ≤ n := by
              simp only [List.length_cons] at hl
              omega
            exact ih t ht g1 g2 (c = '\n') (by omega) (by omega)

theorem subF_match (l : List Char) (m : FenceMatch) (hm : matchFence? l = some m) :
    subF true l = add_lang_to_fence m ++ subF (lastIsNl m) m.rest := by
  have hrest := rest_lt l m hm
  show subFencesAux (l.length + 1) true l = _
  rw [subFencesAux_succ, if_pos rfl, hm]
  show add_lang_to_fence m ++ subFencesAux l.length (lastIsNl m) m.rest = _
  unfold subF
  congr 1
  exact subFencesAux_fuel m.rest.length m.rest (le_refl _) l.length (m.rest.length + 1)
    (lastIsNl m) (by omega) (by omega)

theorem subF_cons (b : Bool) (c : Char) (t : List Char)
    (h : b = false ∨ matchFence? (c :: t) = none) :
    subF b (c :: t) = c :: subF (c = '\n') t := by
  have hm : (if b then matchFence? (c :: t) else none) = none := by
    rcases h with h | h
    · simp [h]
    · cases b <;> simp [h]
  show subFencesAux ((c :: t).length + 1) b (c :: t) = _
  rw [subFencesAux_succ, hm]
  show c :: subFencesAux (c :: t).length (c = '\n') t = _
  unfold subF
  rfl

theorem subF_nil (b : Bool) : subF b [] = [] := by
  cases b <;> rfl

theorem scanCl_match (l : List Char) (m : FenceMatch) (hm : matchFence? l = some m) :
    scanCl true l = (!(stripChars m.info).isEmpty && scanCl (lastIsNl m) m.rest) := by
  have hrest := rest_lt l m hm
  show scanClean (l.length + 1) true l = _
  rw [scanClean_succ, if_pos rfl, hm]
  show (!(stripChars m.info).isEmpty && scanClean l.length (lastIsNl m) m.rest) = _
  unfold scanCl
  congr 1
  exact scanClean_fuel m.rest.length m.rest (le_refl _) l.length (m.rest.length + 1)
    (lastIsNl m) (by omega) (by omega)

theorem scanCl_cons (b : Bool) (c : Char) (t : List Char)
    (h : b = false ∨ matchFence? (c :: t) = none) :
    scanCl b (c :: t) = scanCl (c = '\n') t := by
  have hm : (if b then matchFence? (c :: t) else none) = none := by
    rcases h with h | h
    · simp [h]
    · cases b <;> simp [h]
  show scanClean ((c :: t).length + 1) b (c :: t) = _
  rw [scanClean_succ, hm]
  show scanClean (c :: t).length (c = '\n') t = _
  unfold scanCl
  rfl

theorem scanCl_nil (b : Bool) : scanCl b [] = true := by
  cases b <;> rfl

theorem subFences_eq_subF (l : List Char) : subFences l = subF true l := rfl

theorem scan_clean_sub_id :
    ∀ (n : Nat) (l : List Char), l.length ≤ n → ∀ (b : Bool),
      scanCl b l = true → subF b l = l := by
  intro n
  induction n with
  | zero =>
    intro l hl b _
    have hl0 : l = [] := List.length_eq_zero.mp (Nat.le_zero.mp hl)
    subst hl0
    exact subF_nil b
  | succ n ih =>
    intro l hl b hc
    cases l with
    | nil => exact subF_nil b
    | cons c t =>
      have ht : t.length ≤ n := by
        simp only [List.length_cons] at hl
        omega
      cases b with
      | false =>
        rw [subF_cons false c t (Or.inl rfl)]
        rw [scanCl_cons false c t (Or.inl rfl)] at hc
        rw [ih t ht (c = '\n') hc]
      | true =>
        cases hm : matchFence? (c :: t) with
        | none =>
          rw [subF_cons true c t (Or.inr hm)]
          rw [scanCl_cons true c t (Or.inr hm)] at hc
          rw [ih t ht (c = '\n') hc]
        | some m =>
          rw [subF_match (c :: t) m hm]
          rw [scanCl_match (c :: t) m hm] at hc
          simp only [Bool.and_eq_true, Bool.not_eq_true'] at hc
          obtain ⟨hinfo, hrec⟩ := hc
          have hinfo' : ¬ stripChars m.info = [] := by
            intro h
            rw [h] at hinfo
            simp at hinfo
          have hrest := rest_lt (c :: t) m hm
          have hr : m.rest.length ≤ n := by
            simp only [List.length_cons] at hl hrest
            omega
          rw [ih m.rest hr (lastIsNl m) hrec]
          have he : add_lang_to_fence m = matchedText m := by
            unfold add_lang_to_fence
            rw [if_neg hinfo']
          rw [he]
          exact (matchFence?_sound (c :: t) m hm).symm

theorem collapseRun_shape (k : Nat) :
    ∃ m, m ≤ 2 ∧ collapseRun k = List.replicate m '\n' := by
  by_cases h : 3 ≤ k
  · exact ⟨2, by omega, by simp [collapseRun, h]⟩
  · exact ⟨k, by omega, by simp [collapseRun, h]⟩

theorem noTriple_run_cons (m : Nat) (hm : m ≤ 2) (c : Char) (hc : ¬ c = '\n')
    (x : List Char) :
    noTriple 0 (List.replicate m '\n' ++ c :: x) = noTriple 0 x := by
  match m with
  | 0 => simp [noTriple, hc]
  | 1 => simp [noTriple, hc]
  | 2 => simp [noTriple, hc]

theorem noTriple_run_nil (m : Nat) (hm : m ≤ 2) :
    noTriple 0 (List.replicate m '\n') = true := by
  match m with
  | 0 => simp [noTriple]
  | 1 => simp [noTriple]
  | 2 => simp [noTriple]

theorem noTriple_collapseAux : ∀ (l : List Char) (k : Nat),
    noTriple 0 (collapseAux k l) = true := by
  intro l
  induction l with
  | nil =>
    intro k
    obtain ⟨m, hm, he⟩ := collapseRun_shape k
    simp only [collapseAux, he]
    exact noTriple_run_nil m hm
  | cons c t ih =>
    intro k
    by_cases hc : c = '\n'
    · subst hc
      rw [collapseAux_cons_nl]
      exact ih (k + 1)
    · rw [collapseAux_cons_other hc]
      obtain ⟨m, hm, he⟩ := collapseRun_shape k
      rw [he, noTriple_run_cons m hm c hc]
      exact ih 0

theorem noTriple_collapse_id : ∀ (l : List Char) (k : Nat), k ≤ 2 →
    noTriple k l = true → collapseAux k l = List.replicate k '\n' ++ l := by
  intro l
  induction l with
  | nil =>
    intro k hk _
    simp only [collapseAux, collapseRun]
    rw [if_neg (by omega)]
    simp
  | cons c t ih =>
    intro k hk hn
    by_cases hc : c = '\n'
    · subst hc
      simp only [noTriple, if_pos rfl] at hn
      by_cases h2 : 2 ≤ k
      · rw [if_pos h2] at hn
        exact absurd hn (by simp)
      · rw [if_neg h2] at hn
        rw [collapseAux_cons_nl, ih (k + 1) (by omega) hn]
        rw [List.replicate_succ' (n := k)]
        simp
    · simp only [noTriple, if_neg hc] at hn
      rw [collapseAux_cons_other hc, ih 0 (by omega) hn]
      simp only [List.replicate_zero, List.nil_append]
      congr 1
      unfold collapseRun
      rw [if_neg (by omega)]

theorem noTriple_append_left : ∀ (a b : List Char) (n : Nat),
    noTriple n (a ++ b) = true → noTriple n a = true := by
  intro a
  induction a with
  | nil => intro b n _; rfl
  | cons c t ih =>
    intro b n h
    by_cases hc : c = '\n'
    · subst hc
      simp only [List.cons_append, noTriple, if_pos rfl] at h ⊢
      by_cases h2 : 2 ≤ n
      · rw [if_pos h2] at h
        exact absurd h (by simp)
      · rw [if_neg h2] at h ⊢
        exact ih b (n + 1) h
    · simp only [List.cons_append, noTriple, if_neg hc] at h ⊢
      exact ih b 0 h

theorem noTriple_snoc_nl : ∀ (q : List Char) (c : Char) (n : Nat), ¬ c = '\n' →
    noTriple n (q ++ [c]) = true → noTriple n (q ++ [c, '\n']) = true := by
  intro q
  induction q with
  | nil =>
    intro c n hc _
    simp [noTriple, hc]
  | cons d t ih =>
    intro c n hc h
    by_cases hd : d = '\n'
    · subst hd
      simp only [List.cons_append, noTriple, if_pos rfl] at h ⊢
      by_cases h2 : 2 ≤ n
      · rw [if_pos h2] at h
        exact absurd h (by simp)
      · rw [if_neg h2] at h ⊢
        exact ih c (n + 1) hc h
    · simp only [List.cons_append, noTriple, if_neg hd] at h ⊢
      exact ih c 0 hc h

theorem dropWhile_dropWhile (p : Char → Bool) (l : List Char) :
    List.dropWhile p (List.dropWhile p l) = List.dropWhile p l := by
  cases h : List.dropWhile p l with
  | nil => simp
  | cons x xs =>
    have hx := dropWhile_head_false p l x xs h
    rw [List.dropWhile_cons_of_neg (by simp [hx])]

theorem rstrip_append_nl (l : List Char) :
    rstripChars (l ++ ['\n']) = rstripChars l := by
  unfold rstripChars
  rw [List.reverse_append]
  simp only [List.reverse_singleton, List.singleton_append]
  rw [List.dropWhile_cons_of_pos (by simp [isPyWs])]

theorem rstrip_rstrip (l : List Char) :
    rstripChars (rstripChars l) = rstripChars l := by
  unfold rstripChars
  rw [List.reverse_reverse, dropWhile_dropWhile]

theorem rstrip_split (l : List Char) :
    ∃ q, l = rstripChars l ++ q ∧ ∀ c ∈ q, isPyWs c = true := by
  refine ⟨(l.reverse.takeWhile isPyWs).reverse, ?_, ?_⟩
  · unfold rstripChars
    have h := List.takeWhile_append_dropWhile (p := isPyWs) (l := l.reverse)
    have h2 := congrArg List.reverse h
    simp only [List.reverse_append, List.reverse_reverse] at h2
    exact h2.symm
  · intro c hc
    rw [List.mem_reverse] at hc
    exact List.mem_takeWhile_imp hc

theorem rstrip_last (l : List Char) :
    rstripChars l = [] ∨ ∃ a c, rstripChars l = a ++ [c] ∧ isPyWs c = false := by
  unfold rstripChars
  cases h : List.dropWhile isPyWs l.reverse with
  | nil => simp
  | cons x xs =>
    right
    refine ⟨xs.reverse, x, by simp, ?_⟩
    exact dropWhile_head_false isPyWs l.reverse x xs h

theorem format_fixed_of_scanClean (s : List Char)
    (ha : subFences s = s)
    (hb : noTriple 0 s = true)
    (hc : rstripChars s ++ ['\n'] = s) :
    format_markdown s = s := by
  unfold format_markdown
  rw [ha]
  have h2 : collapseNl s = s := by
    unfold collapseNl
    have := noTriple_collapse_id s 0 (by omega) hb
    simpa using this
  rw [h2, hc]

theorem format_output_shape (t : List Char) :
    noTriple 0 (format_markdown t) = true
  ∧ rstripChars (format_markdown t) ++ ['\n'] = format_markdown t := by
  unfold format_markdown
  have hX : noTriple 0 (collapseNl (subFences t)) = true := noTriple_collapseAux _ 0
  obtain ⟨q, hq, _⟩ := rstrip_split (collapseNl (subFences t))
  have hP : noTriple 0 (rstripChars (collapseNl (subFences t))) = true := by
    apply noTriple_append_left _ q
    rw [← hq]
    exact hX
  constructor
  · rcases rstrip_last (collapseNl (subFences t)) with h0 | ⟨a, c, he, hw⟩
    · rw [h0]
      decide
    · rw [he]
      have hcn : ¬ c = '\n' := by
        intro h
        rw [h] at hw
        simp [isPyWs] at hw
      have : a ++ [c] ++ ['\n'] = a ++ [c, '\n'] := by simp
      rw [this]
      apply noTriple_snoc_nl a c 0 hcn
      rw [← he]
      exact hP
  · rw [rstrip_append_nl, rstrip_rstrip]

theorem idem_of_scanClean (t : List Char)
    (h : scanCl true (format_markdown t) = true) :
    format_markdown (format_markdown t) = format_markdown t := by
  have ha : subFences (format_markdown t) = format_markdown t := by
    rw [subFences_eq_subF]
    exact scan_clean_sub_id (format_markdown t).length _ (le_refl _) true h
  obtain ⟨hb, hc⟩ := format_output_shape t
  exact format_fixed_of_scanClean _ ha hb hc

/-! Component lemmas about the pattern primitives, feeding the idempotence
argument: exact computation and transfer lemmas for `dropLit`, `takeWhile`/
`dropWhile`, `wsDollar` and `checkClose`. -/

theorem dropLit_self : ∀ (w x : List Char), dropLit w (w ++ x) = some x := by
  intro w
  induction w with
  | nil => intro x; rfl
  | cons c t ih => intro x; simp [dropLit, ih]

theorem dropLit_append_comp : ∀ (u v x : List Char),
    dropLit (u ++ v) x = (dropLit u x).bind (dropLit v) := by
  intro u
  induction u with
  | nil => intro v x; simp [dropLit]
  | cons c t ih =>
    intro v x
    cases x with
    | nil => simp [dropLit]
    | cons y ys =>
      simp only [List.cons_append, dropLit]
      by_cases h : y = c
      · simp [h, ih]
      · simp [h]

theorem dropLit_split : ∀ (w a : List Char), w.length ≤ a.length →
    ∀ (z : List Char), dropLit w (a ++ z) = (dropLit w a).map (fun r => r ++ z) := by
  intro w
  induction w with
  | nil => intro a _ z; simp [dropLit]
  | cons c t ih =>
    intro a hlen z
    cases a with
    | nil => simp at hlen
    | cons x xs =>
      simp only [List.cons_append, dropLit]
      by_cases h : x = c
      · simp only [h, if_pos rfl]
        exact ih xs (by simpa using hlen) z
      · simp [h]

theorem dropLit_no_nl_hit : ∀ (q : List Char), (∀ c ∈ q, ¬ c = '\n') →
    ∀ (u : List Char), u.length < q.length →
    ∀ (w : List Char), dropLit q (u ++ '\n' :: w) = none := by
  intro q
  induction q with
  | nil => intro _ u hu; simp at hu
  | cons c t ih =>
    intro hq u hu w
    cases u with
    | nil =>
      have hc : ¬ ('\n' : Char) = c := fun h => (hq c (by simp)) (h ▸ rfl)
      simp [dropLit, hc]
    | cons x xs =>
      simp only [List.cons_append, dropLit]
      by_cases h : x = c
      · simp only [h, if_pos rfl]
        exact ih (fun d hd => hq d (by simp [hd])) xs (by simpa using hu) w
      · simp [h]

theorem takeWhile_all_append (p : Char → Bool) :
    ∀ (a : List Char), (∀ c ∈ a, p c = true) →
    ∀ (c' : Char), p c' = false → ∀ (y : List Char),
      (a ++ c' :: y).takeWhile p = a ∧ (a ++ c' :: y).dropWhile p = c' :: y := by
  intro a
  induction a with
  | nil =>
    intro _ c' hc' y
    constructor
    · simp [List.takeWhile_cons, hc']
    · simp [List.dropWhile_cons, hc']
  | cons x xs ih =>
    intro ha c' hc' y
    have hx : p x = true := ha x (by simp)
    obtain ⟨h1, h2⟩ := ih (fun d hd => ha d (by simp [hd])) c' hc' y
    constructor
    · simp [List.takeWhile_cons, hx, h1]
    · simp [List.dropWhile_cons, hx, h2]

theorem takeWhile_all (p : Char → Bool) :
    ∀ (a : List Char), (∀ c ∈ a, p c = true) →
      a.takeWhile p = a ∧ a.dropWhile p = [] := by
  intro a
  induction a with
  | nil => intro _; simp
  | cons x xs ih =>
    intro ha
    have hx : p x = true := ha x (by simp)
    obtain ⟨h1, h2⟩ := ih (fun d hd => ha d (by simp [hd]))
    constructor
    · simp [List.takeWhile_cons, hx, h1]
    · simp [List.dropWhile_cons, hx, h2]

theorem mem_dropWhile_mem (p : Char → Bool) :
    ∀ (l : List Char) (x : Char), x ∈ l.dropWhile p → x ∈ l := by
  intro l
  induction l with
  | nil => intro x h; simpa using h
  | cons c t ih =>
    intro x h
    by_cases hc : p c = true
    · rw [List.dropWhile_cons_of_pos hc] at h
      exact List.mem_cons_of_mem c (ih x h)
    · rw [List.dropWhile_cons_of_neg hc] at h
      exact h

theorem splitLastNl_none_iff (run : List Char) :
    splitLastNl run = none ↔ ¬ '\n' ∈ run := by
  unfold splitLastNl
  cases hd : run.reverse.dropWhile notNl with
  | nil =>
    have hall := (List.dropWhile_eq_nil_iff).mp hd
    have hno : ¬ '\n' ∈ run := by
      intro hm
      have h2 := hall '\n' (by simpa using hm)
      simp [notNl] at h2
    simp [hno]
  | cons x rr =>
    have hx := dropWhile_head_false notNl run.reverse x rr hd
    have hx' : x = '\n' := by simpa [notNl] using hx
    have hmem : x ∈ run.reverse.dropWhile notNl := by rw [hd]; simp
    have hxr : x ∈ run.reverse := mem_dropWhile_mem notNl run.reverse x hmem
    rw [hx', List.mem_reverse] at hxr
    simp [hxr]

theorem wsDollar_none_iff (x : List Char) :
    wsDollar x = none ↔ (x.dropWhile isPyWs ≠ [] ∧ ¬ '\n' ∈ x.takeWhile isPyWs) := by
  unfold wsDollar
  by_cases he : (x.dropWhile isPyWs).isEmpty = true
  · simp only [he, if_true]
    simp only [List.isEmpty_iff] at he
    simp [he]
  · simp only [he, if_false]
    simp only [List.isEmpty_iff] at he
    cases hs : splitLastNl (x.takeWhile isPyWs) with
    | none =>
      have := (splitLastNl_none_iff _).mp hs
      simp [he, this]
    | some pq =>
      obtain ⟨p2, post⟩ := pq
      have : ¬ splitLastNl (x.takeWhile isPyWs) = none := by simp [hs]
      rw [splitLastNl_none_iff] at this
      push_neg at this
      simp [he, this]

theorem wsDollar_ws_prefix (a : List Char) (ha : ∀ c ∈ a, isPyWs c = true)
    (t : List Char) (ht : wsDollar t ≠ none) : wsDollar (a ++ t) ≠ none := by
  intro hn
  rw [wsDollar_none_iff] at hn
  have ht2 : ¬ (t.dropWhile isPyWs ≠ [] ∧ ¬ '\n' ∈ t.takeWhile isPyWs) :=
    fun hx => ht ((wsDollar_none_iff t).mpr hx)
  push_neg at ht2
  obtain ⟨hn1, hn2⟩ := hn
  cases hdt : t.dropWhile isPyWs with
  | nil =>
    have hta : ∀ c ∈ t, isPyWs c = true := (List.dropWhile_eq_nil_iff).mp hdt
    have : (a ++ t).dropWhile isPyWs = [] := by
      apply (List.dropWhile_eq_nil_iff).mpr
      intro c hc
      rcases List.mem_append.mp hc with h | h
      · exact ha c h
      · exact hta c h
    exact hn1 this
  | cons d ds =>
    have hd : isPyWs d = false := dropWhile_head_false isPyWs t d ds hdt
    have htw := ht2 (by simp [hdt])
    have hsplit : t = t.takeWhile isPyWs ++ d :: ds := by
      conv_lhs => rw [← List.takeWhile_append_dropWhile (p := isPyWs) (l := t)]
      rw [hdt]
    have htwa : ∀ c ∈ t.takeWhile isPyWs, isPyWs c = true := by
      intro c hc
      exact List.mem_takeWhile_imp hc
    have hfull : (a ++ t).takeWhile isPyWs = a ++ t.takeWhile isPyWs := by
      have h2 : ∀ c ∈ a ++ t.takeWhile isPyWs, isPyWs c = true := by
        intro c hc
        rcases List.mem_append.mp hc with h | h
        · exact ha c h
        · exact htwa c h
      have := takeWhile_all_append isPyWs (a ++ t.takeWhile isPyWs) h2 d hd ds
      calc (a ++ t).takeWhile isPyWs
          = ((a ++ t.takeWhile isPyWs) ++ d :: ds).takeWhile isPyWs := by
            rw [List.append_assoc, ← hsplit]
        _ = a ++ t.takeWhile isPyWs := this.1
    rw [hfull] at hn2
    exact hn2 (by simp [htw])

theorem wsDollar_local (zw : List Char) (hzw : ∀ c ∈ zw, isPyWs c = true)
    (c : Char) (hc : isPyWs c = false) (y : List Char) :
    wsDollar (zw ++ c :: y) = none ↔ ¬ '\n' ∈ zw := by
  rw [wsDollar_none_iff]
  obtain ⟨h1, h2⟩ := takeWhile_all_append isPyWs zw hzw c hc y
  rw [h1, h2]
  simp

theorem first_nl_split (a : List Char) (h : '\n' ∈ a) :
    ∃ u v, a = u ++ '\n' :: v ∧ ¬ '\n' ∈ u := by
  refine ⟨a.takeWhile notNl, (a.dropWhile notNl).tail, ?_, ?_⟩
  · cases hd : a.dropWhile notNl with
    | nil =>
      exfalso
      have := (List.dropWhile_eq_nil_iff).mp hd '\n' h
      simp [notNl] at this
    | cons x xs =>
      have hx := dropWhile_head_false notNl a x xs hd
      have hx' : x = '\n' := by simpa [notNl] using hx
      conv_lhs => rw [← List.takeWhile_append_dropWhile (p := notNl) (l := a)]
      rw [hd, hx']
      simp
  · intro hm
    have := List.mem_takeWhile_imp hm
    simp [notNl] at this

theorem ck_u (ind a z z' : List Char) (hind : ∀ c ∈ ind, ¬ c = '\n')
    (hz : wsDollar z ≠ none) (hz' : wsDollar z' ≠ none)
    (ha : ('\n' :: (ind ++ ticks)).length ≤ a.length ∨ '\n' ∈ a.drop 1) :
    (checkClose ind (a ++ z) = none ↔ checkClose ind (a ++ z') = none) := by
  rcases Nat.lt_or_ge a.length ('\n' :: (ind ++ ticks)).length with hlen | hlen
  · have hmem : '\n' ∈ a.drop 1 := by
      rcases ha with h | h
      · omega
      · exact h
    cases a with
    | nil => simp at hmem
    | cons c0 a' =>
      simp only [List.drop_one, List.tail_cons] at hmem
      obtain ⟨u, v, huv, hu⟩ := first_nl_split a' hmem
      by_cases hc0 : c0 = '\n'
      · subst hc0
        have hq : ∀ c ∈ ind ++ ticks, ¬ c = '\n' := by
          intro c hc
          rcases List.mem_append.mp hc with h | h
          · exact hind c h
          · have hct : c = tick := by simpa [ticks] using h
            subst hct
            decide
        have hulen : u.length < (ind ++ ticks).length := by
          have ha' : a'.length = u.length + 1 + v.length := by
            rw [huv]
            simp only [List.length_append, List.length_cons]
            omega
          simp only [List.length_cons, List.length_append] at hlen ⊢
          omega
        have hd1 : dropLit ('\n' :: (ind ++ ticks)) (('\n' :: a') ++ z) = none := by
          show (if ('\n' : Char) = '\n' then dropLit (ind ++ ticks) (a' ++ z) else none) = none
          rw [if_pos rfl, huv, List.append_assoc]
          exact dropLit_no_nl_hit (ind ++ ticks) hq u hulen (v ++ z)
        have hd2 : dropLit ('\n' :: (ind ++ ticks)) (('\n' :: a') ++ z') = none := by
          show (if ('\n' : Char) = '\n' then dropLit (ind ++ ticks) (a' ++ z') else none) = none
          rw [if_pos rfl, huv, List.append_assoc]
          exact dropLit_no_nl_hit (ind ++ ticks) hq u hulen (v ++ z')
        unfold checkClose
        rw [hd1, hd2]
      · have h1 : dropLit ('\n' :: (ind ++ ticks)) ((c0 :: a') ++ z) = none := by
          show (if c0 = '\n' then dropLit (ind ++ ticks) (a' ++ z) else none) = none
          rw [if_neg hc0]
        have h2 : dropLit ('\n' :: (ind ++ ticks)) ((c0 :: a') ++ z') = none := by
          show (if c0 = '\n' then dropLit (ind ++ ticks) (a' ++ z') else none) = none
          rw [if_neg hc0]
        unfold checkClose
        rw [h1, h2]
  · unfold checkClose
    rw [dropLit_split _ a hlen z, dropLit_split _ a hlen z']
    cases hdl : dropLit ('\n' :: (ind ++ ticks)) a with
    | none => exact Iff.rfl
    | some v =>
      show wsDollar (v ++ z) = none ↔ wsDollar (v ++ z') = none
      cases hdv : v.dropWhile isPyWs with
      | nil =>
        have hva : ∀ c ∈ v, isPyWs c = true := (List.dropWhile_eq_nil_iff).mp hdv
        have hs1 := wsDollar_ws_prefix v hva z hz
        have hs2 := wsDollar_ws_prefix v hva z' hz'
        constructor
        · intro h; exact absurd h hs1
        · intro h; exact absurd h hs2
      | cons d ds =>
        have hd : isPyWs d = false := dropWhile_head_false isPyWs v d ds hdv
        have hsplit : v = v.takeWhile isPyWs ++ d :: ds := by
          conv_lhs => rw [← List.takeWhile_append_dropWhile (p := isPyWs) (l := v)]
          rw [hdv]
        have htw : ∀ c ∈ v.takeWhile isPyWs, isPyWs c = true := by
          intro c hc
          exact List.mem_takeWhile_imp hc
        have e1 : wsDollar (v ++ z) = none ↔ ¬ '\n' ∈ v.takeWhile isPyWs := by
          conv_lhs => rw [hsplit, List.append_assoc]
          exact wsDollar_local _ htw d hd _
        have e2 : wsDollar (v ++ z') = none ↔ ¬ '\n' ∈ v.takeWhile isPyWs := by
          conv_lhs => rw [hsplit, List.append_assoc]
          exact wsDollar_local _ htw d hd _
        rw [e1, e2]

theorem isIndentCh_props (c : Char) (h : isIndentCh c = true) :
    isPyWs c = true ∧ ¬ c = '\n' := by
  simp only [isIndentCh, Bool.or_eq_true] at h
  rcases h with h | h
  · have : c = ' ' := by simpa using h
    subst this
    decide
  · have : c = '\t' := by simpa using h
    subst this
    decide

theorem tw_break (p : Char → Bool) :
    ∀ (a : List Char), (∀ c ∈ a, p c = true) →
    ∀ (y : List Char), (∀ c, y.head? = some c → p c = false) →
      (a ++ y).takeWhile p = a ∧ (a ++ y).dropWhile p = y := by
  intro a
  induction a with
  | nil =>
    intro _ y hy
    cases y with
    | nil => simp
    | cons c ys =>
      have hc := hy c rfl
      constructor
      · simp [List.takeWhile_cons, hc]
      · simp [List.dropWhile_cons, hc]
  | cons x xs ih =>
    intro ha y hy
    have hx : p x = true := ha x (by simp)
    obtain ⟨h1, h2⟩ := ih (fun d hd => ha d (by simp [hd])) y hy
    constructor
    · simp [List.takeWhile_cons, hx, h1]
    · simp [List.dropWhile_cons, hx, h2]

theorem matchFence?_inv (l : List Char) (m : FenceMatch) (h : matchFence? l = some m) :
    m.indent = l.takeWhile isIndentCh
  ∧ m.indent.length ≤ 3
  ∧ m.closing = '\n' :: (m.indent ++ ticks)
  ∧ (∀ c ∈ m.info, ¬ c = '\n')
  ∧ findClose m.indent (m.body ++ '\n' :: (m.indent ++ ticks) ++ (m.wsTail ++ m.rest))
      = some (m.body, m.wsTail, m.rest) := by
  simp only [matchFence?] at h
  split at h
  · exact absurd h (by simp)
  · rename_i h3
    split at h
    · rename_i r2 h1
      split at h
      · rename_i r4 h2
        split at h
        · rename_i b w r h4
          simp only [Option.some.injEq] at h
          subst h
          refine ⟨rfl, ?_, rfl, ?_, ?_⟩
          · show (List.takeWhile isIndentCh l).length ≤ 3
            omega
          · intro c hc
            have := List.mem_takeWhile_imp hc
            simpa [notNl] using this
          · have e4 := findClose_sound _ r4 b w r h4
            simp only
            rw [← e4]
            exact h4
        · exact absurd h (by simp)
      · exact absurd h (by simp)
    · exact absurd h (by simp)

theorem ck_self (ind tail : List Char) :
    checkClose ind (('\n' :: (ind ++ ticks)) ++ tail) = wsDollar tail := by
  unfold checkClose
  rw [dropLit_self]

theorem findClose_cons_inv (ind : List Char) (c : Char) (t b w r : List Char)
    (h : findClose ind (c :: t) = some (b, w, r)) :
    (checkClose ind (c :: t) = some (w, r) ∧ b = [])
  ∨ (checkClose ind (c :: t) = none
      ∧ ∃ b', b = c :: b' ∧ findClose ind t = some (b', w, r)) := by
  unfold findClose at h
  split at h
  · rename_i w1 r1 h1
    simp only [Option.some.injEq, Prod.mk.injEq] at h
    obtain ⟨hb, hw, hr⟩ := h
    left
    rw [← hw, ← hr, ← hb]
    exact ⟨h1, rfl⟩
  · rename_i h1
    split at h
    · rename_i b1 w1 r1 h2
      simp only [Option.some.injEq, Prod.mk.injEq] at h
      obtain ⟨hb, hw, hr⟩ := h
      right
      exact ⟨h1, b1, hb.symm, by rw [← hw, ← hr]; exact h2⟩
    · exact absurd h (by simp)

theorem fc_some_wsd (ind : List Char) :
    ∀ (body tail w r : List Char),
      findClose ind (body ++ '\n' :: (ind ++ ticks) ++ tail) = some (body, w, r) →
      wsDollar tail = some (w, r) := by
  intro body
  induction body with
  | nil =>
    intro tail w r h
    simp only [List.nil_append] at h
    have hck := ck_self ind tail
    rcases findClose_cons_inv ind '\n' ((ind ++ ticks) ++ tail) [] w r (by
      simpa using h) with ⟨h1, _⟩ | ⟨h1, b', hb, _⟩
    · rw [← h1]
      rw [← hck]
      rfl
    · simp at hb
  | cons c body' ih =>
    intro tail w r h
    rcases findClose_cons_inv ind c (body' ++ '\n' :: (ind ++ ticks) ++ tail)
      (c :: body') w r (by simpa using h) with ⟨_, hb⟩ | ⟨_, b', hb, h2⟩
    · simp at hb
    · simp only [List.cons.injEq] at hb
      obtain ⟨_, hb2⟩ := hb
      rw [← hb2] at h2
      exact ih tail w r h2

theorem fc_trans (ind : List Char) (hind : ∀ c ∈ ind, ¬ c = '\n') :
    ∀ (body tail1 tail2 w1 r1 w2 r2 : List Char),
      findClose ind (body ++ '\n' :: (ind ++ ticks) ++ tail1) = some (body, w1, r1) →
      wsDollar tail2 = some (w2, r2) →
      findClose ind (body ++ '\n' :: (ind ++ ticks) ++ tail2) = some (body, w2, r2) := by
  intro body
  induction body with
  | nil =>
    intro tail1 tail2 w1 r1 w2 r2 h1 h2
    simp only [List.nil_append]
    show findClose ind ('\n' :: ((ind ++ ticks) ++ tail2)) = some ([], w2, r2)
    unfold findClose
    have hck : checkClose ind ('\n' :: ((ind ++ ticks) ++ tail2)) = some (w2, r2) := by
      have := ck_self ind tail2
      simp only [List.cons_append] at this
      rw [this]
      exact h2
    rw [hck]
  | cons c body' ih =>
    intro tail1 tail2 w1 r1 w2 r2 h1 h2
    have hw1 : wsDollar tail1 = some (w1, r1) :=
      fc_some_wsd ind (c :: body') tail1 w1 r1 h1
    rcases findClose_cons_inv ind c (body' ++ '\n' :: (ind ++ ticks) ++ tail1)
      (c :: body') w1 r1 (by simpa using h1) with ⟨_, hb⟩ | ⟨hnone, b', hb, hrec⟩
    · simp at hb
    · simp only [List.cons.injEq] at hb
      obtain ⟨_, hb2⟩ := hb
      rw [← hb2] at hrec
      have hrec2 := ih tail1 tail2 w1 r1 w2 r2 hrec h2
      have hnone2 : checkClose ind ((c :: body') ++ '\n' :: (ind ++ ticks) ++ tail2) = none := by
        have ha : ('\n' :: (ind ++ ticks)).length ≤ ((c :: body') ++ '\n' :: (ind ++ ticks)).length
            ∨ '\n' ∈ ((c :: body') ++ '\n' :: (ind ++ ticks)).drop 1 := by
          left
          simp
          omega
        have hiff := ck_u ind ((c :: body') ++ '\n' :: (ind ++ ticks)) tail1 tail2 hind
          (by simp [hw1]) (by simp [h2]) ha
        have he1 : ((c :: body') ++ '\n' :: (ind ++ ticks)) ++ tail1
            = (c :: body') ++ '\n' :: (ind ++ ticks) ++ tail1 := by
          simp only [List.cons_append, List.append_assoc]
        have he2 : ((c :: body') ++ '\n' :: (ind ++ ticks)) ++ tail2
            = (c :: body') ++ '\n' :: (ind ++ ticks) ++ tail2 := by
          simp only [List.cons_append, List.append_assoc]
        rw [he1, he2] at hiff
        exact hiff.mp hnone
      show findClose ind (c :: (body' ++ '\n' :: (ind ++ ticks) ++ tail2)) = _
      unfold findClose
      have hnone2' : checkClose ind (c :: (body' ++ '\n' :: (ind ++ ticks) ++ tail2)) = none := by
        simpa using hnone2
      rw [hnone2', hrec2]

theorem mf_build (ind A body tail w r : List Char)
    (hind : ∀ c ∈ ind, isIndentCh c = true) (hlen : ind.length ≤ 3)
    (hA : ∀ c ∈ A, ¬ c = '\n')
    (hfc : findClose ind (body ++ '\n' :: (ind ++ ticks) ++ tail) = some (body, w, r)) :
    matchFence? (ind ++ ticks ++ A ++ '\n' :: (body ++ '\n' :: (ind ++ ticks) ++ tail))
      = some ⟨ind, A, body, '\n' :: (ind ++ ticks), w, r⟩ := by
  have hT : ind ++ ticks ++ A ++ '\n' :: (body ++ '\n' :: (ind ++ ticks) ++ tail)
      = ind ++ (ticks ++ (A ++ '\n' :: (body ++ '\n' :: (ind ++ ticks) ++ tail))) := by
    simp [List.append_assoc]
  have hy : ∀ c, (ticks ++ (A ++ '\n' :: (body ++ '\n' :: (ind ++ ticks) ++ tail))).head?
      = some c → isIndentCh c = false := by
    intro c hc
    simp [ticks] at hc
    rw [← hc]
    decide
  obtain ⟨htw, hdw⟩ := tw_break isIndentCh ind hind _ hy
  have hA' : ∀ c ∈ A, notNl c = true := by
    intro c hc
    simp [notNl, hA c hc]
  have hy2 : ∀ c, (('\n' : Char) :: (body ++ '\n' :: (ind ++ ticks) ++ tail)).head?
      = some c → notNl c = false := by
    intro c hc
    simp at hc
    rw [← hc]
    decide
  obtain ⟨hiw, hidw⟩ := tw_break notNl A hA' _ hy2
  rw [hT]
  simp only [matchFence?]
  rw [htw, hdw, if_neg (by omega), dropLit_self]
  simp only [hidw, hiw, hfc]

theorem wsDollar_all_ws (a : List Char) (ha : ∀ c ∈ a, isPyWs c = true) :
    wsDollar a = some (a, []) := by
  unfold wsDollar
  obtain ⟨h1, h2⟩ := takeWhile_all isPyWs a ha
  rw [h1, h2]
  simp

theorem splitLastNl_compute (a w : List Char) (hw : ∀ c ∈ w, ¬ c = '\n') :
    splitLastNl (a ++ '\n' :: w) = some (a, '\n' :: w) := by
  unfold splitLastNl
  have hrev : (a ++ '\n' :: w).reverse = w.reverse ++ '\n' :: a.reverse := by
    simp [List.reverse_cons, List.append_assoc]
  rw [hrev]
  have hwr : ∀ c ∈ w.reverse, notNl c = true := by
    intro c hc
    rw [List.mem_reverse] at hc
    simp [notNl, hw c hc]
  have hy : ∀ c, (('\n' : Char) :: a.reverse).head? = some c → notNl c = false := by
    intro c hc
    simp at hc
    rw [← hc]
    decide
  obtain ⟨h1, h2⟩ := tw_break notNl w.reverse hwr ('\n' :: a.reverse) hy
  rw [h2, h1]
  simp

theorem wsDollar_push (a w z : List Char)
    (ha : ∀ c ∈ a, isPyWs c = true)
    (hw : ∀ c ∈ w, isPyWs c = true ∧ ¬ c = '\n')
    (hz : ∀ c, z.head? = some c → isPyWs c = false) (hzne : z ≠ []) :
    wsDollar (a ++ '\n' :: (w ++ z)) = some (a, '\n' :: (w ++ z)) := by
  have hall : ∀ c ∈ a ++ '\n' :: w, isPyWs c = true := by
    intro c hc
    rcases List.mem_append.mp hc with h | h
    · exact ha c h
    · rcases List.mem_cons.mp h with h | h
      · subst h; decide
      · exact (hw c h).1
  have he : a ++ '\n' :: (w ++ z) = (a ++ '\n' :: w) ++ z := by
    simp
  rw [he]
  unfold wsDollar
  obtain ⟨h1, h2⟩ := tw_break isPyWs (a ++ '\n' :: w) hall z hz
  have hne : z.isEmpty = false := by
    cases z with
    | nil => exact absurd rfl hzne
    | cons _ _ => rfl
  simp only [h1, h2]
  rw [if_neg (by simp [hne])]
  rw [splitLastNl_compute a w (fun c hc => (hw c hc).2)]
  simp

theorem splitLastNl_inv (run pre post : List Char)
    (h : splitLastNl run = some (pre, post)) :
    run = pre ++ post ∧ ∃ after, post = '\n' :: after ∧ ∀ c ∈ after, ¬ c = '\n' := by
  refine ⟨splitLastNl_sound run pre post h, ?_⟩
  unfold splitLastNl at h
  cases hd : run.reverse.dropWhile notNl with
  | nil => rw [hd] at h; exact absurd h (by simp)
  | cons x rr =>
    rw [hd] at h
    simp only [Option.some.injEq, Prod.mk.injEq] at h
    obtain ⟨_, hb⟩ := h
    refine ⟨(run.reverse.takeWhile notNl).reverse, hb.symm, ?_⟩
    intro c hc
    rw [List.mem_reverse] at hc
    have := List.mem_takeWhile_imp hc
    simpa [notNl] using this

theorem wsDollar_inv (x w r : List Char) (h : wsDollar x = some (w, r)) :
    (∀ c ∈ w, isPyWs c = true)
  ∧ (r = []
      ∨ ∃ u v, r = '\n' :: (u ++ v) ∧ (∀ c ∈ u, isPyWs c = true ∧ ¬ c = '\n')
          ∧ (∀ c, v.head? = some c → isPyWs c = false) ∧ v ≠ []) := by
  unfold wsDollar at h
  by_cases he : (x.dropWhile isPyWs).isEmpty = true
  · simp only [he, if_true] at h
    simp only [Option.some.injEq, Prod.mk.injEq] at h
    obtain ⟨hw, hr⟩ := h
    constructor
    · intro c hc
      rw [← hw] at hc
      exact List.mem_takeWhile_imp hc
    · left; exact hr.symm
  · have hne : (x.dropWhile isPyWs).isEmpty = false := by simpa using he
    simp only [hne] at h
    rw [if_neg (show ¬(false = true) by simp)] at h
    cases hs : splitLastNl (x.takeWhile isPyWs) with
    | none => rw [hs] at h; exact absurd h (by simp)
    | some pq =>
      obtain ⟨pre, post⟩ := pq
      rw [hs] at h
      simp only [Option.some.injEq, Prod.mk.injEq] at h
      obtain ⟨hw, hr⟩ := h
      subst hw
      subst hr
      obtain ⟨hsplit, after, hpost, hafter⟩ := splitLastNl_inv _ _ _ hs
      have hrunws : ∀ c ∈ x.takeWhile isPyWs, isPyWs c = true := by
        intro c hc
        exact List.mem_takeWhile_imp hc
      constructor
      · intro c hc
        exact hrunws c (by rw [hsplit]; exact List.mem_append.mpr (Or.inl hc))
      · right
        refine ⟨after, x.dropWhile isPyWs, ?_, ?_, ?_, ?_⟩
        · rw [hpost]
          simp
        · intro c hc
          refine ⟨hrunws c ?_, hafter c hc⟩
          rw [hsplit, hpost]
          exact List.mem_append.mpr (Or.inr (List.mem_cons.mpr (Or.inr hc)))
        · intro c hc
          cases hdx : x.dropWhile isPyWs with
          | nil => rw [hdx] at hc; simp at hc
          | cons d ds =>
            rw [hdx] at hc
            simp only [List.head?_cons, Option.some.injEq] at hc
            rw [← hc]
            exact dropWhile_head_false isPyWs x d ds hdx
        · intro hx
          rw [hx] at he
          simp at he

theorem subF_false_copy : ∀ (a : List Char), (∀ c ∈ a, ¬ c = '\n') →
    ∀ (y : List Char), subF false (a ++ y) = a ++ subF false y := by
  intro a
  induction a with
  | nil => intro _ y; simp
  | cons c t ih =>
    intro ha y
    have hc : ¬ c = '\n' := ha c (by simp)
    have h1 := subF_cons false c (t ++ y) (Or.inl rfl)
    have hflag : (decide (c = '\n')) = false := by simp [hc]
    rw [List.cons_append, h1, hflag, ih (fun d hd => ha d (by simp [hd])) y]
    simp

theorem dropWhile_ind_ws : ∀ (W Z : List Char), (∀ c ∈ W, isPyWs c = true) →
    ∃ c t, (W ++ '\n' :: Z).dropWhile isIndentCh = c :: t ∧ isPyWs c = true := by
  intro W
  induction W with
  | nil =>
    intro Z _
    refine ⟨'\n', Z, ?_, by decide⟩
    rw [List.nil_append, List.dropWhile_cons_of_neg (by decide)]
  | cons c W' ih =>
    intro Z hW
    by_cases hc : isIndentCh c = true
    · rw [List.cons_append, List.dropWhile_cons_of_pos hc]
      exact ih Z (fun d hd => hW d (by simp [hd]))
    · rw [List.cons_append, List.dropWhile_cons_of_neg hc]
      exact ⟨c, W' ++ '\n' :: Z, rfl, hW c (by simp)⟩

theorem mf_ws_nl_none (W Z : List Char) (hW : ∀ c ∈ W, isPyWs c = true) :
    matchFence? (W ++ '\n' :: Z) = none := by
  obtain ⟨c, t, hct, hcws⟩ := dropWhile_ind_ws W Z hW
  simp only [matchFence?]
  by_cases h3 : (List.takeWhile isIndentCh (W ++ '\n' :: Z)).length > 3
  · rw [if_pos h3]
  · rw [if_neg h3, hct]
    have hcne : ¬ c = tick := by
      intro he
      rw [he] at hcws
      exact absurd hcws (by decide)
    simp [ticks, dropLit, hcne]

theorem mf_nl (x : List Char) : matchFence? ('\n' :: x) = none := by
  have h := mf_ws_nl_none [] x (by simp)
  simpa using h

theorem subF_nl (b : Bool) (x : List Char) : subF b ('\n' :: x) = '\n' :: subF true x := by
  have hd : (decide (('\n' : Char) = '\n')) = true := by decide
  rw [subF_cons b '\n' x (Or.inr (mf_nl x)), hd]

theorem scanCl_nl (b : Bool) (x : List Char) : scanCl b ('\n' :: x) = scanCl true x := by
  have hd : (decide (('\n' : Char) = '\n')) = true := by decide
  rw [scanCl_cons b '\n' x (Or.inr (mf_nl x)), hd]

theorem step_ws : ∀ (U : List Char), (∀ c ∈ U, isPyWs c = true) →
    ∀ (b : Bool) (Z : List Char), scanCl b (U ++ '\n' :: Z) = scanCl true Z := by
  intro U
  induction U with
  | nil =>
    intro _ b Z
    rw [List.nil_append, scanCl_nl]
  | cons c U' ih =>
    intro hU b Z
    have hmf : matchFence? (c :: (U' ++ '\n' :: Z)) = none := by
      have h := mf_ws_nl_none (c :: U') Z hU
      simpa using h
    rw [List.cons_append, scanCl_cons b c _ (Or.inr hmf)]
    exact ih (fun d hd => hU d (by simp [hd])) _ Z

theorem last_nl_split (a : List Char) (h : '\n' ∈ a) :
    ∃ W u, a = W ++ '\n' :: u ∧ ¬ '\n' ∈ u := by
  have hr : '\n' ∈ a.reverse := by simpa using h
  obtain ⟨u', v', he, hu'⟩ := first_nl_split a.reverse hr
  refine ⟨v'.reverse, u'.reverse, ?_, ?_⟩
  · have h2 : a.reverse.reverse = (u' ++ '\n' :: v').reverse := by rw [he]
    simpa [List.reverse_append] using h2
  · simpa using hu'

theorem mf_tail_facts (l : List Char) (m : FenceMatch) (h : matchFence? l = some m) :
    (∀ c ∈ m.wsTail, isPyWs c = true) ∧ (m.rest = [] ∨ ∃ x, m.rest = '\n' :: x) := by
  obtain ⟨_, _, _, _, hfc⟩ := matchFence?_inv l m h
  have hwd := fc_some_wsd m.indent m.body (m.wsTail ++ m.rest) m.wsTail m.rest hfc
  obtain ⟨hws, hr⟩ := wsDollar_inv _ _ _ hwd
  refine ⟨hws, ?_⟩
  rcases hr with hr | ⟨u, v, hr, _, _, _⟩
  · left; exact hr
  · right; exact ⟨u ++ v, hr⟩

theorem detect_no_nl (code : List Char) :
    ∀ c ∈ (detect_language code).toList, ¬ c = '\n' := by
  have h := detect_mem code
  simp only [langTags, List.mem_cons, List.not_mem_nil, or_false] at h
  rcases h with h | h | h | h | h | h <;> rw [h] <;> decide

theorem detect_strip_isEmpty (code : List Char) :
    (stripChars (detect_language code).toList).isEmpty = false := by
  have h := detect_mem code
  simp only [langTags, List.mem_cons, List.not_mem_nil, or_false] at h
  rcases h with h | h | h | h | h | h <;> rw [h] <;> decide

theorem tail_analysis (A Yp : List Char) (hA : ∀ c ∈ A, isPyWs c = true)
    (hscan : scanCl true Yp = true) :
    ∃ w2 r2, wsDollar (A ++ '\n' :: Yp) = some (w2, r2) ∧ ∀ b2, scanCl b2 r2 = true := by
  cases hv : Yp.dropWhile isPyWs with
  | nil =>
    have hall : ∀ c ∈ Yp, isPyWs c = true := List.dropWhile_eq_nil_iff.mp hv
    have hall2 : ∀ c ∈ A ++ '\n' :: Yp, isPyWs c = true := by
      intro c hc
      rcases List.mem_append.mp hc with h | h
      · exact hA c h
      · rcases List.mem_cons.mp h with h | h
        · subst h; decide
        · exact hall c h
    exact ⟨_, _, wsDollar_all_ws _ hall2, fun b2 => scanCl_nil b2⟩
  | cons d v' =>
    have hYp := (List.takeWhile_append_dropWhile isPyWs Yp).symm
    have hdws : isPyWs d = false := dropWhile_head_false isPyWs Yp d v' hv
    have hu_ws : ∀ c ∈ Yp.takeWhile isPyWs, isPyWs c = true :=
      fun c hc => List.mem_takeWhile_imp hc
    have hz : ∀ c, (d :: v').head? = some c → isPyWs c = false := by
      intro c hc
      simp only [List.head?_cons, Option.some.injEq] at hc
      rw [← hc]
      exact hdws
    by_cases hnl : '\n' ∈ Yp.takeWhile isPyWs
    · obtain ⟨W0, u, hsplit, hunl⟩ := last_nl_split _ hnl
      have hYp2 : A ++ '\n' :: Yp = (A ++ '\n' :: W0) ++ '\n' :: (u ++ (d :: v')) := by
        conv_lhs => rw [hYp, hv, hsplit]
        simp
      have haws : ∀ c ∈ A ++ '\n' :: W0, isPyWs c = true := by
        intro c hc
        rcases List.mem_append.mp hc with h | h
        · exact hA c h
        · rcases List.mem_cons.mp h with h | h
          · subst h; decide
          · exact hu_ws c (by rw [hsplit]; exact List.mem_append.mpr (Or.inl h))
      have huws : ∀ c ∈ u, isPyWs c = true ∧ ¬ c = '\n' := by
        intro c hc
        refine ⟨hu_ws c ?_, fun he => hunl (he ▸ hc)⟩
        rw [hsplit]
        exact List.mem_append.mpr (Or.inr (List.mem_cons.mpr (Or.inr hc)))
      rw [hYp2]
      refine ⟨_, _, wsDollar_push _ u (d :: v') haws huws hz (by simp), ?_⟩
      intro b2
      rw [scanCl_nl]
      have hW0 : ∀ c ∈ W0, isPyWs c = true :=
        fun c hc => hu_ws c (by rw [hsplit]; exact List.mem_append.mpr (Or.inl hc))
      have hs2 : scanCl true Yp = scanCl true (u ++ d :: v') := by
        conv_lhs => rw [hYp, hv, hsplit]
        rw [List.append_assoc, List.cons_append]
        exact step_ws W0 hW0 true (u ++ d :: v')
      rw [← hs2]
      exact hscan
    · have huws : ∀ c ∈ Yp.takeWhile isPyWs, isPyWs c = true ∧ ¬ c = '\n' :=
        fun c hc => ⟨hu_ws c hc, fun he => hnl (he ▸ hc)⟩
      have hYp2 : A ++ '\n' :: Yp = A ++ '\n' :: (Yp.takeWhile isPyWs ++ (d :: v')) := by
        conv_lhs => rw [hYp, hv]
      rw [hYp2]
      refine ⟨_, _, wsDollar_push A _ (d :: v') hA huws hz (by simp), ?_⟩
      intro b2
      rw [scanCl_nl]
      have hs2 : Yp.takeWhile isPyWs ++ d :: v' = Yp := by
        conv_rhs => rw [hYp, hv]
      rw [hs2]
      exact hscan

theorem findClose_nil (ind : List Char) : findClose ind [] = none := rfl

theorem checkClose_nil (ind : List Char) : checkClose ind [] = none := rfl

theorem fc_cons_none_inv (ind : List Char) (c : Char) (t : List Char)
    (h : findClose ind (c :: t) = none) :
    checkClose ind (c :: t) = none ∧ findClose ind t = none := by
  unfold findClose at h
  constructor
  · cases hck : checkClose ind (c :: t) with
    | none => rfl
    | some p =>
      obtain ⟨w, r⟩ := p
      rw [hck] at h
      simp at h
  · cases hfc : findClose ind t with
    | none => rfl
    | some p =>
      obtain ⟨b, w, r⟩ := p
      rw [hfc] at h
      cases hck : checkClose ind (c :: t) with
      | none => rw [hck] at h; simp at h
      | some p2 =>
        obtain ⟨w2, r2⟩ := p2
        rw [hck] at h
        simp at h

theorem fc_cons_build (ind : List Char) (c : Char) (t : List Char)
    (h1 : checkClose ind (c :: t) = none) (h2 : findClose ind t = none) :
    findClose ind (c :: t) = none := by
  unfold findClose
  rw [h1, h2]

theorem ck_none_of_fc_none (ind l : List Char) (h : findClose ind l = none) :
    checkClose ind l = none := by
  cases l with
  | nil => rfl
  | cons c t => exact (fc_cons_none_inv ind c t h).1

theorem fc_none_suffix (ind : List Char) :
    ∀ (x y : List Char), findClose ind (x ++ y) = none → findClose ind y = none := by
  intro x
  induction x with
  | nil => intro y h; simpa using h
  | cons c x' ih =>
    intro y h
    rw [List.cons_append] at h
    exact ih y (fc_cons_none_inv ind c (x' ++ y) h).2

theorem drop_app_le : ∀ (a : List Char) (k : Nat), k ≤ a.length → ∀ (b : List Char),
    (a ++ b).drop k = a.drop k ++ b := by
  intro a
  induction a with
  | nil =>
    intro k hk b
    have hk0 : k = 0 := Nat.le_zero.mp hk
    subst hk0
    simp
  | cons c a' ih =>
    intro k hk b
    cases k with
    | zero => simp
    | succ k' =>
      rw [List.cons_append, List.drop_succ_cons, List.drop_succ_cons]
      exact ih k' (by simpa using hk) b

theorem drop_app_shift : ∀ (a b : List Char) (k : Nat),
    (a ++ b).drop (a.length + k) = b.drop k := by
  intro a
  induction a with
  | nil => intro b k; simp
  | cons c a' ih =>
    intro b k
    rw [List.cons_append, List.length_cons]
    have hsh : a'.length + 1 + k = (a'.length + k) + 1 := by omega
    rw [hsh, List.drop_succ_cons]
    exact ih b k

theorem ckAll_of (ind x y : List Char)
    (h1 : ∀ k, k < x.length → checkClose ind (x.drop k ++ y) = none)
    (h2 : checkClose ind y = none) : ckAll ind x y := by
  intro k
  rcases Nat.lt_or_ge k x.length with hk | hk
  · exact h1 k hk
  · rw [List.drop_eq_nil_of_le hk, List.nil_append]
    exact h2

theorem ckAll_fc_none (ind : List Char) :
    ∀ (x y : List Char), ckAll ind x y → findClose ind y = none →
      findClose ind (x ++ y) = none := by
  intro x
  induction x with
  | nil => intro y _ h2; simpa using h2
  | cons c x' ih =>
    intro y h1 h2
    rw [List.cons_append]
    refine fc_cons_build ind c (x' ++ y) ?_ (ih y ?_ h2)
    · have h0 := h1 0
      simpa using h0
    · intro k
      have hk := h1 (k + 1)
      simpa using hk

theorem fc_none_parts_inv (ind : List Char) :
    ∀ (x y : List Char), findClose ind (x ++ y) = none →
      ckAll ind x y ∧ findClose ind y = none := by
  intro x
  induction x with
  | nil =>
    intro y h
    rw [List.nil_append] at h
    refine ⟨fun k => ?_, h⟩
    rw [List.drop_nil, List.nil_append]
    exact ck_none_of_fc_none ind y h
  | cons c x' ih =>
    intro y h
    rw [List.cons_append] at h
    obtain ⟨h1, h2⟩ := fc_cons_none_inv ind c (x' ++ y) h
    obtain ⟨h3, h4⟩ := ih y h2
    refine ⟨fun k => ?_, h4⟩
    cases k with
    | zero => simpa using h1
    | succ k' => simpa using h3 k'

theorem ck_head_ne (ind : List Char) (c : Char) (z : List Char) (hc : ¬ c = '\n') :
    checkClose ind (c :: z) = none := by
  unfold checkClose
  have hd : dropLit ('\n' :: (ind ++ ticks)) (c :: z) = none := by
    show (if c = '\n' then dropLit (ind ++ ticks) z else none) = none
    rw [if_neg hc]
  rw [hd]

theorem ckAll_no_nl (ind : List Char) :
    ∀ (x y : List Char), (∀ c ∈ x, ¬ c = '\n') → checkClose ind y = none →
      ckAll ind x y := by
  intro x
  induction x with
  | nil => intro y _ hy k; simpa using hy
  | cons c x' ih =>
    intro y hx hy k
    cases k with
    | zero =>
      rw [List.drop_zero, List.cons_append]
      exact ck_head_ne ind c (x' ++ y) (hx c (by simp))
    | succ k' =>
      rw [List.drop_succ_cons]
      exact ih y (fun d hd => hx d (by simp [hd])) hy k'

theorem dl_ws_tail : ∀ (ind : List Char), (∀ c ∈ ind, isIndentCh c = true) →
    ∀ (W : List Char), (∀ c ∈ W, isPyWs c = true) →
    ∀ (Y : List Char), (Y = [] ∨ ∃ y', Y = '\n' :: y') →
      dropLit (ind ++ ticks) (W ++ Y) = none := by
  intro ind
  induction ind with
  | nil =>
    intro _ W hW Y hY
    cases W with
    | nil =>
      rcases hY with hY | ⟨y', hY⟩
      · subst hY; rfl
      · subst hY
        have hne : ¬ ('\n' : Char) = tick := by decide
        simp [ticks, dropLit, hne]
    | cons d W' =>
      have hd : isPyWs d = true := hW d (by simp)
      have hne : ¬ d = tick := by
        intro he
        rw [he] at hd
        exact absurd hd (by decide)
      simp [ticks, dropLit, hne]
  | cons c ind' ih =>
    intro hind W hW Y hY
    have hc := hind c (by simp)
    cases W with
    | nil =>
      rcases hY with hY | ⟨y', hY⟩
      · subst hY; rfl
      · subst hY
        have hcn : ¬ ('\n' : Char) = c := by
          intro he
          rw [← he] at hc
          exact absurd hc (by decide)
        simp [dropLit, hcn]
    | cons d W' =>
      rw [List.cons_append, List.cons_append]
      by_cases hdc : d = c
      · subst hdc
        show (if d = d then dropLit (ind' ++ ticks) (W' ++ Y) else none) = none
        rw [if_pos rfl]
        exact ih (fun e he => hind e (by simp [he])) W' (fun e he => hW e (by simp [he])) Y hY
      · show (if d = c then dropLit (ind' ++ ticks) (W' ++ Y) else none) = none
        rw [if_neg hdc]

theorem dl_indticks_ne : ∀ (ind indm : List Char),
    (∀ c ∈ ind, isIndentCh c = true) → (∀ c ∈ indm, isIndentCh c = true) →
    ¬ ind = indm → ∀ (z : List Char),
      dropLit (ind ++ ticks) (indm ++ (ticks ++ z)) = none := by
  intro ind
  induction ind with
  | nil =>
    intro indm _ hindm hne z
    cases indm with
    | nil => exact absurd rfl hne
    | cons d indm' =>
      have hd := hindm d (by simp)
      have hdt : ¬ d = tick := by
        intro he
        rw [he] at hd
        exact absurd hd (by decide)
      simp [ticks, dropLit, hdt]
  | cons c ind' ih =>
    intro indm hind hindm hne z
    have hc := hind c (by simp)
    cases indm with
    | nil =>
      have htc : ¬ tick = c := by
        intro he
        rw [← he] at hc
        exact absurd hc (by decide)
      simp [ticks, dropLit, htc]
    | cons d indm' =>
      rw [List.cons_append, List.cons_append]
      by_cases hdc : d = c
      · subst hdc
        show (if d = d then dropLit (ind' ++ ticks) (indm' ++ (ticks ++ z)) else none) = none
        rw [if_pos rfl]
        have hne' : ¬ ind' = indm' := fun he => hne (by rw [he])
        exact ih indm' (fun e he => hind e (by simp [he]))
          (fun e he => hindm e (by simp [he])) hne' z
      · show (if d = c then dropLit (ind' ++ ticks) (indm' ++ (ticks ++ z)) else none) = none
        rw [if_neg hdc]

theorem takeWhile_append_all (p : Char → Bool) :
    ∀ (a : List Char), (∀ c ∈ a, p c = true) → ∀ (y : List Char),
      (a ++ y).takeWhile p = a ++ y.takeWhile p
      ∧ (a ++ y).dropWhile p = y.dropWhile p := by
  intro a
  induction a with
  | nil => intro _ y; simp
  | cons c a' ih =>
    intro ha y
    have hc : p c = true := ha c (by simp)
    obtain ⟨h1, h2⟩ := ih (fun d hd => ha d (by simp [hd])) y
    constructor
    · rw [List.cons_append, List.takeWhile_cons_of_pos hc, h1, List.cons_append]
    · rw [List.cons_append, List.dropWhile_cons_of_pos hc, h2]

theorem wsd_ws_nl_ne (W Y : List Char) (hW : ∀ c ∈ W, isPyWs c = true)
    (hY : Y = [] ∨ ∃ y', Y = '\n' :: y') : wsDollar (W ++ Y) ≠ none := by
  rcases hY with hY | ⟨y', hY⟩
  · subst hY
    rw [List.append_nil, wsDollar_all_ws W hW]
    simp
  · subst hY
    intro hn
    rw [wsDollar_none_iff] at hn
    obtain ⟨_, h2⟩ := hn
    apply h2
    obtain ⟨h3, _⟩ := takeWhile_append_all isPyWs W hW ('\n' :: y')
    rw [h3]
    refine List.mem_append.mpr (Or.inr ?_)
    rw [List.takeWhile_cons_of_pos (by decide)]
    simp

theorem wsd_nl_ne (x : List Char) : wsDollar ('\n' :: x) ≠ none := by
  have h := wsd_ws_nl_ne [] ('\n' :: x) (by simp) (Or.inr ⟨x, rfl⟩)
  simpa using h

theorem strip_ne_nonws (a : List Char) (h : ¬ stripChars a = []) :
    ∃ c ∈ a, isPyWs c = false := by
  by_contra hall
  push_neg at hall
  have hall2 : ∀ c ∈ a, isPyWs c = true := by
    intro c hc
    cases hx : isPyWs c
    · exact absurd hx (hall c hc)
    · rfl
  have hdw : a.dropWhile isPyWs = [] := (takeWhile_all isPyWs a hall2).2
  apply h
  unfold stripChars
  rw [hdw]
  rfl

theorem strip_nil_all_ws (a : List Char) (h : stripChars a = []) :
    ∀ c ∈ a, isPyWs c = true := by
  unfold stripChars at h
  have h2 : (a.dropWhile isPyWs).reverse.dropWhile isPyWs = [] := by
    have h3 := congrArg List.reverse h
    simpa using h3
  have h3 : ∀ c ∈ (a.dropWhile isPyWs).reverse, isPyWs c = true :=
    List.dropWhile_eq_nil_iff.mp h2
  intro c hc
  conv at hc => rw [← List.takeWhile_append_dropWhile isPyWs a]
  rcases List.mem_append.mp hc with h4 | h4
  · exact List.mem_takeWhile_imp h4
  · exact h3 c (by simpa using h4)

theorem wsDollar_none_info (a : List Char) (hnl : ¬ '\n' ∈ a)
    (hnw : ∃ c ∈ a, isPyWs c = false) (z : List Char) : wsDollar (a ++ z) = none := by
  cases hdw : a.dropWhile isPyWs with
  | nil =>
    obtain ⟨c, hc, hcf⟩ := hnw
    have hall := List.dropWhile_eq_nil_iff.mp hdw
    rw [hall c hc] at hcf
    simp at hcf
  | cons c t =>
    have hc := dropWhile_head_false isPyWs a c t hdw
    have ha : a = a.takeWhile isPyWs ++ c :: t := by
      conv_lhs => rw [← List.takeWhile_append_dropWhile isPyWs a]
      rw [hdw]
    have hsw : ∀ e ∈ a.takeWhile isPyWs, isPyWs e = true :=
      fun e he => List.mem_takeWhile_imp he
    have h2 : a ++ z = a.takeWhile isPyWs ++ (c :: (t ++ z)) := by
      conv_lhs => rw [ha]
      simp
    rw [h2, wsDollar_none_iff]
    obtain ⟨h3, h4⟩ := takeWhile_all_append isPyWs (a.takeWhile isPyWs) hsw c hc (t ++ z)
    rw [h3, h4]
    refine ⟨by simp, fun hmem => hnl ?_⟩
    rw [ha]
    exact List.mem_append.mpr (Or.inl hmem)

theorem ckAll_ws_nlY (ind : List Char) (hindI : ∀ c ∈ ind, isIndentCh c = true) :
    ∀ (W : List Char), (∀ c ∈ W, isPyWs c = true) →
    ∀ (Y : List Char), (Y = [] ∨ ∃ y', Y = '\n' :: y') → checkClose ind Y = none →
      ckAll ind W Y := by
  intro W
  induction W with
  | nil => intro _ Y _ hY0 k; simpa using hY0
  | cons c W' ih =>
    intro hW Y hY hY0 k
    cases k with
    | zero =>
      rw [List.drop_zero, List.cons_append]
      by_cases hc : c = '\n'
      · subst hc
        unfold checkClose
        have hd : dropLit ('\n' :: (ind ++ ticks)) ('\n' :: (W' ++ Y))
            = dropLit (ind ++ ticks) (W' ++ Y) := by
          show (if ('\n' : Char) = '\n' then dropLit (ind ++ ticks) (W' ++ Y) else none) = _
          rw [if_pos rfl]
        rw [hd, dl_ws_tail ind hindI W' (fun d hd2 => hW d (by simp [hd2])) Y hY]
      · exact ck_head_ne ind c (W' ++ Y) hc
    | succ k' =>
      rw [List.drop_succ_cons]
      exact ih (fun d hd => hW d (by simp [hd])) Y hY hY0 k'

theorem ck_nl_eq (ind X : List Char) :
    checkClose ind ('\n' :: X)
      = match dropLit (ind ++ ticks) X with
        | some r3 => wsDollar r3
        | none => none := by
  unfold checkClose
  have hd : dropLit ('\n' :: (ind ++ ticks)) ('\n' :: X) = dropLit (ind ++ ticks) X := by
    show (if ('\n' : Char) = '\n' then dropLit (ind ++ ticks) X else none) = _
    rw [if_pos rfl]
  rw [hd]

theorem mf_no_nl (l : List Char) (hl : ¬ '\n' ∈ l) : matchFence? l = none := by
  simp only [matchFence?]
  by_cases h3 : (l.takeWhile isIndentCh).length > 3
  · rw [if_pos h3]
  · rw [if_neg h3]
    cases hdl : dropLit ticks (l.dropWhile isIndentCh) with
    | none => rfl
    | some r2 =>
      have hr2 : ∀ c ∈ r2, notNl c = true := by
        intro c hc
        have hsub := dropLit_sound ticks (l.dropWhile isIndentCh) r2 hdl
        have hcl : c ∈ l := by
          apply mem_dropWhile_mem isIndentCh l c
          rw [hsub]
          exact List.mem_append.mpr (Or.inr hc)
        have hcn : ¬ c = '\n' := fun he => hl (he ▸ hcl)
        simp [notNl, hcn]
      have hdw : r2.dropWhile notNl = [] := (takeWhile_all notNl r2 hr2).2
      simp only [hdw]

theorem subF_no_nl (t : List Char) (ht : ¬ '\n' ∈ t) : ∀ (b : Bool), subF b t = t := by
  intro b
  cases t with
  | nil => exact subF_nil b
  | cons c t' =>
    rw [subF_cons b c t' (Or.inr (mf_no_nl _ ht))]
    have hc : ¬ c = '\n' := fun he => ht (by simp [he])
    have hflag : (decide (c = '\n')) = false := by simp [hc]
    rw [hflag]
    have ht' : ¬ '\n' ∈ t' := fun hm => ht (by simp [hm])
    have h2 := subF_false_copy t' (fun d hd he => ht' (he ▸ hd)) []
    rw [List.append_nil] at h2
    rw [h2, subF_nil, List.append_nil]

theorem img_line (p q : List Char) (hp : ¬ '\n' ∈ p)
    (hmf : matchFence? (p ++ '\n' :: q) = none) :
    subF true (p ++ '\n' :: q) = p ++ '\n' :: subF true q := by
  cases p with
  | nil => simpa using subF_nl true q
  | cons c p' =>
    rw [List.cons_append, subF_cons true c _ (Or.inr (by simpa using hmf))]
    have hcnl : ¬ c = '\n' := fun he => hp (by simp [he])
    have hflag : (decide (c = '\n')) = false := by simp [hcnl]
    rw [hflag]
    have hp' : ∀ d ∈ p', ¬ d = '\n' := fun d hd he => hp (by
      rw [← he]
      exact List.mem_cons.mpr (Or.inr hd))
    rw [subF_false_copy p' hp' ('\n' :: q), subF_nl, List.cons_append]

theorem pattern_no_nl (ind : List Char) (hindI : ∀ c ∈ ind, isIndentCh c = true) :
    ∀ c ∈ ind ++ ticks, ¬ c = '\n' := by
  intro e he
  rcases List.mem_append.mp he with h2 | h2
  · exact (isIndentCh_props e (hindI e h2)).2
  · have het : e = tick := by simpa [ticks] using h2
    subst het
    decide

theorem ck_nl_trans (ind : List Char) (hindI : ∀ c ∈ ind, isIndentCh c = true)
    (t : List Char) (h : checkClose ind ('\n' :: t) = none) :
    checkClose ind ('\n' :: subF true t) = none := by
  rw [ck_nl_eq] at h ⊢
  cases hmf : matchFence? t with
  | some m2 =>
    obtain ⟨hind2, _, hclos2, hinfo2, _⟩ := matchFence?_inv t m2 hmf
    have hsound2 := matchFence?_sound t m2 hmf
    have hind2I : ∀ e ∈ m2.indent, isIndentCh e = true :=
      fun e he => List.mem_takeWhile_imp (hind2 ▸ he)
    rw [subF_match t m2 hmf]
    by_cases hii : ind = m2.indent
    · by_cases hstrip : stripChars m2.info = []
      · exfalso
        rw [hsound2] at h
        have hsh : matchedText m2 ++ m2.rest
            = (ind ++ ticks)
              ++ (m2.info ++ '\n' :: (m2.body ++ m2.closing ++ m2.wsTail ++ m2.rest)) := by
          unfold matchedText
          rw [hii]
          simp [List.append_assoc]
        rw [hsh, dropLit_self] at h
        have h2 : wsDollar
            (m2.info ++ '\n' :: (m2.body ++ m2.closing ++ m2.wsTail ++ m2.rest)) = none := h
        have hinfows : ∀ e ∈ m2.info, isPyWs e = true := strip_nil_all_ws m2.info hstrip
        exact wsd_ws_nl_ne m2.info _ hinfows (Or.inr ⟨_, rfl⟩) h2
      · have hEi : add_lang_to_fence m2 = matchedText m2 := by
          unfold add_lang_to_fence
          rw [if_neg hstrip]
        rw [hEi]
        have hsh : matchedText m2 ++ subF (lastIsNl m2) m2.rest
            = (ind ++ ticks)
              ++ (m2.info ++ ('\n' :: (m2.body ++ m2.closing ++ m2.wsTail)
                    ++ subF (lastIsNl m2) m2.rest)) := by
          unfold matchedText
          rw [hii]
          simp [List.append_assoc]
        rw [hsh, dropLit_self]
        show wsDollar (m2.info ++ ('\n' :: (m2.body ++ m2.closing ++ m2.wsTail)
          ++ subF (lastIsNl m2) m2.rest)) = none
        have hnl2 : ¬ '\n' ∈ m2.info := fun hm => hinfo2 '\n' hm rfl
        exact wsDollar_none_info m2.info hnl2 (strip_ne_nonws m2.info hstrip) _
    · have hshape : ∃ R, add_lang_to_fence m2 ++ subF (lastIsNl m2) m2.rest
          = m2.indent ++ (ticks ++ R) := by
        unfold add_lang_to_fence
        by_cases hstrip : stripChars m2.info = []
        · rw [if_pos hstrip]
          refine ⟨(detect_language m2.body).toList
            ++ '\n' :: (m2.body ++ (m2.closing ++ '\n' :: subF (lastIsNl m2) m2.rest)), ?_⟩
          simp [List.append_assoc]
        · rw [if_neg hstrip]
          unfold matchedText
          refine ⟨m2.info
            ++ '\n' :: (m2.body ++ (m2.closing ++ (m2.wsTail ++ subF (lastIsNl m2) m2.rest))), ?_⟩
          simp [List.append_assoc]
      obtain ⟨R, hR⟩ := hshape
      rw [hR, dl_indticks_ne ind m2.indent hindI hind2I hii R]
  | none =>
    by_cases hnl : '\n' ∈ t
    · obtain ⟨p, q, hpq, hp⟩ := first_nl_split t hnl
      subst hpq
      rw [img_line p q hp hmf]
      rcases Nat.lt_or_ge p.length (ind ++ ticks).length with hlen | hlen
      · have hpnl : ∀ e ∈ ind ++ ticks, ¬ e = '\n' := pattern_no_nl ind hindI
        rw [dropLit_no_nl_hit (ind ++ ticks) hpnl p hlen (subF true q)]
      · have hsp1 := dropLit_split (ind ++ ticks) p hlen ('\n' :: q)
        have hsp2 := dropLit_split (ind ++ ticks) p hlen ('\n' :: subF true q)
        cases hdl : dropLit (ind ++ ticks) p with
        | none =>
          rw [hdl] at hsp2
          simp only [Option.map_none'] at hsp2
          rw [hsp2]
        | some rp =>
          rw [hdl] at hsp1 hsp2
          simp only [Option.map_some'] at hsp1 hsp2
          rw [hsp1] at h
          rw [hsp2]
          have h2 : wsDollar (rp ++ '\n' :: q) = none := h
          show wsDollar (rp ++ '\n' :: subF true q) = none
          have hrpnl : ¬ '\n' ∈ rp := by
            intro hm
            apply hp
            have hsub := dropLit_sound (ind ++ ticks) p rp hdl
            rw [hsub]
            exact List.mem_append.mpr (Or.inr hm)
          by_cases hws : ∀ e ∈ rp, isPyWs e = true
          · exact absurd h2 (wsd_ws_nl_ne rp _ hws (Or.inr ⟨_, rfl⟩))
          · push_neg at hws
            obtain ⟨e, he, hef⟩ := hws
            have hef' : isPyWs e = false := by
              cases hx : isPyWs e
              · rfl
              · exact absurd hx hef
            exact wsDollar_none_info rp hrpnl ⟨e, he, hef'⟩ _
    · rw [subF_no_nl t hnl true]
      exact h

theorem fc_E_none (ind indm A TL body wsTail rest Y : List Char)
    (hindI : ∀ c ∈ ind, isIndentCh c = true)
    (hindm : ∀ c ∈ indm, isIndentCh c = true)
    (hA : ∀ c ∈ A, ¬ c = '\n')
    (hTL : ∀ c ∈ TL, isPyWs c = true)
    (hY : Y = [] ∨ ∃ y', Y = '\n' :: y')
    (hzs : wsDollar (wsTail ++ rest) ≠ none)
    (hz : wsDollar (TL ++ Y) ≠ none)
    (hfcY : findClose ind Y = none)
    (hS2 : checkClose ind (('\n' :: (body ++ '\n' :: (indm ++ ticks))) ++ (wsTail ++ rest))
      = none)
    (hS3 : ∀ k, k < body.length →
      checkClose ind ((body.drop k ++ '\n' :: (indm ++ ticks)) ++ (wsTail ++ rest)) = none)
    (hS4 : checkClose ind (('\n' :: (indm ++ ticks)) ++ (wsTail ++ rest)) = none) :
    findClose ind
      ((indm ++ ticks ++ A ++ '\n' :: (body ++ '\n' :: (indm ++ ticks) ++ TL)) ++ Y)
      = none := by
  have hind : ∀ c ∈ ind, ¬ c = '\n' := fun c hc => (isIndentCh_props c (hindI c hc)).2
  have hY0 : checkClose ind Y = none := ck_none_of_fc_none ind Y hfcY
  have P_TL : ckAll ind TL Y := ckAll_ws_nlY ind hindI TL hTL Y hY hY0
  have hTLY : checkClose ind (TL ++ Y) = none := by
    have h0 := P_TL 0
    simpa using h0
  have P4k0 : checkClose ind (('\n' :: (indm ++ ticks)) ++ (TL ++ Y)) = none := by
    by_cases hii : ind = indm
    · subst hii
      rw [ck_self] at hS4
      exact absurd hS4 hzs
    · rw [List.cons_append]
      unfold checkClose
      have hd : dropLit ('\n' :: (ind ++ ticks)) ('\n' :: ((indm ++ ticks) ++ (TL ++ Y)))
          = dropLit (ind ++ ticks) ((indm ++ ticks) ++ (TL ++ Y)) := by
        show (if ('\n' : Char) = '\n'
          then dropLit (ind ++ ticks) ((indm ++ ticks) ++ (TL ++ Y)) else none) = _
        rw [if_pos rfl]
      rw [hd, List.append_assoc, dl_indticks_ne ind indm hindI hindm hii (TL ++ Y)]
  have hnnIT : ∀ c ∈ indm ++ ticks, ¬ c = '\n' := pattern_no_nl indm hindm
  have P_close : ckAll ind ('\n' :: (indm ++ ticks)) (TL ++ Y) := by
    intro k
    cases k with
    | zero => simpa using P4k0
    | succ k' =>
      rw [List.drop_succ_cons]
      exact ckAll_no_nl ind (indm ++ ticks) (TL ++ Y) hnnIT hTLY k'
  have P_body : ckAll ind body (('\n' :: (indm ++ ticks)) ++ (TL ++ Y)) := by
    refine ckAll_of ind body _ ?_ P4k0
    intro k hk
    have hne : body.drop k ≠ [] := by
      intro he
      have hlen := List.length_drop k body
      rw [he] at hlen
      simp at hlen
      omega
    obtain ⟨d, bd, hd⟩ := List.exists_cons_of_ne_nil hne
    have ha : '\n' ∈ (body.drop k ++ '\n' :: (indm ++ ticks)).drop 1 := by
      rw [hd, List.cons_append, List.drop_one, List.tail_cons]
      exact List.mem_append.mpr (Or.inr (List.mem_cons_self _ _))
    have hiff := ck_u ind (body.drop k ++ '\n' :: (indm ++ ticks)) (TL ++ Y)
      (wsTail ++ rest) hind hz hzs (Or.inr ha)
    have h2 := hiff.mpr (hS3 k hk)
    rw [← List.append_assoc]
    exact h2
  have P2k0 : checkClose ind
      ('\n' :: (body ++ (('\n' :: (indm ++ ticks)) ++ (TL ++ Y)))) = none := by
    have ha : '\n' ∈ (('\n' :: (body ++ '\n' :: (indm ++ ticks)))).drop 1 := by
      rw [List.drop_one, List.tail_cons]
      exact List.mem_append.mpr (Or.inr (List.mem_cons_self _ _))
    have hiff := ck_u ind ('\n' :: (body ++ '\n' :: (indm ++ ticks))) (TL ++ Y)
      (wsTail ++ rest) hind hz hzs (Or.inr ha)
    have h2 := hiff.mpr hS2
    have hsh : ('\n' :: (body ++ '\n' :: (indm ++ ticks))) ++ (TL ++ Y)
        = '\n' :: (body ++ (('\n' :: (indm ++ ticks)) ++ (TL ++ Y))) := by
      simp
    rw [hsh] at h2
    exact h2
  have L5 : findClose ind (TL ++ Y) = none := ckAll_fc_none ind TL Y P_TL hfcY
  have L4 : findClose ind (('\n' :: (indm ++ ticks)) ++ (TL ++ Y)) = none :=
    ckAll_fc_none ind _ _ P_close L5
  have L3 : findClose ind (body ++ (('\n' :: (indm ++ ticks)) ++ (TL ++ Y))) = none :=
    ckAll_fc_none ind _ _ P_body L4
  have P_S2 : ckAll ind ['\n'] (body ++ (('\n' :: (indm ++ ticks)) ++ (TL ++ Y))) := by
    intro k
    cases k with
    | zero =>
      rw [List.drop_zero, List.singleton_append]
      exact P2k0
    | succ k' =>
      rw [List.drop_succ_cons]
      simp only [List.drop_nil, List.nil_append]
      exact ck_none_of_fc_none ind _ L3
  have L2 : findClose ind ('\n' :: (body ++ (('\n' :: (indm ++ ticks)) ++ (TL ++ Y))))
      = none := by
    have h2 := ckAll_fc_none ind ['\n'] _ P_S2 L3
    simpa using h2
  have hS1nn : ∀ c ∈ indm ++ ticks ++ A, ¬ c = '\n' := by
    intro c hc
    rcases List.mem_append.mp hc with h2 | h2
    · exact hnnIT c h2
    · exact hA c h2
  have hEsh : (indm ++ ticks ++ A ++ '\n' :: (body ++ '\n' :: (indm ++ ticks) ++ TL)) ++ Y
      = (indm ++ ticks ++ A)
        ++ ('\n' :: (body ++ (('\n' :: (indm ++ ticks)) ++ (TL ++ Y)))) := by
    simp [List.append_assoc]
  rw [hEsh]
  exact ckAll_fc_none ind (indm ++ ticks ++ A) _
    (ckAll_no_nl ind _ _ hS1nn (ck_none_of_fc_none ind _ L2)) L2

theorem fc_trans_none : ∀ (n : Nat) (s : List Char), s.length ≤ n →
    ∀ (b : Bool) (ind : List Char), (∀ c ∈ ind, isIndentCh c = true) →
      findClose ind s = none → findClose ind (subF b s) = none := by
  intro n
  induction n with
  | zero =>
    intro s hs b ind _ h
    have hs0 : s = [] := List.length_eq_zero.mp (Nat.le_zero.mp hs)
    subst hs0
    rw [subF_nil]
    exact h
  | succ n ih =>
    intro s hs b ind hind h
    cases s with
    | nil => rw [subF_nil]; exact h
    | cons c t =>
      have hlt : t.length ≤ n := by
        simp only [List.length_cons] at hs
        omega
      cases hbm : (if b then matchFence? (c :: t) else none) with
      | none =>
        have hsplit : b = false ∨ matchFence? (c :: t) = none := by
          cases b
          · exact Or.inl rfl
          · right; simpa using hbm
        rw [subF_cons b c t hsplit]
        obtain ⟨hck, hfct⟩ := fc_cons_none_inv ind c t h
        have hckI : checkClose ind (c :: subF (decide (c = '\n')) t) = none := by
          by_cases hc : c = '\n'
          · subst hc
            have hfl : (decide (('\n' : Char) = '\n')) = true := by decide
            rw [hfl]
            exact ck_nl_trans ind hind t hck
          · exact ck_head_ne ind c _ hc
        exact fc_cons_build ind c _ hckI (ih t hlt (decide (c = '\n')) ind hind hfct)
      | some m =>
        have hb : b = true := by
          cases b
          · simp at hbm
          · rfl
        subst hb
        have hm : matchFence? (c :: t) = some m := by simpa using hbm
        rw [subF_match (c :: t) m hm]
        obtain ⟨hindent, _, hclos, hinfonl, hfcm⟩ := matchFence?_inv _ m hm
        obtain ⟨hwsT, hrestshape⟩ := mf_tail_facts _ m hm
        have hindmI : ∀ e ∈ m.indent, isIndentCh e = true :=
          fun e he => List.mem_takeWhile_imp (hindent ▸ he)
        have hsound := matchFence?_sound _ m hm
        rw [hsound] at h
        have hsh : matchedText m ++ m.rest
            = (m.indent ++ ticks ++ m.info)
              ++ (['\n'] ++ (m.body
                ++ (('\n' :: (m.indent ++ ticks)) ++ (m.wsTail ++ m.rest)))) := by
          unfold matchedText
          rw [hclos]
          simp [List.append_assoc]
        rw [hsh] at h
        obtain ⟨_, h2⟩ := fc_none_parts_inv ind (m.indent ++ ticks ++ m.info) _ h
        obtain ⟨hckNl, h3⟩ := fc_none_parts_inv ind ['\n'] _ h2
        obtain ⟨hckBody, h4⟩ := fc_none_parts_inv ind m.body _ h3
        have hS4 : checkClose ind (('\n' :: (m.indent ++ ticks)) ++ (m.wsTail ++ m.rest))
            = none := ck_none_of_fc_none ind _ h4
        have h5 : findClose ind (m.wsTail ++ m.rest) = none :=
          fc_none_suffix ind ('\n' :: (m.indent ++ ticks)) _ h4
        have h6 : findClose ind m.rest = none := fc_none_suffix ind m.wsTail m.rest h5
        have hS2 : checkClose ind
            (('\n' :: (m.body ++ '\n' :: (m.indent ++ ticks))) ++ (m.wsTail ++ m.rest))
            = none := by
          have h0 := hckNl 0
          have hsh2 : ('\n' :: (m.body ++ '\n' :: (m.indent ++ ticks)))
              ++ (m.wsTail ++ m.rest)
              = (['\n'] : List Char).drop 0
                ++ (m.body ++ (('\n' :: (m.indent ++ ticks)) ++ (m.wsTail ++ m.rest))) := by
            simp
          rw [hsh2]
          exact h0
        have hS3 : ∀ k, k < m.body.length →
            checkClose ind ((m.body.drop k ++ '\n' :: (m.indent ++ ticks))
              ++ (m.wsTail ++ m.rest)) = none := by
          intro k _
          have hk := hckBody k
          have hsh3 : (m.body.drop k ++ '\n' :: (m.indent ++ ticks))
              ++ (m.wsTail ++ m.rest)
              = m.body.drop k
                ++ (('\n' :: (m.indent ++ ticks)) ++ (m.wsTail ++ m.rest)) := by
            simp
          rw [hsh3]
          exact hk
        have hzs : wsDollar (m.wsTail ++ m.rest) ≠ none := by
          rw [fc_some_wsd m.indent m.body _ _ _ hfcm]
          simp
        have hrlt : m.rest.length ≤ n := by
          have hrl := rest_lt _ m hm
          simp only [List.length_cons] at hs hrl
          omega
        have hYfc : findClose ind (subF (lastIsNl m) m.rest) = none :=
          ih m.rest hrlt (lastIsNl m) ind hind h6
        have hYshape : subF (lastIsNl m) m.rest = []
            ∨ ∃ y', subF (lastIsNl m) m.rest = '\n' :: y' := by
          rcases hrestshape with hr | ⟨x, hr⟩
          · left; rw [hr, subF_nil]
          · right; rw [hr, subF_nl]; exact ⟨_, rfl⟩
        by_cases hstrip : stripChars m.info = []
        · have hE : add_lang_to_fence m ++ subF (lastIsNl m) m.rest
              = (m.indent ++ ticks ++ (detect_language m.body).toList
                  ++ '\n' :: (m.body ++ '\n' :: (m.indent ++ ticks) ++ ['\n']))
                ++ subF (lastIsNl m) m.rest := by
            unfold add_lang_to_fence
            rw [if_pos hstrip, hclos]
          rw [hE]
          have hz : wsDollar (['\n'] ++ subF (lastIsNl m) m.rest) ≠ none :=
            wsd_ws_nl_ne ['\n'] _ (by intro e he; simp at he; subst he; decide) hYshape
          exact fc_E_none ind m.indent (detect_language m.body).toList ['\n'] m.body
            m.wsTail m.rest _ hind hindmI (detect_no_nl m.body)
            (by intro e he; simp at he; subst he; decide) hYshape hzs hz hYfc hS2 hS3 hS4
        · have hE : add_lang_to_fence m ++ subF (lastIsNl m) m.rest
              = (m.indent ++ ticks ++ m.info
                  ++ '\n' :: (m.body ++ '\n' :: (m.indent ++ ticks) ++ m.wsTail))
                ++ subF (lastIsNl m) m.rest := by
            unfold add_lang_to_fence
            rw [if_neg hstrip]
            unfold matchedText
            rw [hclos]
          rw [hE]
          have hz : wsDollar (m.wsTail ++ subF (lastIsNl m) m.rest) ≠ none :=
            wsd_ws_nl_ne m.wsTail _ hwsT hYshape
          exact fc_E_none ind m.indent m.info m.wsTail m.body m.wsTail m.rest _
            hind hindmI hinfonl hwsT hYshape hzs hz hYfc hS2 hS3 hS4

theorem tw_stop (p : Char → Bool) (d : Char) (hd : p d = false) :
    ∀ (P X : List Char),
      (P ++ d :: X).takeWhile p = P.takeWhile p
      ∧ (P ++ d :: X).dropWhile p = P.dropWhile p ++ d :: X := by
  intro P
  induction P with
  | nil =>
    intro X
    have hd' : ¬ p d = true := by simp [hd]
    constructor
    · rw [List.nil_append, List.takeWhile_cons_of_neg hd', List.takeWhile_nil]
    · rw [List.nil_append, List.dropWhile_cons_of_neg hd', List.dropWhile_nil,
        List.nil_append]
  | cons c P' ih =>
    intro X
    obtain ⟨h1, h2⟩ := ih X
    by_cases hc : p c = true
    · constructor
      · rw [List.cons_append, List.takeWhile_cons_of_pos hc,
          List.takeWhile_cons_of_pos hc, h1]
      · rw [List.cons_append, List.dropWhile_cons_of_pos hc,
          List.dropWhile_cons_of_pos hc, h2]
    · constructor
      · rw [List.cons_append, List.takeWhile_cons_of_neg hc, List.takeWhile_cons_of_neg hc]
      · rw [List.cons_append, List.dropWhile_cons_of_neg hc, List.dropWhile_cons_of_neg hc,
          List.cons_append]

theorem mf_line_none_trans (P q q' : List Char) (hP : ¬ '\n' ∈ P)
    (hfc : findClose (P.takeWhile isIndentCh) q = none →
           findClose (P.takeWhile isIndentCh) q' = none)
    (h : matchFence? (P ++ '\n' :: q) = none) :
    matchFence? (P ++ '\n' :: q') = none := by
  have hnlI : isIndentCh '\n' = false := by decide
  obtain ⟨htw1, hdw1⟩ := tw_stop isIndentCh '\n' hnlI P q
  obtain ⟨htw2, hdw2⟩ := tw_stop isIndentCh '\n' hnlI P q'
  simp only [matchFence?] at h ⊢
  rw [htw1, hdw1] at h
  rw [htw2, hdw2]
  by_cases h3 : (P.takeWhile isIndentCh).length > 3
  · rw [if_pos h3]
  · rw [if_neg h3] at h ⊢
    have hDPnl : ¬ '\n' ∈ P.dropWhile isIndentCh :=
      fun hm => hP (mem_dropWhile_mem _ P '\n' hm)
    rcases Nat.lt_or_ge (P.dropWhile isIndentCh).length ticks.length with hlen | hlen
    · have htnl : ∀ c ∈ ticks, ¬ c = '\n' := by
        intro c hc
        have : c = tick := by simpa [ticks] using hc
        subst this
        decide
      rw [dropLit_no_nl_hit ticks htnl (P.dropWhile isIndentCh) hlen q']
    · have hsp1 := dropLit_split ticks (P.dropWhile isIndentCh) hlen ('\n' :: q)
      have hsp2 := dropLit_split ticks (P.dropWhile isIndentCh) hlen ('\n' :: q')
      cases hdl : dropLit ticks (P.dropWhile isIndentCh) with
      | none =>
        rw [hdl] at hsp2
        simp only [Option.map_none'] at hsp2
        rw [hsp2]
      | some rp =>
        rw [hdl] at hsp1 hsp2
        simp only [Option.map_some'] at hsp1 hsp2
        have hrpnl : ∀ c ∈ rp, notNl c = true := by
          intro c hc
          have hsub := dropLit_sound ticks (P.dropWhile isIndentCh) rp hdl
          have hcm : c ∈ P.dropWhile isIndentCh := by
            rw [hsub]
            exact List.mem_append.mpr (Or.inr hc)
          have hcn : ¬ c = '\n' := fun he => hDPnl (he ▸ hcm)
          simp [notNl, hcn]
        obtain ⟨ht1, hd1⟩ := takeWhile_all_append notNl rp hrpnl '\n' (by decide) q
        obtain ⟨ht2, hd2⟩ := takeWhile_all_append notNl rp hrpnl '\n' (by decide) q'
        simp only [hsp1, hd1] at h
        simp only [hsp2, hd2]
        cases hfcq : findClose (P.takeWhile isIndentCh) q with
        | some p3 =>
          obtain ⟨b3, w3, r3⟩ := p3
          rw [hfcq] at h
          simp at h
        | none =>
          rw [hfc hfcq]

theorem mf_none_trans (c : Char) (t : List Char) (h : matchFence? (c :: t) = none) :
    matchFence? (c :: subF (decide (c = '\n')) t) = none := by
  by_cases hc : c = '\n'
  · subst hc
    exact mf_nl _
  · have hflag : (decide (c = '\n')) = false := by simp [hc]
    rw [hflag]
    by_cases hnl : '\n' ∈ t
    · obtain ⟨p, q, hpq, hp⟩ := first_nl_split t hnl
      subst hpq
      have himg : subF false (p ++ '\n' :: q) = p ++ '\n' :: subF true q := by
        have hp' : ∀ d ∈ p, ¬ d = '\n' := fun d hd he => hp (he ▸ hd)
        rw [subF_false_copy p hp' ('\n' :: q), subF_nl]
      rw [himg]
      have hsh1 : c :: (p ++ '\n' :: q) = (c :: p) ++ '\n' :: q := by
        rw [List.cons_append]
      have hsh2 : c :: (p ++ '\n' :: subF true q) = (c :: p) ++ '\n' :: subF true q := by
        rw [List.cons_append]
      rw [hsh1] at h
      rw [hsh2]
      refine mf_line_none_trans (c :: p) q (subF true q) ?_ ?_ h
      · intro hm
        rcases List.mem_cons.mp hm with hm | hm
        · exact hc hm.symm
        · exact hp hm
      · intro hq
        exact fc_trans_none q.length q (le_refl _) true _
          (fun e he => List.mem_takeWhile_imp he) hq
    · rw [subF_no_nl t hnl false]
      exact h

theorem a_main : ∀ (n : Nat) (s : List Char), s.length ≤ n → ∀ (b : Bool),
    scanCl b (subF b s) = true := by
  intro n
  induction n with
  | zero =>
    intro s hs b
    have hs0 : s = [] := List.length_eq_zero.mp (Nat.le_zero.mp hs)
    subst hs0
    rw [subF_nil]
    exact scanCl_nil b
  | succ n ih =>
    intro s hs b
    cases s with
    | nil => rw [subF_nil]; exact scanCl_nil b
    | cons c t =>
      have hlt : t.length ≤ n := by
        simp only [List.length_cons] at hs
        omega
      cases hbm : (if b then matchFence? (c :: t) else none) with
      | none =>
        have hsplit : b = false ∨ matchFence? (c :: t) = none := by
          cases b
          · exact Or.inl rfl
          · right; simpa using hbm
        rw [subF_cons b c t hsplit]
        have hmfI : b = false ∨ matchFence? (c :: subF (decide (c = '\n')) t) = none := by
          rcases hsplit with hb | hmf
          · exact Or.inl hb
          · exact Or.inr (mf_none_trans c t hmf)
        rw [scanCl_cons b c _ hmfI]
        exact ih t hlt (decide (c = '\n'))
      | some m =>
        have hb : b = true := by
          cases b
          · simp at hbm
          · rfl
        subst hb
        have hm : matchFence? (c :: t) = some m := by simpa using hbm
        rw [subF_match (c :: t) m hm]
        obtain ⟨hindent, hlen3, hclos, hinfonl, hfcm⟩ := matchFence?_inv _ m hm
        obtain ⟨hwsT, hrestshape⟩ := mf_tail_facts _ m hm
        have hindmI : ∀ e ∈ m.indent, isIndentCh e = true :=
          fun e he => List.mem_takeWhile_imp (hindent ▸ he)
        have hindmNl : ∀ e ∈ m.indent, ¬ e = '\n' :=
          fun e he => (isIndentCh_props e (hindmI e he)).2
        have hrlt : m.rest.length ≤ n := by
          have hrl := rest_lt _ m hm
          simp only [List.length_cons] at hs hrl
          omega
        by_cases hstrip : stripChars m.info = []
        · have htail : ∃ w2 r2,
              wsDollar (['\n'] ++ subF (lastIsNl m) m.rest) = some (w2, r2)
              ∧ ∀ b2 : Bool, scanCl b2 r2 = true := by
            rcases hrestshape with hr | ⟨x, hr⟩
            · rw [hr, subF_nil, List.append_nil]
              exact ⟨['\n'], [], wsDollar_all_ws ['\n'] (by
                intro e he; simp at he; subst he; decide), fun b2 => scanCl_nil b2⟩
            · rw [hr, subF_nl]
              refine tail_analysis ['\n'] (subF true x) (by
                intro e he; simp at he; subst he; decide) ?_
              have hy := ih m.rest hrlt (lastIsNl m)
              rw [hr, subF_nl, scanCl_nl] at hy
              exact hy
          obtain ⟨w2, r2, hwd, hscans⟩ := htail
          have hfc2 := fc_trans m.indent hindmNl m.body (m.wsTail ++ m.rest)
            (['\n'] ++ subF (lastIsNl m) m.rest) m.wsTail m.rest w2 r2 hfcm hwd
          have hm2 := mf_build m.indent (detect_language m.body).toList m.body
            (['\n'] ++ subF (lastIsNl m) m.rest) w2 r2 hindmI hlen3
            (detect_no_nl m.body) hfc2
          have hE : add_lang_to_fence m ++ subF (lastIsNl m) m.rest
              = m.indent ++ ticks ++ (detect_language m.body).toList
                ++ '\n' :: (m.body ++ '\n' :: (m.indent ++ ticks)
                  ++ (['\n'] ++ subF (lastIsNl m) m.rest)) := by
            unfold add_lang_to_fence
            rw [if_pos hstrip, hclos]
            simp [List.append_assoc]
          rw [hE, scanCl_match _ _ hm2, Bool.and_eq_true]
          constructor
          · show (!(stripChars (detect_language m.body).toList).isEmpty) = true
            rw [detect_strip_isEmpty]
            rfl
          · exact hscans _
        · have htail : ∃ w2 r2,
              wsDollar (m.wsTail ++ subF (lastIsNl m) m.rest) = some (w2, r2)
              ∧ ∀ b2 : Bool, scanCl b2 r2 = true := by
            rcases hrestshape with hr | ⟨x, hr⟩
            · rw [hr, subF_nil, List.append_nil]
              exact ⟨m.wsTail, [], wsDollar_all_ws m.wsTail hwsT, fun b2 => scanCl_nil b2⟩
            · rw [hr, subF_nl]
              refine tail_analysis m.wsTail (subF true x) hwsT ?_
              have hy := ih m.rest hrlt (lastIsNl m)
              rw [hr, subF_nl, scanCl_nl] at hy
              exact hy
          obtain ⟨w2, r2, hwd, hscans⟩ := htail
          have hfc2 := fc_trans m.indent hindmNl m.body (m.wsTail ++ m.rest)
            (m.wsTail ++ subF (lastIsNl m) m.rest) m.wsTail m.rest w2 r2 hfcm hwd
          have hm2 := mf_build m.indent m.info m.body
            (m.wsTail ++ subF (lastIsNl m) m.rest) w2 r2 hindmI hlen3 hinfonl hfc2
          have hE : add_lang_to_fence m ++ subF (lastIsNl m) m.rest
              = m.indent ++ ticks ++ m.info
                ++ '\n' :: (m.body ++ '\n' :: (m.indent ++ ticks)
                  ++ (m.wsTail ++ subF (lastIsNl m) m.rest)) := by
            unfold add_lang_to_fence
            rw [if_neg hstrip]
            unfold matchedText
            rw [hclos]
            simp [List.append_assoc]
          rw [hE, scanCl_match _ _ hm2, Bool.and_eq_true]
          constructor
          · show (!(stripChars m.info).isEmpty) = true
            have hie : (stripChars m.info).isEmpty = false := by
              cases hx : stripChars m.info with
              | nil => exact absurd hx hstrip
              | cons _ _ => rfl
            rw [hie]
            rfl
          · exact hscans _

theorem mf_ws_none (l : List Char) (hl : ∀ c ∈ l, isPyWs c = true) :
    matchFence? l = none := by
  simp only [matchFence?]
  by_cases h3 : (l.takeWhile isIndentCh).length > 3
  · rw [if_pos h3]
  · rw [if_neg h3]
    cases hdw : l.dropWhile isIndentCh with
    | nil => rfl
    | cons c t =>
      have hc : isPyWs c = true := hl c (mem_dropWhile_mem _ l c (by rw [hdw]; simp))
      have hct : ¬ c = tick := by
        intro he
        rw [he] at hc
        exact absurd hc (by decide)
      simp [ticks, dropLit, hct]

theorem scan_ws_true : ∀ (W : List Char), (∀ c ∈ W, isPyWs c = true) → ∀ (b : Bool),
    scanCl b W = true := by
  intro W
  induction W with
  | nil => intro _ b; exact scanCl_nil b
  | cons c W' ih =>
    intro hW b
    rw [scanCl_cons b c W' (Or.inr (mf_ws_none _ hW))]
    exact ih (fun d hd => hW d (by simp [hd])) _

theorem fc_ws_none (ind : List Char) (hindI : ∀ c ∈ ind, isIndentCh c = true) :
    ∀ (W : List Char), (∀ c ∈ W, isPyWs c = true) → findClose ind W = none := by
  intro W
  induction W with
  | nil => intro _; exact findClose_nil ind
  | cons c W' ih =>
    intro hW
    refine fc_cons_build ind c W' ?_ (ih (fun d hd => hW d (by simp [hd])))
    by_cases hc : c = '\n'
    · subst hc
      rw [ck_nl_eq]
      have hd := dl_ws_tail ind hindI W' (fun d hd => hW d (by simp [hd])) [] (Or.inl rfl)
      rw [List.append_nil] at hd
      rw [hd]
    · exact ck_head_ne ind c W' hc

theorem dl_nonws_ws : ∀ (pat T : List Char), (∃ e ∈ pat, isPyWs e = false) →
    (∀ d ∈ T, isPyWs d = true) → dropLit pat T = none := by
  intro pat
  induction pat with
  | nil =>
    intro T h _
    obtain ⟨e, he, _⟩ := h
    simp at he
  | cons p pat' ih =>
    intro T h hT
    cases T with
    | nil => rfl
    | cons d T' =>
      by_cases hdp : d = p
      · show (if d = p then dropLit pat' T' else none) = none
        rw [if_pos hdp]
        obtain ⟨e, he, hef⟩ := h
        rcases List.mem_cons.mp he with he2 | he2
        · exfalso
          have hd := hT d (by simp)
          rw [he2, ← hdp] at hef
          rw [hd] at hef
          simp at hef
        · exact ih T' ⟨e, he2, hef⟩ (fun x hx => hT x (by simp [hx]))
      · show (if d = p then dropLit pat' T' else none) = none
        rw [if_neg hdp]

theorem mem_of_getLast : ∀ (l : List Char) (a : Char), l.getLast? = some a → a ∈ l := by
  intro l
  induction l with
  | nil => intro a h; simp at h
  | cons c t ih =>
    intro a h
    cases t with
    | nil =>
      simp at h
      simp [h]
    | cons d t' =>
      rw [List.getLast?_cons_cons] at h
      exact List.mem_cons.mpr (Or.inr (ih a h))

theorem getLast_indticks : ∀ (ind : List Char), (ind ++ ticks).getLast? = some tick := by
  intro ind
  induction ind with
  | nil => rfl
  | cons c ind' ih =>
    rw [List.cons_append]
    cases h : ind' ++ ticks with
    | nil =>
      exfalso
      have : ticks ≠ ([] : List Char) := by simp [ticks]
      exact this (List.append_eq_nil.mp h).2
    | cons q l =>
      rw [h] at ih
      rw [List.getLast?_cons_cons]
      exact ih

theorem dl_cross_ws : ∀ (S pat : List Char), S.length < pat.length →
    pat.getLast? = some tick → ∀ (T : List Char), (∀ d ∈ T, isPyWs d = true) →
      dropLit pat (S ++ T) = none := by
  intro S
  induction S with
  | nil =>
    intro pat hlen hlast T hT
    exact dl_nonws_ws pat T ⟨tick, mem_of_getLast pat tick hlast, by decide⟩ hT
  | cons s S' ih =>
    intro pat hlen hlast T hT
    cases pat with
    | nil => simp at hlen
    | cons p pat' =>
      rw [List.cons_append]
      by_cases hsp : s = p
      · show (if s = p then dropLit pat' (S' ++ T) else none) = none
        rw [if_pos hsp]
        have hlen' : S'.length < pat'.length := by
          simp only [List.length_cons] at hlen
          omega
        have hne' : pat' ≠ [] := by
          intro he
          rw [he] at hlen'
          simp at hlen'
        have hlast' : pat'.getLast? = some tick := by
          cases hp : pat' with
          | nil => exact absurd hp hne'
          | cons q l =>
            rw [hp] at hlast
            rw [List.getLast?_cons_cons] at hlast
            exact hlast
        exact ih pat' hlen' hlast' T hT
      · show (if s = p then dropLit pat' (S' ++ T) else none) = none
        rw [if_neg hsp]

theorem mf_line_fc_none (P q : List Char) (hP : ¬ '\n' ∈ P)
    (hfc : findClose (P.takeWhile isIndentCh) q = none) :
    matchFence? (P ++ '\n' :: q) = none := by
  have hnlI : isIndentCh '\n' = false := by decide
  obtain ⟨htw, hdw⟩ := tw_stop isIndentCh '\n' hnlI P q
  simp only [matchFence?]
  rw [htw, hdw]
  by_cases h3 : (P.takeWhile isIndentCh).length > 3
  · rw [if_pos h3]
  · rw [if_neg h3]
    have hDPnl : ¬ '\n' ∈ P.dropWhile isIndentCh :=
      fun hm => hP (mem_dropWhile_mem _ P '\n' hm)
    rcases Nat.lt_or_ge (P.dropWhile isIndentCh).length ticks.length with hlen | hlen
    · have htnl : ∀ c ∈ ticks, ¬ c = '\n' := by
        intro c hc
        have hct : c = tick := by simpa [ticks] using hc
        subst hct
        decide
      rw [dropLit_no_nl_hit ticks htnl (P.dropWhile isIndentCh) hlen q]
    · have hsp := dropLit_split ticks (P.dropWhile isIndentCh) hlen ('\n' :: q)
      cases hdl : dropLit ticks (P.dropWhile isIndentCh) with
      | none =>
        rw [hdl] at hsp
        simp only [Option.map_none'] at hsp
        rw [hsp]
      | some rp =>
        rw [hdl] at hsp
        simp only [Option.map_some'] at hsp
        have hrpnl : ∀ c ∈ rp, notNl c = true := by
          intro c hc
          have hsub := dropLit_sound ticks (P.dropWhile isIndentCh) rp hdl
          have hcm : c ∈ P.dropWhile isIndentCh := by
            rw [hsub]
            exact List.mem_append.mpr (Or.inr hc)
          have hcn : ¬ c = '\n' := fun he => hDPnl (he ▸ hcm)
          simp [notNl, hcn]
        obtain ⟨_, hd1⟩ := takeWhile_all_append notNl rp hrpnl '\n' (by decide) q
        simp only [hsp, hd1, hfc]

theorem wd2 (S W : List Char) (hW : ∀ d ∈ W, isPyWs d = true) :
    (wsDollar (S ++ W) = none ↔ wsDollar (S ++ ['\n']) = none)
    ∧ (∀ w r, wsDollar (S ++ W) = some (w, r) →
        (r = [] ∧ ∃ w', wsDollar (S ++ ['\n']) = some (w', []))
        ∨ (∃ R w' rr, r = R ++ W ∧ wsDollar (S ++ ['\n']) = some (w', R ++ ['\n'])
            ∧ R = '\n' :: rr)) := by
  cases hdw : S.dropWhile isPyWs with
  | nil =>
    have hall : ∀ c ∈ S, isPyWs c = true := List.dropWhile_eq_nil_iff.mp hdw
    have hx := wsDollar_all_ws (S ++ W) (by
      intro c hc
      rcases List.mem_append.mp hc with h | h
      · exact hall c h
      · exact hW c h)
    have hy := wsDollar_all_ws (S ++ ['\n']) (by
      intro c hc
      rcases List.mem_append.mp hc with h | h
      · exact hall c h
      · simp at h; subst h; decide)
    constructor
    · rw [hx, hy]
      simp
    · intro w r hwr
      rw [hx] at hwr
      simp only [Option.some.injEq, Prod.mk.injEq] at hwr
      left
      exact ⟨hwr.2.symm, _, hy⟩
  | cons c t =>
    have hc := dropWhile_head_false isPyWs S c t hdw
    have hS : S = S.takeWhile isPyWs ++ c :: t := by
      conv_lhs => rw [← List.takeWhile_append_dropWhile isPyWs S]
      rw [hdw]
    have hsw : ∀ e ∈ S.takeWhile isPyWs, isPyWs e = true :=
      fun e he => List.mem_takeWhile_imp he
    have hwsd : ∀ Z : List Char, wsDollar (S ++ Z)
        = match splitLastNl (S.takeWhile isPyWs) with
          | some (pre, post) => some (pre, post ++ (c :: (t ++ Z)))
          | none => none := by
      intro Z
      have hshape : S ++ Z = S.takeWhile isPyWs ++ (c :: (t ++ Z)) := by
        conv_lhs => rw [hS]
        simp
      rw [hshape]
      obtain ⟨h1, h2⟩ := takeWhile_all_append isPyWs _ hsw c hc (t ++ Z)
      unfold wsDollar
      simp only [h1, h2]
      rw [if_neg (by simp)]
    cases hsl : splitLastNl (S.takeWhile isPyWs) with
    | none =>
      constructor
      · rw [hwsd W, hwsd ['\n'], hsl]
      · intro w r hwr
        rw [hwsd W, hsl] at hwr
        simp at hwr
    | some pq =>
      obtain ⟨pre, post⟩ := pq
      obtain ⟨_, after, hpost, _⟩ := splitLastNl_inv _ _ _ hsl
      constructor
      · rw [hwsd W, hwsd ['\n'], hsl]
        simp
      · intro w r hwr
        rw [hwsd W, hsl] at hwr
        simp only [Option.some.injEq, Prod.mk.injEq] at hwr
        obtain ⟨hw, hr⟩ := hwr
        right
        refine ⟨post ++ c :: t, pre, after ++ c :: t, ?_, ?_, ?_⟩
        · rw [← hr]
          simp
        · rw [hwsd ['\n'], hsl]
          simp
        · rw [hpost]
          simp

theorem fc_cons_some_ck (ind : List Char) (c : Char) (t w r : List Char)
    (h : checkClose ind (c :: t) = some (w, r)) :
    findClose ind (c :: t) = some ([], w, r) := by
  unfold findClose
  rw [h]

theorem fc_cons_peel_some (ind : List Char) (c : Char) (t b w r : List Char)
    (h1 : checkClose ind (c :: t) = none) (h2 : findClose ind t = some (b, w, r)) :
    findClose ind (c :: t) = some (c :: b, w, r) := by
  unfold findClose
  rw [h1, h2]

theorem ck2 (ind : List Char) (hindI : ∀ c ∈ ind, isIndentCh c = true)
    (Q W : List Char) (hW : ∀ d ∈ W, isPyWs d = true) :
    (checkClose ind (Q ++ W) = none ↔ checkClose ind (Q ++ ['\n']) = none)
    ∧ (∀ w r, checkClose ind (Q ++ W) = some (w, r) →
        (r = [] ∧ ∃ w', checkClose ind (Q ++ ['\n']) = some (w', []))
        ∨ (∃ R w' rr, r = R ++ W ∧ checkClose ind (Q ++ ['\n']) = some (w', R ++ ['\n'])
            ∧ R = '\n' :: rr)) := by
  have hWnl : ∀ d ∈ ['\n'], isPyWs d = true := by
    intro d hd
    simp at hd
    subst hd
    decide
  have htickmem : tick ∈ '\n' :: (ind ++ ticks) :=
    List.mem_cons.mpr (Or.inr (List.mem_append.mpr (Or.inr (by simp [ticks]))))
  cases Q with
  | nil =>
    have hx : checkClose ind ([] ++ W) = none := by
      rw [List.nil_append]
      unfold checkClose
      rw [dl_nonws_ws ('\n' :: (ind ++ ticks)) W ⟨tick, htickmem, by decide⟩ hW]
    have hy : checkClose ind ([] ++ ['\n']) = none := by
      rw [List.nil_append]
      unfold checkClose
      rw [dl_nonws_ws ('\n' :: (ind ++ ticks)) ['\n'] ⟨tick, htickmem, by decide⟩ hWnl]
    constructor
    · rw [hx, hy]
    · intro w r h
      rw [hx] at h
      simp at h
  | cons c Q' =>
    by_cases hc : c = '\n'
    · subst hc
      rcases Nat.lt_or_ge Q'.length (ind ++ ticks).length with hlen | hlen
      · have hx : checkClose ind (('\n' :: Q') ++ W) = none := by
          rw [List.cons_append, ck_nl_eq,
            dl_cross_ws Q' (ind ++ ticks) hlen (getLast_indticks ind) W hW]
        have hy : checkClose ind (('\n' :: Q') ++ ['\n']) = none := by
          rw [List.cons_append, ck_nl_eq,
            dl_cross_ws Q' (ind ++ ticks) hlen (getLast_indticks ind) ['\n'] hWnl]
        constructor
        · rw [hx, hy]
        · intro w r h
          rw [hx] at h
          simp at h
      · have hspZ : ∀ Z : List Char, dropLit (ind ++ ticks) (Q' ++ Z)
            = (dropLit (ind ++ ticks) Q').map (fun x => x ++ Z) :=
          fun Z => dropLit_split (ind ++ ticks) Q' hlen Z
        cases hdl : dropLit (ind ++ ticks) Q' with
        | none =>
          have hx : checkClose ind (('\n' :: Q') ++ W) = none := by
            rw [List.cons_append, ck_nl_eq]
            have h2 := hspZ W
            rw [hdl] at h2
            simp only [Option.map_none'] at h2
            rw [h2]
          have hy : checkClose ind (('\n' :: Q') ++ ['\n']) = none := by
            rw [List.cons_append, ck_nl_eq]
            have h2 := hspZ ['\n']
            rw [hdl] at h2
            simp only [Option.map_none'] at h2
            rw [h2]
          constructor
          · rw [hx, hy]
          · intro w r h
            rw [hx] at h
            simp at h
        | some S2 =>
          have hck : ∀ Z : List Char,
              checkClose ind (('\n' :: Q') ++ Z) = wsDollar (S2 ++ Z) := by
            intro Z
            rw [List.cons_append, ck_nl_eq]
            have h2 := hspZ Z
            rw [hdl] at h2
            simp only [Option.map_some'] at h2
            rw [h2]
          obtain ⟨hwd_iff, hwd_some⟩ := wd2 S2 W hW
          constructor
          · rw [hck W, hck ['\n']]
            exact hwd_iff
          · intro w r h
            rw [hck W] at h
            rcases hwd_some w r h with ⟨hr, w', hy⟩ | ⟨R, w', rr, hr, hy, hR⟩
            · left
              exact ⟨hr, w', by rw [hck ['\n']]; exact hy⟩
            · right
              exact ⟨R, w', rr, hr, by rw [hck ['\n']]; exact hy, hR⟩
    · have hx : checkClose ind ((c :: Q') ++ W) = none := by
        rw [List.cons_append]
        exact ck_head_ne ind c _ hc
      have hy : checkClose ind ((c :: Q') ++ ['\n']) = none := by
        rw [List.cons_append]
        exact ck_head_ne ind c _ hc
      constructor
      · rw [hx, hy]
      · intro w r h
        rw [hx] at h
        simp at h

theorem fc2 (ind : List Char) (hindI : ∀ c ∈ ind, isIndentCh c = true) :
    ∀ (Q W : List Char), (∀ d ∈ W, isPyWs d = true) →
    (findClose ind (Q ++ W) = none ↔ findClose ind (Q ++ ['\n']) = none)
    ∧ (∀ b w r, findClose ind (Q ++ W) = some (b, w, r) →
        ∃ b' w' r', findClose ind (Q ++ ['\n']) = some (b', w', r')
          ∧ ((r = [] ∧ r' = [])
            ∨ (∃ R rr, r = R ++ W ∧ r' = R ++ ['\n'] ∧ R = '\n' :: rr))) := by
  intro Q
  induction Q with
  | nil =>
    intro W hW
    have hx : findClose ind ([] ++ W) = none := by
      rw [List.nil_append]
      exact fc_ws_none ind hindI W hW
    have hy : findClose ind ([] ++ ['\n']) = none := by
      rw [List.nil_append]
      exact fc_ws_none ind hindI ['\n'] (by
        intro d hd; simp at hd; subst hd; decide)
    constructor
    · rw [hx, hy]
    · intro b w r h
      rw [hx] at h
      simp at h
  | cons c Q' ih =>
    intro W hW
    obtain ⟨hck_iff, hck_some⟩ := ck2 ind hindI (c :: Q') W hW
    obtain ⟨ih_iff, ih_some⟩ := ih W hW
    constructor
    · constructor
      · intro h
        rw [List.cons_append] at h ⊢
        obtain ⟨h1, h2⟩ := fc_cons_none_inv ind c _ h
        exact fc_cons_build ind c _ (hck_iff.mp h1) (ih_iff.mp h2)
      · intro h
        rw [List.cons_append] at h ⊢
        obtain ⟨h1, h2⟩ := fc_cons_none_inv ind c _ h
        exact fc_cons_build ind c _ (hck_iff.mpr h1) (ih_iff.mpr h2)
    · intro b w r h
      rw [List.cons_append] at h
      rcases findClose_cons_inv ind c _ b w r h with ⟨h1, hb⟩ | ⟨h1, b1, hb, h2⟩
      · rcases hck_some w r h1 with ⟨hr, w', hy⟩ | ⟨R, w', rr, hr, hy, hR⟩
        · exact ⟨[], w', [], fc_cons_some_ck ind c _ w' [] hy, Or.inl ⟨hr, rfl⟩⟩
        · exact ⟨[], w', R ++ ['\n'], fc_cons_some_ck ind c _ w' (R ++ ['\n']) hy,
            Or.inr ⟨R, rr, hr, rfl, hR⟩⟩
      · obtain ⟨b', w', r', hy, hcorr⟩ := ih_some b1 w r h2
        exact ⟨c :: b', w', r', fc_cons_peel_some ind c _ b' w' r' (hck_iff.mp h1) hy, hcorr⟩

theorem mf_line_none_of_len (P q : List Char) (hP : ¬ '\n' ∈ P)
    (h3 : (P.takeWhile isIndentCh).length > 3) :
    matchFence? (P ++ '\n' :: q) = none := by
  have hnlI : isIndentCh '\n' = false := by decide
  obtain ⟨htw, _⟩ := tw_stop isIndentCh '\n' hnlI P q
  simp only [matchFence?]
  rw [htw, if_pos h3]

theorem mf_line_none_of_dl (P q : List Char) (hP : ¬ '\n' ∈ P)
    (hdl : dropLit ticks (P.dropWhile isIndentCh) = none) :
    matchFence? (P ++ '\n' :: q) = none := by
  have hnlI : isIndentCh '\n' = false := by decide
  obtain ⟨htw, hdw⟩ := tw_stop isIndentCh '\n' hnlI P q
  simp only [matchFence?]
  rw [htw, hdw]
  by_cases h3 : (P.takeWhile isIndentCh).length > 3
  · rw [if_pos h3]
  · rw [if_neg h3]
    rcases Nat.lt_or_ge (P.dropWhile isIndentCh).length ticks.length with hlen | hlen
    · have htnl : ∀ c ∈ ticks, ¬ c = '\n' := by
        intro c hcm
        have hct : c = tick := by simpa [ticks] using hcm
        subst hct
        decide
      rw [dropLit_no_nl_hit ticks htnl (P.dropWhile isIndentCh) hlen q]
    · have hsp := dropLit_split ticks (P.dropWhile isIndentCh) hlen ('\n' :: q)
      rw [hdl] at hsp
      simp only [Option.map_none'] at hsp
      rw [hsp]

theorem mf_line_build (P q : List Char) (hP : ¬ '\n' ∈ P)
    (h3 : ¬ (P.takeWhile isIndentCh).length > 3)
    (rp : List Char) (hdl : dropLit ticks (P.dropWhile isIndentCh) = some rp)
    (b w r : List Char) (hfc : findClose (P.takeWhile isIndentCh) q = some (b, w, r)) :
    matchFence? (P ++ '\n' :: q)
      = some ⟨P.takeWhile isIndentCh, rp, b,
          '\n' :: (P.takeWhile isIndentCh ++ ticks), w, r⟩ := by
  have hnlI : isIndentCh '\n' = false := by decide
  obtain ⟨htw, hdw⟩ := tw_stop isIndentCh '\n' hnlI P q
  have hlen : ticks.length ≤ (P.dropWhile isIndentCh).length := by
    have hsub := dropLit_sound ticks _ rp hdl
    rw [hsub]
    simp
  have hrpnl : ∀ c ∈ rp, notNl c = true := by
    intro c hcm
    have hsub := dropLit_sound ticks _ rp hdl
    have hcm2 : c ∈ P.dropWhile isIndentCh := by
      rw [hsub]
      exact List.mem_append.mpr (Or.inr hcm)
    have hcn : ¬ c = '\n' := fun he => hP (mem_dropWhile_mem _ P '\n' (he ▸ hcm2))
    simp [notNl, hcn]
  have hsp := dropLit_split ticks (P.dropWhile isIndentCh) hlen ('\n' :: q)
  rw [hdl] at hsp
  simp only [Option.map_some'] at hsp
  obtain ⟨ht1, hd1⟩ := takeWhile_all_append notNl rp hrpnl '\n' (by decide) q
  simp only [matchFence?]
  rw [htw, hdw, if_neg h3]
  simp only [hsp, hd1, ht1, hfc]

theorem mc2 (P W : List Char) (hW : ∀ d ∈ W, isPyWs d = true) :
    (matchFence? (P ++ W) = none ↔ matchFence? (P ++ ['\n']) = none)
    ∧ (∀ m, matchFence? (P ++ W) = some m →
        ∃ m2, matchFence? (P ++ ['\n']) = some m2 ∧ m2.info = m.info
          ∧ ((m.rest = [] ∧ m2.rest = [])
            ∨ (∃ R rr, m.rest = R ++ W ∧ m2.rest = R ++ ['\n'] ∧ R = '\n' :: rr))) := by
  by_cases hnl : '\n' ∈ P
  · obtain ⟨F, Q, hPQ, hF⟩ := first_nl_split P hnl
    subst hPQ
    have hsh : ∀ Z : List Char, (F ++ '\n' :: Q) ++ Z = F ++ '\n' :: (Q ++ Z) := by
      intro Z
      simp
    have hindI : ∀ e ∈ F.takeWhile isIndentCh, isIndentCh e = true :=
      fun e he => List.mem_takeWhile_imp he
    obtain ⟨hfc_iff, hfc_some⟩ := fc2 (F.takeWhile isIndentCh) hindI Q W hW
    by_cases h3 : (F.takeWhile isIndentCh).length > 3
    · have hx := mf_line_none_of_len F (Q ++ W) hF h3
      have hy := mf_line_none_of_len F (Q ++ ['\n']) hF h3
      rw [hsh W, hsh ['\n'], hx, hy]
      refine ⟨Iff.rfl, ?_⟩
      intro m h
      simp at h
    · cases hdl : dropLit ticks (F.dropWhile isIndentCh) with
      | none =>
        have hx := mf_line_none_of_dl F (Q ++ W) hF hdl
        have hy := mf_line_none_of_dl F (Q ++ ['\n']) hF hdl
        rw [hsh W, hsh ['\n'], hx, hy]
        refine ⟨Iff.rfl, ?_⟩
        intro m h
        simp at h
      | some rp =>
        cases hfcx : findClose (F.takeWhile isIndentCh) (Q ++ W) with
        | none =>
          have hfcy := hfc_iff.mp hfcx
          have hx := mf_line_fc_none F (Q ++ W) hF hfcx
          have hy := mf_line_fc_none F (Q ++ ['\n']) hF hfcy
          rw [hsh W, hsh ['\n'], hx, hy]
          refine ⟨Iff.rfl, ?_⟩
          intro m h
          simp at h
        | some tr =>
          obtain ⟨b, w, r⟩ := tr
          obtain ⟨b', w', r', hfcy, hcorr⟩ := hfc_some b w r hfcx
          have hx := mf_line_build F (Q ++ W) hF h3 rp hdl b w r hfcx
          have hy := mf_line_build F (Q ++ ['\n']) hF h3 rp hdl b' w' r' hfcy
          rw [hsh W, hsh ['\n'], hx, hy]
          constructor
          · constructor
            · intro h
              simp at h
            · intro h
              simp at h
          · intro m h
            simp only [Option.some.injEq] at h
            refine ⟨_, rfl, ?_, ?_⟩
            · rw [← h]
            · rw [← h]
              rcases hcorr with ⟨hr, hr'⟩ | ⟨R, rr, hr, hr', hR⟩
              · left
                exact ⟨hr, hr'⟩
              · right
                exact ⟨R, rr, hr, hr', hR⟩
  · have hyn : matchFence? (P ++ ['\n']) = none := by
      have h := mf_line_fc_none P [] hnl (findClose_nil _)
      simpa using h
    have hxn : matchFence? (P ++ W) = none := by
      by_cases hw : '\n' ∈ W
      · obtain ⟨W1, W2, hW12, hW1⟩ := first_nl_split W hw
        have hsh : P ++ W = (P ++ W1) ++ '\n' :: W2 := by
          rw [hW12]
          simp
        rw [hsh]
        refine mf_line_fc_none (P ++ W1) W2 ?_ ?_
        · intro hm
          rcases List.mem_append.mp hm with h | h
          · exact hnl h
          · exact hW1 h
        · exact fc_ws_none _ (fun e he => List.mem_takeWhile_imp he) W2
            (fun d hd => hW d (by
              rw [hW12]
              exact List.mem_append.mpr (Or.inr (List.mem_cons.mpr (Or.inr hd)))))
      · exact mf_no_nl _ (by
          intro hm
          rcases List.mem_append.mp hm with h | h
          · exact hnl h
          · exact hw h)
    rw [hxn, hyn]
    refine ⟨Iff.rfl, ?_⟩
    intro m h
    simp at h

theorem st2 : ∀ (n : Nat) (P W : List Char), (P ++ W).length ≤ n →
    (∀ d ∈ W, isPyWs d = true) → ∀ b, scanCl b (P ++ W) = true →
      scanCl b (P ++ ['\n']) = true := by
  have hnlws : ∀ d ∈ ['\n'], isPyWs d = true := by
    intro d hd
    simp at hd
    subst hd
    decide
  intro n
  induction n with
  | zero =>
    intro P W hlen hW b _
    have hP : P = [] := by
      have h0 := Nat.le_zero.mp hlen
      simp only [List.length_append] at h0
      exact List.length_eq_zero.mp (by omega)
    subst hP
    rw [List.nil_append]
    exact scan_ws_true ['\n'] hnlws b
  | succ n ih =>
    intro P W hlen hW b h
    cases P with
    | nil =>
      rw [List.nil_append]
      exact scan_ws_true ['\n'] hnlws b
    | cons c P' =>
      obtain ⟨hmf_iff, hmf_some⟩ := mc2 (c :: P') W hW
      have hlen' : (P' ++ W).length ≤ n := by
        simp only [List.cons_append, List.length_cons] at hlen
        omega
      cases hbm : (if b then matchFence? ((c :: P') ++ W) else none) with
      | none =>
        have hsplit : b = false ∨ matchFence? (c :: (P' ++ W)) = none := by
          cases b
          · exact Or.inl rfl
          · right
            have h2 : matchFence? ((c :: P') ++ W) = none := by simpa using hbm
            rw [List.cons_append] at h2
            exact h2
        have hsplit2 : b = false ∨ matchFence? (c :: (P' ++ ['\n'])) = none := by
          rcases hsplit with hb | hm
          · exact Or.inl hb
          · right
            have h2 := hmf_iff.mp (by rw [List.cons_append]; exact hm)
            rw [List.cons_append] at h2
            exact h2
        rw [List.cons_append, scanCl_cons b c (P' ++ W) hsplit] at h
        rw [List.cons_append, scanCl_cons b c (P' ++ ['\n']) hsplit2]
        exact ih P' W hlen' hW (decide (c = '\n')) h
      | some m =>
        have hb : b = true := by
          cases b
          · simp at hbm
          · rfl
        subst hb
        have hm : matchFence? ((c :: P') ++ W) = some m := by simpa using hbm
        obtain ⟨m2, hm2, hinfo, hcorr⟩ := hmf_some m hm
        rw [scanCl_match _ m hm] at h
        rw [scanCl_match _ m2 hm2]
        rw [Bool.and_eq_true] at h ⊢
        obtain ⟨hinfo_ne, hrest⟩ := h
        constructor
        · rw [hinfo]
          exact hinfo_ne
        · rcases hcorr with ⟨hr, hr'⟩ | ⟨R, rr, hr, hr', hR⟩
          · rw [hr']
            exact scanCl_nil _
          · rw [hr']
            rw [hr] at hrest
            subst hR
            rw [List.cons_append] at hrest ⊢
            rw [scanCl_nl] at hrest ⊢
            refine ih rr W ?_ hW true hrest
            have hlt := rest_lt _ m hm
            rw [hr] at hlt
            simp only [List.cons_append, List.length_cons, List.length_append] at hlt hlen
            simp only [List.length_append]
            omega

theorem lead_split : ∀ (x : List Char),
    x = [] ∨ (∃ c t, x = c :: t ∧ ¬ c = '\n')
    ∨ (∃ j x', 1 ≤ j ∧ x = List.replicate j '\n' ++ x'
        ∧ ∀ c, x'.head? = some c → ¬ c = '\n') := by
  intro x
  induction x with
  | nil => exact Or.inl rfl
  | cons c t ih =>
    by_cases hc : c = '\n'
    · subst hc
      right
      right
      rcases ih with ht | ⟨d, t', hdt, hd⟩ | ⟨j, x', hj, ht, hx'⟩
      · refine ⟨1, [], le_refl 1, ?_, ?_⟩
        · rw [ht]
          rfl
        · intro e he
          simp at he
      · refine ⟨1, t, le_refl 1, rfl, ?_⟩
        intro e he
        rw [hdt] at he
        simp only [List.head?_cons, Option.some.injEq] at he
        rw [he] at hd
        exact hd
      · refine ⟨j + 1, x', by omega, ?_, hx'⟩
        rw [ht]
        rfl
    · exact Or.inr (Or.inl ⟨c, t, rfl, hc⟩)

theorem collapseAux_run : ∀ (j n : Nat) (x' : List Char),
    collapseAux n (List.replicate j '\n' ++ x') = collapseAux (n + j) x' := by
  intro j
  induction j with
  | zero => intro n x'; simp
  | succ j' ih =>
    intro n x'
    show collapseAux n ('\n' :: (List.replicate j' '\n' ++ x')) = _
    rw [collapseAux_cons_nl, ih]
    congr 1
    omega

theorem collapseRun_replicate (k : Nat) :
    collapseRun k = List.replicate (if 3 ≤ k then 2 else k) '\n' := by
  unfold collapseRun
  by_cases h : 3 ≤ k
  · rw [if_pos h, if_pos h]
    rfl
  · rw [if_neg h, if_neg h]

theorem coll_collapse : ∀ (N : Nat) (x : List Char), x.length ≤ N →
    Coll x (collapseNl x) := by
  have hnil : collapseNl ([] : List Char) = [] := rfl
  intro N
  induction N with
  | zero =>
    intro x hx
    have hx0 : x = [] := List.length_eq_zero.mp (Nat.le_zero.mp hx)
    subst hx0
    rw [hnil]
    exact Coll.nil
  | succ N ih =>
    intro x hx
    rcases lead_split x with hx0 | ⟨c, t, hct, hc⟩ | ⟨j, x', hj, hx', hhead⟩
    · subst hx0
      rw [hnil]
      exact Coll.nil
    · subst hct
      have hcol : collapseNl (c :: t) = c :: collapseNl t := by
        unfold collapseNl
        rw [collapseAux_cons_other hc]
        rfl
      rw [hcol]
      refine Coll.copy c t _ hc (ih t ?_)
      simp only [List.length_cons] at hx
      omega
    · subst hx'
      have hstep : collapseNl (List.replicate j '\n' ++ x') = collapseAux j x' := by
        unfold collapseNl
        rw [collapseAux_run]
        congr 1
        omega
      have hj' : 1 ≤ (if 3 ≤ j then 2 else j) := by
        split_ifs
        · omega
        · omega
      have hiff : 2 ≤ j ↔ 2 ≤ (if 3 ≤ j then 2 else j) := by
        by_cases h3 : 3 ≤ j
        · rw [if_pos h3]
          constructor <;> intro <;> omega
        · rw [if_neg h3]
      rw [hstep]
      cases hx'' : x' with
      | nil =>
        show Coll (List.replicate j '\n' ++ []) (collapseRun j)
        rw [collapseRun_replicate]
        have h0 : List.replicate (if 3 ≤ j then 2 else j) '\n'
            = List.replicate (if 3 ≤ j then 2 else j) '\n' ++ [] := by simp
        rw [h0]
        exact Coll.run j _ [] [] hj hj' hiff (by intro c hc0; simp at hc0)
          (by intro c hc0; simp at hc0) Coll.nil
      | cons d t' =>
        have hd : ¬ d = '\n' := hhead d (by rw [hx'']; rfl)
        rw [collapseAux_cons_other hd, collapseRun_replicate]
        refine Coll.run j _ (d :: t') (d :: collapseAux 0 t') hj hj' hiff
          ?_ ?_ ?_
        · intro e he
          simp only [List.head?_cons, Option.some.injEq] at he
          rw [he] at hd
          exact hd
        · intro e he
          simp only [List.head?_cons, Option.some.injEq] at he
          rw [he] at hd
          exact hd
        · refine Coll.copy d t' (collapseAux 0 t') hd (ih t' ?_)
          rw [hx''] at hx
          simp only [List.length_append, List.length_replicate, List.length_cons] at hx
          omega

theorem coll_all_ws : ∀ (x y : List Char), Coll x y →
    ((∀ c ∈ x, isPyWs c = true) ↔ (∀ c ∈ y, isPyWs c = true)) := by
  intro x y hcoll
  induction hcoll with
  | nil => simp
  | copy c x1 y1 hc hsub ih =>
    constructor
    · intro h d hd
      rcases List.mem_cons.mp hd with hd | hd
      · rw [hd]
        exact h c (by simp)
      · exact ih.mp (fun e he => h e (by simp [he])) d hd
    · intro h d hd
      rcases List.mem_cons.mp hd with hd | hd
      · rw [hd]
        exact h c (by simp)
      · exact ih.mpr (fun e he => h e (by simp [he])) d hd
  | run j j' x1 y1 hj hj' hiff hhx hhy hsub ih =>
    constructor
    · intro h d hd
      rcases List.mem_append.mp hd with hd | hd
      · rw [List.eq_of_mem_replicate hd]
        decide
      · exact ih.mp (fun e he => h e (List.mem_append.mpr (Or.inr he))) d hd
    · intro h d hd
      rcases List.mem_append.mp hd with hd | hd
      · rw [List.eq_of_mem_replicate hd]
        decide
      · exact ih.mpr (fun e he => h e (List.mem_append.mpr (Or.inr he))) d hd

theorem coll_nl_tw : ∀ (x y : List Char), Coll x y →
    ('\n' ∈ x.takeWhile isPyWs ↔ '\n' ∈ y.takeWhile isPyWs) := by
  intro x y hcoll
  induction hcoll with
  | nil => simp
  | copy c x1 y1 hc hsub ih =>
    by_cases hw : isPyWs c = true
    · rw [List.takeWhile_cons_of_pos hw, List.takeWhile_cons_of_pos hw]
      constructor
      · intro h
        rcases List.mem_cons.mp h with h | h
        · exact absurd h.symm hc
        · exact List.mem_cons.mpr (Or.inr (ih.mp h))
      · intro h
        rcases List.mem_cons.mp h with h | h
        · exact absurd h.symm hc
        · exact List.mem_cons.mpr (Or.inr (ih.mpr h))
    · rw [List.takeWhile_cons_of_neg hw, List.takeWhile_cons_of_neg hw]
  | run j j' x1 y1 hj hj' hiff hhx hhy hsub ih =>
    have hmem : ∀ (k : Nat) (z : List Char), 1 ≤ k →
        '\n' ∈ (List.replicate k '\n' ++ z).takeWhile isPyWs := by
      intro k z hk
      obtain ⟨e, he⟩ : ∃ e, k = e + 1 := ⟨k - 1, by omega⟩
      subst he
      show '\n' ∈ (('\n' : Char) :: (List.replicate e '\n' ++ z)).takeWhile isPyWs
      rw [List.takeWhile_cons_of_pos (by decide)]
      simp
    constructor
    · intro _
      exact hmem j' y1 hj'
    · intro _
      exact hmem j x1 hj

theorem wsDollar_cons_nonws (c : Char) (hc : isPyWs c = false) (x : List Char) :
    wsDollar (c :: x) = none := by
  unfold wsDollar
  have hc' : ¬ isPyWs c = true := by simp [hc]
  rw [List.takeWhile_cons_of_neg hc', List.dropWhile_cons_of_neg hc']
  rw [if_neg (by simp)]
  rfl

theorem splitLastNl_cons (c : Char) (hc : ¬ c = '\n') (run : List Char) :
    splitLastNl (c :: run) = (splitLastNl run).map (fun q => (c :: q.1, q.2)) := by
  unfold splitLastNl
  have hrev : (c :: run).reverse = run.reverse ++ [c] := by simp
  rw [hrev]
  cases hdw : run.reverse.dropWhile notNl with
  | nil =>
    have hall := List.dropWhile_eq_nil_iff.mp hdw
    have hc' : notNl c = true := by simp [notNl, hc]
    have h2 : (run.reverse ++ [c]).dropWhile notNl = [] := by
      refine (takeWhile_all notNl _ ?_).2
      intro e he
      rcases List.mem_append.mp he with h | h
      · exact hall e h
      · simp at h
        rw [h]
        exact hc'
    rw [h2]
    rfl
  | cons x rr =>
    have hx : notNl x = false := dropWhile_head_false notNl run.reverse x rr hdw
    have hsplit : run.reverse = run.reverse.takeWhile notNl ++ x :: rr := by
      conv_lhs => rw [← List.takeWhile_append_dropWhile notNl run.reverse]
      rw [hdw]
    have hsh : run.reverse ++ [c]
        = run.reverse.takeWhile notNl ++ (x :: (rr ++ [c])) := by
      conv_lhs => rw [hsplit]
      simp
    rw [hsh]
    obtain ⟨ht, hd⟩ := takeWhile_all_append notNl _
      (fun e he => List.mem_takeWhile_imp he) x hx (rr ++ [c])
    rw [ht, hd]
    simp

theorem wsDollar_cons_ws (c : Char) (hcw : isPyWs c = true) (hc : ¬ c = '\n')
    (x : List Char) :
    wsDollar (c :: x) = (wsDollar x).map (fun p => (c :: p.1, p.2)) := by
  unfold wsDollar
  rw [List.takeWhile_cons_of_pos hcw, List.dropWhile_cons_of_pos hcw]
  by_cases he : (x.dropWhile isPyWs).isEmpty = true
  · rw [if_pos he, if_pos he]
    rfl
  · rw [if_neg he, if_neg he]
    rw [splitLastNl_cons c hc]
    cases hsl : splitLastNl (x.takeWhile isPyWs) with
    | none => rfl
    | some pq =>
      obtain ⟨pre, post⟩ := pq
      rfl

theorem splitLastNl_append_left (a b : List Char) (hb : '\n' ∈ b) :
    splitLastNl (a ++ b) = (splitLastNl b).map (fun q => (a ++ q.1, q.2)) := by
  unfold splitLastNl
  have hrev : (a ++ b).reverse = b.reverse ++ a.reverse := by simp
  rw [hrev]
  cases hdw : b.reverse.dropWhile notNl with
  | nil =>
    exfalso
    have hall := List.dropWhile_eq_nil_iff.mp hdw
    have h2 : notNl '\n' = true := hall '\n' (by simpa using hb)
    simp [notNl] at h2
  | cons x rr =>
    have hx : notNl x = false := dropWhile_head_false notNl b.reverse x rr hdw
    have hsplit : b.reverse = b.reverse.takeWhile notNl ++ x :: rr := by
      conv_lhs => rw [← List.takeWhile_append_dropWhile notNl b.reverse]
      rw [hdw]
    have hsh : b.reverse ++ a.reverse
        = b.reverse.takeWhile notNl ++ (x :: (rr ++ a.reverse)) := by
      conv_lhs => rw [hsplit]
      simp
    rw [hsh]
    obtain ⟨ht, hd⟩ := takeWhile_all_append notNl _
      (fun e he => List.mem_takeWhile_imp he) x hx (rr ++ a.reverse)
    rw [ht, hd]
    simp

theorem wsDollar_prepend_run (a x : List Char) (ha : ∀ c ∈ a, isPyWs c = true)
    (htw : '\n' ∈ x.takeWhile isPyWs) (w r : List Char)
    (hx : wsDollar x = some (w, r)) (hne : (x.dropWhile isPyWs).isEmpty = false) :
    wsDollar (a ++ x) = some (a ++ w, r) := by
  obtain ⟨h1, h2⟩ := takeWhile_append_all isPyWs a ha x
  unfold wsDollar at hx ⊢
  rw [h1, h2]
  simp only [hne] at hx
  rw [if_neg (by simp)] at hx
  rw [if_neg (by simp [hne])]
  rw [splitLastNl_append_left a _ htw]
  cases hsl : splitLastNl (x.takeWhile isPyWs) with
  | none =>
    rw [hsl] at hx
    simp at hx
  | some pq =>
    obtain ⟨pre, post⟩ := pq
    rw [hsl] at hx
    simp only [Option.some.injEq, Prod.mk.injEq] at hx
    obtain ⟨hw, hr⟩ := hx
    simp only [Option.map_some']
    rw [hw, hr]

theorem wd_corr : ∀ (t t' : List Char), Coll t t' →
    (wsDollar t = none ↔ wsDollar t' = none)
    ∧ (∀ w r, wsDollar t = some (w, r) →
        ∃ w' r', wsDollar t' = some (w', r')
          ∧ ((r = [] ∧ r' = [])
            ∨ (∃ rr rr', r = '\n' :: rr ∧ r' = '\n' :: rr' ∧ Coll r r'))) := by
  intro t t' hcoll
  induction hcoll with
  | nil =>
    constructor
    · exact Iff.rfl
    · intro w r h
      rw [show wsDollar [] = some ([], []) from rfl] at h
      simp only [Option.some.injEq, Prod.mk.injEq] at h
      exact ⟨[], [], rfl, Or.inl ⟨h.2.symm, rfl⟩⟩
  | copy c x1 y1 hc hsub ih =>
    obtain ⟨ih_iff, ih_some⟩ := ih
    cases hws : isPyWs c with
    | false =>
      rw [wsDollar_cons_nonws c hws x1, wsDollar_cons_nonws c hws y1]
      refine ⟨Iff.rfl, ?_⟩
      intro w r h
      simp at h
    | true =>
      rw [wsDollar_cons_ws c hws hc x1, wsDollar_cons_ws c hws hc y1]
      constructor
      · rw [Option.map_eq_none', Option.map_eq_none']
        exact ih_iff
      · intro w r h
        cases hx : wsDollar x1 with
        | none =>
          rw [hx] at h
          simp at h
        | some p =>
          obtain ⟨w1, r1⟩ := p
          rw [hx] at h
          simp only [Option.map_some', Option.some.injEq, Prod.mk.injEq] at h
          obtain ⟨hw2, hr2⟩ := h
          obtain ⟨w1', r1', hy, hcorr⟩ := ih_some w1 r1 hx
          rw [hy]
          refine ⟨c :: w1', r1', by simp, ?_⟩
          rw [← hr2]
          exact hcorr
  | run j j' x1 y1 hj hj' hiff hhx hhy hsub ih =>
    obtain ⟨ih_iff, ih_some⟩ := ih
    have hreplws : ∀ (k : Nat) (c : Char), c ∈ List.replicate k '\n' → isPyWs c = true := by
      intro k c hc0
      rw [List.eq_of_mem_replicate hc0]
      decide
    by_cases hallws : ∀ c ∈ x1, isPyWs c = true
    · have hallws' : ∀ c ∈ y1, isPyWs c = true := (coll_all_ws x1 y1 hsub).mp hallws
      have hx := wsDollar_all_ws (List.replicate j '\n' ++ x1) (by
        intro c hc0
        rcases List.mem_append.mp hc0 with h | h
        · exact hreplws j c h
        · exact hallws c h)
      have hy := wsDollar_all_ws (List.replicate j' '\n' ++ y1) (by
        intro c hc0
        rcases List.mem_append.mp hc0 with h | h
        · exact hreplws j' c h
        · exact hallws' c h)
      rw [hx, hy]
      refine ⟨by simp, ?_⟩
      intro w r h
      simp only [Option.some.injEq, Prod.mk.injEq] at h
      exact ⟨_, [], rfl, Or.inl ⟨h.2.symm, rfl⟩⟩
    · have hne : x1.dropWhile isPyWs ≠ [] := by
        intro he
        exact hallws (List.dropWhile_eq_nil_iff.mp he)
      have hallws2 : ¬ ∀ c ∈ y1, isPyWs c = true :=
        fun h => hallws ((coll_all_ws x1 y1 hsub).mpr h)
      have hne' : y1.dropWhile isPyWs ≠ [] := by
        intro he
        exact hallws2 (List.dropWhile_eq_nil_iff.mp he)
      have hnef : (x1.dropWhile isPyWs).isEmpty = false := by
        cases hd : x1.dropWhile isPyWs with
        | nil => exact absurd hd hne
        | cons _ _ => rfl
      have hnef' : (y1.dropWhile isPyWs).isEmpty = false := by
        cases hd : y1.dropWhile isPyWs with
        | nil => exact absurd hd hne'
        | cons _ _ => rfl
      by_cases htw : '\n' ∈ x1.takeWhile isPyWs
      · have htw' : '\n' ∈ y1.takeWhile isPyWs := (coll_nl_tw x1 y1 hsub).mp htw
        have hxne : wsDollar x1 ≠ none := by
          intro hn
          exact ((wsDollar_none_iff x1).mp hn).2 htw
        cases hx : wsDollar x1 with
        | none => exact absurd hx hxne
        | some p =>
          obtain ⟨w1, r1⟩ := p
          obtain ⟨w1', r1', hy, hcorr⟩ := ih_some w1 r1 hx
          have hgx := wsDollar_prepend_run (List.replicate j '\n') x1 (hreplws j)
            htw w1 r1 hx hnef
          have hgy := wsDollar_prepend_run (List.replicate j' '\n') y1 (hreplws j')
            htw' w1' r1' hy hnef'
          rw [hgx, hgy]
          constructor
          · constructor <;> intro h <;> simp at h
          · intro w r h
            simp only [Option.some.injEq, Prod.mk.injEq] at h
            obtain ⟨hw2, hr2⟩ := h
            refine ⟨_, _, rfl, ?_⟩
            rw [← hr2]
            exact hcorr
      · have htw' : ¬ '\n' ∈ y1.takeWhile isPyWs :=
          fun h => htw ((coll_nl_tw x1 y1 hsub).mpr h)
        obtain ⟨e, hej⟩ : ∃ e, j = e + 1 := ⟨j - 1, by omega⟩
        obtain ⟨e', hej'⟩ : ∃ e', j' = e' + 1 := ⟨j' - 1, by omega⟩
        cases hd : x1.dropWhile isPyWs with
        | nil => exact absurd hd hne
        | cons d v =>
          cases hd' : y1.dropWhile isPyWs with
          | nil => exact absurd hd' hne'
          | cons d2 v2 =>
            have hgen : ∀ (k : Nat) (z : List Char) (dz : Char) (vz : List Char),
                z.dropWhile isPyWs = dz :: vz → ¬ '\n' ∈ z.takeWhile isPyWs →
                wsDollar (List.replicate (k + 1) '\n' ++ z)
                  = some (List.replicate k '\n', '\n' :: z) := by
              intro k z dz vz hdz htwz
              have hsh : List.replicate (k + 1) '\n' ++ z
                  = List.replicate k '\n'
                    ++ '\n' :: (z.takeWhile isPyWs ++ (dz :: vz)) := by
                rw [List.replicate_succ']
                conv_lhs =>
                  rw [show z = z.takeWhile isPyWs ++ z.dropWhile isPyWs from
                    (List.takeWhile_append_dropWhile isPyWs z).symm, hdz]
                simp
              rw [hsh]
              have hres := wsDollar_push (List.replicate k '\n') (z.takeWhile isPyWs)
                (dz :: vz) (hreplws k)
                (by
                  intro cc hcc
                  refine ⟨List.mem_takeWhile_imp hcc, fun he => htwz (he ▸ hcc)⟩)
                (by
                  intro cc hcc
                  simp only [List.head?_cons, Option.some.injEq] at hcc
                  rw [← hcc]
                  exact dropWhile_head_false isPyWs z dz vz hdz)
                (by simp)
              rw [hres]
              have hz : z.takeWhile isPyWs ++ dz :: vz = z := by
                conv_rhs =>
                  rw [show z = z.takeWhile isPyWs ++ z.dropWhile isPyWs from
                    (List.takeWhile_append_dropWhile isPyWs z).symm, hdz]
              rw [hz]
            subst hej
            subst hej'
            rw [hgen e x1 d v hd htw, hgen e' y1 d2 v2 hd' htw']
            constructor
            · constructor <;> intro h <;> simp at h
            · intro w r h
              simp only [Option.some.injEq, Prod.mk.injEq] at h
              obtain ⟨hw2, hr2⟩ := h
              refine ⟨_, _, rfl, Or.inr ⟨x1, y1, hr2.symm, rfl, ?_⟩⟩
              rw [← hr2]
              have h11 := Coll.run 1 1 x1 y1 (le_refl 1) (le_refl 1)
                (by constructor <;> intro hh <;> omega) hhx hhy hsub
              simpa using h11

theorem dl_corr : ∀ (pat : List Char), (∀ c ∈ pat, ¬ c = '\n') →
    ∀ (x y : List Char), Coll x y →
    (dropLit pat x = none ↔ dropLit pat y = none)
    ∧ (∀ rx, dropLit pat x = some rx → ∃ ry, dropLit pat y = some ry ∧ Coll rx ry) := by
  intro pat
  induction pat with
  | nil =>
    intro _ x y h
    constructor
    · constructor <;> intro hh <;> simp [dropLit] at hh
    · intro rx hrx
      simp only [dropLit, Option.some.injEq] at hrx
      exact ⟨y, rfl, hrx ▸ h⟩
  | cons p pat' ih =>
    intro hpat x y hcoll
    have hpnl : ¬ p = '\n' := hpat p (by simp)
    cases hcoll with
    | nil =>
      constructor
      · exact Iff.rfl
      · intro rx hrx
        simp [dropLit] at hrx
    | copy c x1 y1 hc hsub =>
      by_cases hcp : c = p
      · have hstep : ∀ (z : List Char),
            dropLit (p :: pat') (c :: z) = dropLit pat' z := by
          intro z
          show (if c = p then dropLit pat' z else none) = _
          rw [if_pos hcp]
        rw [hstep x1, hstep y1]
        exact ih (fun e he => hpat e (by simp [he])) x1 y1 hsub
      · have hstep : ∀ (z : List Char),
            dropLit (p :: pat') (c :: z) = none := by
          intro z
          show (if c = p then dropLit pat' z else none) = none
          rw [if_neg hcp]
        rw [hstep x1, hstep y1]
        refine ⟨Iff.rfl, ?_⟩
        intro rx hrx
        simp at hrx
    | run j j' x1 y1 hj hj' hiff hhx hhy hsub =>
      have hstep : ∀ (k : Nat) (z : List Char), 1 ≤ k →
          dropLit (p :: pat') (List.replicate k '\n' ++ z) = none := by
        intro k z hk
        obtain ⟨e, he⟩ : ∃ e, k = e + 1 := ⟨k - 1, by omega⟩
        subst he
        show (if ('\n' : Char) = p then dropLit pat' (List.replicate e '\n' ++ z)
          else none) = none
        rw [if_neg (fun he2 => hpnl he2.symm)]
      rw [hstep j x1 hj, hstep j' y1 hj']
      refine ⟨Iff.rfl, ?_⟩
      intro rx hrx
      simp at hrx

theorem fc_cons_peel (ind : List Char) (c : Char) (t : List Char)
    (h : checkClose ind (c :: t) = none) :
    findClose ind (c :: t) = (findClose ind t).map (fun p => (c :: p.1, p.2)) := by
  cases hfc : findClose ind t with
  | none => rw [fc_cons_build ind c t h hfc, Option.map_none']
  | some p =>
    obtain ⟨b, w, r⟩ := p
    rw [fc_cons_peel_some ind c t b w r h hfc, Option.map_some']

theorem dl_it_nl (ind : List Char) (hindI : ∀ c ∈ ind, isIndentCh c = true)
    (Z : List Char) : dropLit (ind ++ ticks) ('\n' :: Z) = none := by
  cases ind with
  | nil =>
    show dropLit ticks ('\n' :: Z) = none
    have h : ¬ ('\n' : Char) = tick := by decide
    simp [ticks, dropLit, h]
  | cons c ind' =>
    have hc := hindI c (by simp)
    have h : ¬ ('\n' : Char) = c := by
      intro he
      rw [← he] at hc
      exact absurd hc (by decide)
    show (if ('\n' : Char) = c then dropLit (ind' ++ ticks) Z else none) = none
    rw [if_neg h]

theorem fc_run (ind : List Char) (hindI : ∀ c ∈ ind, isIndentCh c = true) :
    ∀ (a : Nat) (X : List Char),
      findClose ind (List.replicate (a + 1) '\n' ++ X)
        = (findClose ind ('\n' :: X)).map
            (fun p => (List.replicate a '\n' ++ p.1, p.2)) := by
  intro a
  induction a with
  | zero =>
    intro X
    show findClose ind ('\n' :: X) = _
    cases hfc : findClose ind ('\n' :: X) with
    | none => rfl
    | some p =>
      obtain ⟨b, w, r⟩ := p
      show some (b, w, r) = some ([] ++ b, w, r)
      simp
  | succ a' ih =>
    intro X
    have hck : checkClose ind ('\n' :: (List.replicate (a' + 1) '\n' ++ X)) = none := by
      rw [ck_nl_eq]
      show (match dropLit (ind ++ ticks) ('\n' :: (List.replicate a' '\n' ++ X)) with
        | some r3 => wsDollar r3
        | none => none) = none
      rw [dl_it_nl ind hindI]
    have hsh : List.replicate (a' + 1 + 1) '\n' ++ X
        = '\n' :: (List.replicate (a' + 1) '\n' ++ X) := rfl
    rw [hsh, fc_cons_peel ind '\n' _ hck, ih]
    cases hfc : findClose ind ('\n' :: X) with
    | none => rfl
    | some p =>
      obtain ⟨b, w, r⟩ := p
      show some ('\n' :: (List.replicate a' '\n' ++ b), w, r)
        = some (List.replicate (a' + 1) '\n' ++ b, w, r)
      rfl

theorem ck_nl_corr (x y : List Char) (hcoll : Coll x y) (ind : List Char)
    (hindI : ∀ c ∈ ind, isIndentCh c = true) :
    (checkClose ind ('\n' :: x) = none ↔ checkClose ind ('\n' :: y) = none)
    ∧ (∀ w r, checkClose ind ('\n' :: x) = some (w, r) →
        ∃ w' r', checkClose ind ('\n' :: y) = some (w', r')
          ∧ ((r = [] ∧ r' = [])
            ∨ (∃ rr rr', r = '\n' :: rr ∧ r' = '\n' :: rr' ∧ Coll r r'))) := by
  obtain ⟨hdl_iff, hdl_some⟩ := dl_corr (ind ++ ticks)
    (pattern_no_nl ind hindI) x y hcoll
  cases hdlx : dropLit (ind ++ ticks) x with
  | none =>
    have hdly : dropLit (ind ++ ticks) y = none := hdl_iff.mp hdlx
    have hx : checkClose ind ('\n' :: x) = none := by rw [ck_nl_eq, hdlx]
    have hy : checkClose ind ('\n' :: y) = none := by rw [ck_nl_eq, hdly]
    rw [hx, hy]
    refine ⟨Iff.rfl, ?_⟩
    intro w r h
    simp at h
  | some rx =>
    obtain ⟨ry, hdly, hrcoll⟩ := hdl_some rx hdlx
    have hx : checkClose ind ('\n' :: x) = wsDollar rx := by rw [ck_nl_eq, hdlx]
    have hy : checkClose ind ('\n' :: y) = wsDollar ry := by rw [ck_nl_eq, hdly]
    rw [hx, hy]
    exact wd_corr rx ry hrcoll

theorem fc_corr : ∀ (t t' : List Char), Coll t t' → ∀ (ind : List Char),
    (∀ c ∈ ind, isIndentCh c = true) →
    (findClose ind t = none ↔ findClose ind t' = none)
    ∧ (∀ b w r, findClose ind t = some (b, w, r) →
        ∃ b' w' r', findClose ind t' = some (b', w', r')
          ∧ ((r = [] ∧ r' = [])
            ∨ (∃ rr rr', r = '\n' :: rr ∧ r' = '\n' :: rr' ∧ Coll r r'))) := by
  intro t t' hcoll
  induction hcoll with
  | nil =>
    intro ind _
    refine ⟨Iff.rfl, ?_⟩
    intro b w r h
    rw [findClose_nil] at h
    simp at h
  | copy c x1 y1 hc hsub ih =>
    intro ind hindI
    obtain ⟨ih_iff, ih_some⟩ := ih ind hindI
    have hckx : checkClose ind (c :: x1) = none := ck_head_ne ind c x1 hc
    have hcky : checkClose ind (c :: y1) = none := ck_head_ne ind c y1 hc
    rw [fc_cons_peel ind c x1 hckx, fc_cons_peel ind c y1 hcky]
    constructor
    · rw [Option.map_eq_none', Option.map_eq_none']
      exact ih_iff
    · intro b w r h
      cases hfc : findClose ind x1 with
      | none =>
        rw [hfc] at h
        simp at h
      | some p =>
        obtain ⟨b0, w0, r0⟩ := p
        rw [hfc] at h
        simp only [Option.map_some', Option.some.injEq, Prod.mk.injEq] at h
        obtain ⟨hb2, hw2, hr2⟩ := h
        obtain ⟨b', w', r', hy, hcorr⟩ := ih_some b0 w0 r0 hfc
        rw [hy]
        refine ⟨c :: b', w', r', by simp, ?_⟩
        rw [← hr2]
        exact hcorr
  | run j j' x1 y1 hj hj' hiff hhx hhy hsub ih =>
    intro ind hindI
    obtain ⟨a, ha⟩ : ∃ a, j = a + 1 := ⟨j - 1, by omega⟩
    obtain ⟨a', ha'⟩ : ∃ a', j' = a' + 1 := ⟨j' - 1, by omega⟩
    subst ha
    subst ha'
    obtain ⟨ih_iff, ih_some⟩ := ih ind hindI
    obtain ⟨hck_iff, hck_some⟩ := ck_nl_corr x1 y1 hsub ind hindI
    rw [fc_run ind hindI a x1, fc_run ind hindI a' y1]
    cases hckx : checkClose ind ('\n' :: x1) with
    | some p =>
      obtain ⟨w0, r0⟩ := p
      obtain ⟨w', r', hcky, hcorr0⟩ := hck_some w0 r0 hckx
      have hfx : findClose ind ('\n' :: x1) = some ([], w0, r0) :=
        fc_cons_some_ck ind '\n' x1 w0 r0 hckx
      have hfy : findClose ind ('\n' :: y1) = some ([], w', r') :=
        fc_cons_some_ck ind '\n' y1 w' r' hcky
      rw [hfx, hfy]
      constructor
      · constructor <;> intro h <;> simp at h
      · intro b w r h
        simp only [Option.map_some', Option.some.injEq, Prod.mk.injEq] at h
        obtain ⟨hb2, hw2, hr2⟩ := h
        refine ⟨_, _, _, rfl, ?_⟩
        rw [← hr2]
        exact hcorr0
    | none =>
      have hcky : checkClose ind ('\n' :: y1) = none := hck_iff.mp hckx
      rw [fc_cons_peel ind '\n' x1 hckx, fc_cons_peel ind '\n' y1 hcky]
      constructor
      · rw [Option.map_eq_none', Option.map_eq_none', Option.map_eq_none',
          Option.map_eq_none']
        exact ih_iff
      · intro b w r h
        cases hfc : findClose ind x1 with
        | none =>
          rw [hfc] at h
          simp at h
        | some p =>
          obtain ⟨b0, w0, r0⟩ := p
          rw [hfc] at h
          simp only [Option.map_some', Option.some.injEq, Prod.mk.injEq] at h
          obtain ⟨hb2, hw2, hr2⟩ := h
          obtain ⟨b', w', r', hy, hcorr⟩ := ih_some b0 w0 r0 hfc
          rw [hy]
          refine ⟨_, _, _, rfl, ?_⟩
          rw [← hr2]
          exact hcorr

theorem coll_split_nl : ∀ (x y : List Char), Coll x y →
    ∃ C xr yr, ¬ '\n' ∈ C ∧ x = C ++ xr ∧ y = C ++ yr
      ∧ ((xr = [] ∧ yr = [])
        ∨ (∃ a a' x1 y1, (1 ≤ a ↔ 1 ≤ a')
            ∧ xr = '\n' :: (List.replicate a '\n' ++ x1)
            ∧ yr = '\n' :: (List.replicate a' '\n' ++ y1)
            ∧ (∀ c, x1.head? = some c → ¬ c = '\n')
            ∧ (∀ c, y1.head? = some c → ¬ c = '\n')
            ∧ Coll x1 y1)) := by
  intro x y hcoll
  induction hcoll with
  | nil => exact ⟨[], [], [], by simp, rfl, rfl, Or.inl ⟨rfl, rfl⟩⟩
  | copy c x1 y1 hc hsub ih =>
    obtain ⟨C, xr, yr, hC, hx, hy, hcase⟩ := ih
    refine ⟨c :: C, xr, yr, ?_, by rw [hx]; rfl, by rw [hy]; rfl, hcase⟩
    intro hm
    rcases List.mem_cons.mp hm with h | h
    · exact hc h.symm
    · exact hC h
  | run j j' x1 y1 hj hj' hiff hhx hhy hsub =>
    obtain ⟨a, ha⟩ : ∃ a, j = a + 1 := ⟨j - 1, by omega⟩
    obtain ⟨a', ha'⟩ : ∃ a', j' = a' + 1 := ⟨j' - 1, by omega⟩
    subst ha
    subst ha'
    refine ⟨[], _, _, by simp, rfl, rfl,
      Or.inr ⟨a, a', x1, y1, ?_, ?_, ?_, hhx, hhy, hsub⟩⟩
    · constructor <;> intro h
      · have : 2 ≤ a' + 1 := hiff.mp (by omega)
        omega
      · have : 2 ≤ a + 1 := hiff.mpr (by omega)
        omega
    · rfl
    · rfl

theorem fc_run_corr (ind : List Char) (hindI : ∀ c ∈ ind, isIndentCh c = true)
    (a a' : Nat) (haa : 1 ≤ a ↔ 1 ≤ a') (x1 y1 : List Char)
    (hhx : ∀ c, x1.head? = some c → ¬ c = '\n')
    (hhy : ∀ c, y1.head? = some c → ¬ c = '\n')
    (hsub : Coll x1 y1) :
    (findClose ind (List.replicate a '\n' ++ x1) = none
      ↔ findClose ind (List.replicate a' '\n' ++ y1) = none)
    ∧ (∀ b w r, findClose ind (List.replicate a '\n' ++ x1) = some (b, w, r) →
        ∃ b' w' r', findClose ind (List.replicate a' '\n' ++ y1) = some (b', w', r')
          ∧ ((r = [] ∧ r' = [])
            ∨ (∃ rr rr', r = '\n' :: rr ∧ r' = '\n' :: rr' ∧ Coll r r'))) := by
  cases a with
  | zero =>
    have ha' : a' = 0 := by
      by_contra hne
      exact absurd (haa.mpr (by omega)) (by omega)
    subst ha'
    simp only [List.replicate_zero, List.nil_append]
    exact fc_corr x1 y1 hsub ind hindI
  | succ e =>
    have ha1 : 1 ≤ a' := haa.mp (by omega)
    obtain ⟨e', he'⟩ : ∃ e', a' = e' + 1 := ⟨a' - 1, by omega⟩
    subst he'
    have hc1 : Coll ('\n' :: x1) ('\n' :: y1) := by
      have h := Coll.run 1 1 x1 y1 (by omega) (by omega)
        (by constructor <;> intro h <;> omega) hhx hhy hsub
      simpa using h
    obtain ⟨hiff, hsome⟩ := fc_corr _ _ hc1 ind hindI
    rw [fc_run ind hindI e x1, fc_run ind hindI e' y1]
    constructor
    · rw [Option.map_eq_none', Option.map_eq_none']
      exact hiff
    · intro b w r h
      cases hfc : findClose ind ('\n' :: x1) with
      | none =>
        rw [hfc] at h
        simp at h
      | some p =>
        obtain ⟨b0, w0, r0⟩ := p
        rw [hfc] at h
        simp only [Option.map_some', Option.some.injEq, Prod.mk.injEq] at h
        obtain ⟨hb2, hw2, hr2⟩ := h
        obtain ⟨b', w', r', hy2, hcorr⟩ := hsome b0 w0 r0 hfc
        rw [hy2]
        refine ⟨_, _, _, rfl, ?_⟩
        rw [← hr2]
        exact hcorr

theorem mf_corr (x y : List Char) (hcoll : Coll x y) :
    (matchFence? x = none ↔ matchFence? y = none)
    ∧ (∀ m, matchFence? x = some m → ∃ m2, matchFence? y = some m2
        ∧ m2.info = m.info
        ∧ ((m.rest = [] ∧ m2.rest = [])
          ∨ (∃ rr rr', m.rest = '\n' :: rr ∧ m2.rest = '\n' :: rr'
              ∧ Coll m.rest m2.rest))) := by
  obtain ⟨C, xr, yr, hC, hx, hy, hcase⟩ := coll_split_nl x y hcoll
  subst hx
  subst hy
  rcases hcase with ⟨hxr, hyr⟩ | ⟨a, a', x1, y1, haa, hxr, hyr, hhx, hhy, hsub⟩
  · subst hxr
    subst hyr
    rw [List.append_nil, mf_no_nl C hC]
    refine ⟨Iff.rfl, ?_⟩
    intro m h
    simp at h
  · subst hxr
    subst hyr
    have hindI : ∀ e ∈ C.takeWhile isIndentCh, isIndentCh e = true :=
      fun e he => List.mem_takeWhile_imp he
    obtain ⟨hfc_iff, hfc_some⟩ :=
      fc_run_corr (C.takeWhile isIndentCh) hindI a a' haa x1 y1 hhx hhy hsub
    by_cases h3 : (C.takeWhile isIndentCh).length > 3
    · rw [mf_line_none_of_len C _ hC h3, mf_line_none_of_len C _ hC h3]
      refine ⟨Iff.rfl, ?_⟩
      intro m h
      simp at h
    · cases hdl : dropLit ticks (C.dropWhile isIndentCh) with
      | none =>
        rw [mf_line_none_of_dl C _ hC hdl, mf_line_none_of_dl C _ hC hdl]
        refine ⟨Iff.rfl, ?_⟩
        intro m h
        simp at h
      | some rp =>
        cases hfcx : findClose (C.takeWhile isIndentCh) (List.replicate a '\n' ++ x1) with
        | none =>
          have hfcy := hfc_iff.mp hfcx
          rw [mf_line_fc_none C _ hC hfcx, mf_line_fc_none C _ hC hfcy]
          refine ⟨Iff.rfl, ?_⟩
          intro m h
          simp at h
        | some tr =>
          obtain ⟨b, w, r⟩ := tr
          obtain ⟨b', w', r', hfcy, hcorr⟩ := hfc_some b w r hfcx
          rw [mf_line_build C _ hC h3 rp hdl b w r hfcx,
            mf_line_build C _ hC h3 rp hdl b' w' r' hfcy]
          constructor
          · constructor <;> intro h <;> simp at h
          · intro m h
            simp only [Option.some.injEq] at h
            refine ⟨_, rfl, ?_, ?_⟩
            · rw [← h]
            · rw [← h]
              exact hcorr

theorem scan_coll : ∀ (n : Nat) (x y : List Char), x.length ≤ n → Coll x y →
    ∀ b, scanCl b x = true → scanCl b y = true := by
  intro n
  induction n with
  | zero =>
    intro x y hlen hcoll b h
    cases hcoll with
    | nil => exact h
    | copy c x1 y1 hc hsub => simp at hlen
    | run j j' x1 y1 hj hj' hiff2 hhx hhy hsub =>
      exfalso
      have : (List.replicate j '\n' ++ x1).length = j + x1.length := by simp
      omega
  | succ N ih =>
    intro x y hlen hcoll b h
    cases hcoll with
    | nil => exact h
    | copy c x1 y1 hc hsub =>
      have hlen1 : x1.length ≤ N := by
        simp only [List.length_cons] at hlen
        omega
      cases hmf : matchFence? (c :: x1) with
      | none =>
        obtain ⟨hiff, _⟩ := mf_corr (c :: x1) (c :: y1) (Coll.copy c x1 y1 hc hsub)
        rw [scanCl_cons b c y1 (Or.inr (hiff.mp hmf))]
        rw [scanCl_cons b c x1 (Or.inr hmf)] at h
        exact ih x1 y1 hlen1 hsub _ h
      | some m =>
        cases b with
        | false =>
          rw [scanCl_cons false c y1 (Or.inl rfl)]
          rw [scanCl_cons false c x1 (Or.inl rfl)] at h
          exact ih x1 y1 hlen1 hsub _ h
        | true =>
          obtain ⟨_, hsome⟩ := mf_corr (c :: x1) (c :: y1) (Coll.copy c x1 y1 hc hsub)
          obtain ⟨m2, hmfy, hinfo, hrest⟩ := hsome m hmf
          rw [scanCl_match _ m2 hmfy, hinfo]
          rw [scanCl_match _ m hmf] at h
          simp only [Bool.and_eq_true] at h ⊢
          obtain ⟨hne, hrest_scan⟩ := h
          refine ⟨hne, ?_⟩
          rcases hrest with ⟨hr, hr2⟩ | ⟨rr, rr', hr, hr2, hcoll2⟩
          · rw [hr2]
            exact scanCl_nil _
          · have hlen2 : m.rest.length ≤ N := by
              have hrl := rest_lt (c :: x1) m hmf
              simp only [List.length_cons] at hrl hlen
              omega
            have hx_eq : scanCl (lastIsNl m) m.rest = scanCl true m.rest := by
              rw [hr, scanCl_nl, scanCl_nl]
            have hy_eq : scanCl (lastIsNl m2) m2.rest = scanCl true m2.rest := by
              rw [hr2, scanCl_nl, scanCl_nl]
            rw [hy_eq]
            rw [hx_eq] at hrest_scan
            exact ih m.rest m2.rest hlen2 hcoll2 true hrest_scan
    | run j j' x1 y1 hj hj' hiff2 hhx hhy hsub =>
      obtain ⟨a, ha⟩ : ∃ a, j = a + 1 := ⟨j - 1, by omega⟩
      obtain ⟨a', ha'⟩ : ∃ a', j' = a' + 1 := ⟨j' - 1, by omega⟩
      subst ha
      subst ha'
      have hrep : ∀ (e : Nat) (z : List Char),
          List.replicate (e + 1) '\n' ++ z = List.replicate e '\n' ++ '\n' :: z := by
        intro e z
        rw [List.replicate_succ', List.append_assoc]
        rfl
      have hws : ∀ (e : Nat), ∀ d ∈ List.replicate e '\n', isPyWs d = true := by
        intro e d hd
        rw [List.eq_of_mem_replicate hd]
        decide
      rw [hrep a' y1, step_ws _ (hws a') b y1]
      rw [hrep a x1, step_ws _ (hws a) b x1] at h
      have hlen1 : x1.length ≤ N := by
        rw [List.length_append, List.length_replicate] at hlen
        omega
      exact ih x1 y1 hlen1 hsub true h

theorem stage1 (x : List Char) (b : Bool) (h : scanCl b x = true) :
    scanCl b (collapseNl x) = true :=
  scan_coll x.length x (collapseNl x) le_rfl (coll_collapse x.length x le_rfl) b h

theorem format_scan_clean (t : List Char) : scanCl true (format_markdown t) = true := by
  have h1 : scanCl true (subFences t) = true := by
    rw [subFences_eq_subF]
    exact a_main t.length t le_rfl true
  have h2 : scanCl true (collapseNl (subFences t)) = true := stage1 _ true h1
  obtain ⟨q, hsplit, hq⟩ := rstrip_split (collapseNl (subFences t))
  rw [hsplit] at h2
  exact st2 (rstripChars (collapseNl (subFences t)) ++ q).length
    (rstripChars (collapseNl (subFences t))) q le_rfl hq true h2

/-- C7: The full document transform (fence rewriting, then blank-line
normalization, then trailing-whitespace strip plus one appended newline) is
idempotent: for every input text, applying `format_markdown` to its own
output yields that output unchanged. -/
theorem transform_idempotent (t : List Char) :
    format_markdown (format_markdown t) = format_markdown t :=
  idem_of_scanClean t (format_scan_clean t)

end MarkdownFormatter
